import Mathlib

/-!
# devo: TiVo container decryption

A shallow embedding of the Go package `devo` (files `util.go`, `cipherpool.go`,
`devo.go`, `mpegps.go`, `mpegts.go`) together with theorems about it.

Conventions of the embedding

* A Go `byte` is a natural number below 256; `uint16`/`uint32` arithmetic is
  written on `Nat` with an explicit `% 2^w` wherever the Go operation can wrap.
* A Go run-time panic is the `Except.error` side of `Except Panic`; a Go
  `error` value is ordinary data of type `GoError`.
* A Go `[]byte` whose capacity equals its length is a `List Nat`; the two
  places where spare capacity is observable (`append` onto `basekey[:16]`, and
  re-slicing the result of `privateData`) model the capacity explicitly.
-/

namespace Devo

/-! ## Go run-time values -/

/-- A Go run-time panic. -/
inductive Panic where
  | explicit (msg : String)
  | indexOutOfRange
  | sliceBoundsOutOfRange
  /-- The `panic(err)` of `getCipher` when `turing.NewCipher` fails. -/
  | cipherError
  /-- Use of a cipher pointer that refers to no cipher object. -/
  | nilDereference
  /-- Not a Go panic: a loop of the embedding ran out of its iteration bound. -/
  | outOfFuel
  deriving DecidableEq, Repr

/-- Go `error` values produced by the package. The constructors keep the
arguments that the Go code formats into the message text. -/
inductive GoError where
  /-- Value `io.EOF`. -/
  | EOF
  /-- Value `io.ErrUnexpectedEOF`. -/
  | ErrUnexpectedEOF
  /-- Text "not a tivo file (missing magic 'TiVo' marker)". -/
  | notTivoFile
  /-- Text "metadata offset error". -/
  | metadataOffset
  /-- Text "devo: error parsing metadata: %s". -/
  | parsingMetadata (cause : GoError)
  /-- Text "devo: error processing input: %s". -/
  | processingInput (cause : GoError)
  /-- Text "invalid PS packet code: 0x%08x". -/
  | invalidPSCode (code : Nat)
  /-- Text "failed while processing mpegps packet %d: %s". -/
  | psPacketFailed (count : Nat) (cause : GoError)
  /-- Text "failed while processing mpegts packet %d: %s". -/
  | tsPacketFailed (count : Nat) (cause : GoError)
  /-- Text "PAT table contains unsupported pointer to additional data". -/
  | patPointer
  /-- Text "bogus PAT length -- additional programs present?". -/
  | patLength
  /-- Text "PMT table contains unsupported pointer to additional data". -/
  | pmtPointer
  /-- Text "Failed to locate PID of private data". -/
  | pmtNoPrivate
  /-- Text "bogus private data packet -- missing 'TiVo' magic bytes". -/
  | privateMagic
  /-- Text "bogus private table length: %d". -/
  | privateLength (tableLength : Nat)
  /-- Text "cipher missing for scrambled packet with id 0x%04x". -/
  | cipherMissing (pid : Nat)
  /-- Text "expected sync byte, got 0x%02x instead". -/
  | badSync (got : Nat)
  deriving DecidableEq, Repr

deriving instance DecidableEq for Except

/-- Every element is a Go `byte`. -/
def isBytes (s : List Nat) : Prop := ∀ b ∈ s, b < 256

instance (s : List Nat) : Decidable (isBytes s) := by
  unfold isBytes; infer_instance

/-- Go `s[i]` on a slice: panics when `i` is not below the length. -/
def index (s : List Nat) (i : Nat) : Except Panic Nat :=
  match s.get? i with
  | some b => .ok b
  | none => .error .indexOutOfRange

/-- Go `s[lo:hi]` on a slice whose capacity equals its length. -/
def slice (s : List Nat) (lo hi : Nat) : Except Panic (List Nat) :=
  if lo ≤ hi ∧ hi ≤ s.length then .ok ((s.take hi).drop lo)
  else .error .sliceBoundsOutOfRange

/-- Go `s[lo:]` on a slice. -/
def sliceFrom (s : List Nat) (lo : Nat) : Except Panic (List Nat) :=
  if lo ≤ s.length then .ok (s.drop lo) else .error .sliceBoundsOutOfRange

/-! ## util.go -/

/-- Function `confounder` of util.go: three bytes (the Go type `[3]byte`, here
a triple) packed from the first four bytes of `scrambled`; panics on fewer than
four bytes. The shifts are `uint8` shifts, hence the `% 256`. -/
def confounder (scrambled : List Nat) : Except Panic (Nat × Nat × Nat) :=
  match scrambled with
  | s0 :: s1 :: s2 :: s3 :: _ =>
    .ok ( (((s0 &&& 0x3f) <<< 2) % 256) ||| (s1 >>> 6),
          (((s1 &&& 0x3f) <<< 2) % 256) ||| (s2 >>> 6),
          (((s2 &&& 0x1f) <<< 3) % 256) ||| (s3 >>> 5) )
  | _ => .error (.explicit "expected at least 4 bytes")

/-- Function `joinShort` of util.go. -/
def joinShort (octets : List Nat) : Except Panic Nat :=
  match octets with
  | [o0, o1] => .ok (((o0 <<< 8) % 65536) ||| o1)
  | _ => .error (.explicit "expected 2 bytes")

/-- Function `joinWord` of util.go. -/
def joinWord (octets : List Nat) : Except Panic Nat :=
  match octets with
  | [o0, o1, o2, o3] =>
    .ok (((o0 <<< 24) % 4294967296) ||| ((o1 <<< 16) % 4294967296)
          ||| ((o2 <<< 8) % 4294967296) ||| o3)
  | _ => .error (.explicit "expected 4 bytes")

/-- Function `wordOctet` of util.go. The shift count `24 - n*8` is computed in
the 64-bit type `uint`, and a `uint32` shifted right by 32 or more is 0. -/
def wordOctet (word : Nat) (n : Nat) : Nat :=
  let count := (24 + 2 ^ 64 - (n * 8) % 2 ^ 64) % 2 ^ 64
  if count < 32 then ((word >>> count) &&& 0xff) % 256 else 0


/-! ## Input streams (`io.Reader`) -/

/-- An `io.Reader`: the bytes still to come, grouped into the chunks in which
the reader hands them out. One call of `Read` never returns bytes of more than
one chunk, so a reader with several chunks is one that makes short reads (a
pipe, a socket); a regular file is a reader with a single chunk. An empty
chunk is a `Read` that returns no byte and no error. -/
abbrev Reader := List (List Nat)

/-- All bytes the reader still holds, in order. -/
def Reader.remaining (r : Reader) : List Nat := r.flatten

/-- Method `Read` of `io.Reader` with a buffer of `n` bytes: the bytes read,
the error, and the reader afterwards. A zero-length read returns `0, nil`;
at end of input the result is `0, io.EOF`. -/
def Reader.read (r : Reader) (n : Nat) : (List Nat × Option GoError) × Reader :=
  if n = 0 then (([], none), r)
  else match r with
    | [] => (([], some .EOF), [])
    | c :: rest =>
      if c.length ≤ n then ((c, none), rest)
      else ((c.take n, none), c.drop n :: rest)

/-- The loop of `io.ReadAtLeast`: repeated `Read` calls until `need` bytes have
arrived or the reader reports end of input. -/
def readLoop (need : Nat) (r : Reader) : List Nat × Reader :=
  match r with
  | [] => ([], [])
  | c :: rest =>
    if need = 0 then ([], c :: rest)
    else if c.length ≤ need then
      let res := readLoop (need - c.length) rest
      (c ++ res.1, res.2)
    else (c.take need, c.drop need :: rest)

/-- Function `io.ReadFull` with a buffer of `n` bytes: `io.EOF` when no byte
could be read, `io.ErrUnexpectedEOF` when some but fewer than `n`. -/
def readFull (n : Nat) (r : Reader) : (List Nat × Option GoError) × Reader :=
  let res := readLoop n r
  if res.1.length = n then ((res.1, none), res.2)
  else if res.1.length = 0 then ((res.1, some .EOF), res.2)
  else ((res.1, some .ErrUnexpectedEOF), res.2)

/-- Big-endian value of a byte string (`binary.BigEndian`). -/
def beUint (bs : List Nat) : Nat := bs.foldl (fun acc b => acc * 256 + b) 0

/-- Call `io.CopyN(ioutil.Discard, src, n)`: a count `n ≤ 0` reads nothing and
succeeds; otherwise up to `n` bytes are read and `io.EOF` is returned when the
input ends first. -/
def copyNDiscard (src : Reader) (n : Int) : Option GoError × Reader :=
  if n ≤ 0 then (none, src)
  else
    let res := readLoop n.toNat src
    if res.1.length = n.toNat then (none, res.2) else (some .EOF, res.2)

/-- Method `Peek(1)` of the `bufio.Reader` wrapped around the input: `true`
when it returns `io.EOF`, that is when no byte is left. -/
def peekEOF (r : Reader) : Bool := r.remaining.isEmpty

/-! ## External primitives -/

/-- The two library primitives the package imports: `crypto/sha1` and the
stream cipher of `github.com/bobziuchkovski/turing`. They are parameters of the
embedding. A `turing.Cipher` implements `cipher.Stream`: `XORKeyStream` XORs
each byte with the next byte of the key stream and keeps its position between
calls, which is what `next` provides. -/
structure Primitives where
  /-- The state of one `turing.Cipher` object. -/
  State : Type
  /-- Function `sha1.Sum`. -/
  sha1 : List Nat → List Nat
  /-- The result type of `sha1.Sum` is `[20]byte`. -/
  sha1_length : ∀ m, (sha1 m).length = 20
  /-- Function `turing.NewCipher(key, iv)`; `none` is a non-nil error. -/
  NewCipher : List Nat → List Nat → Option State
  /-- The next key stream byte and the state after producing it. -/
  next : State → Nat × State

/-- The state after `n` key stream bytes have been produced. -/
def advance (P : Primitives) (c : P.State) : Nat → P.State
  | 0 => c
  | n + 1 => advance P (P.next c).2 n

/-- The next `n` key stream bytes. -/
def keystream (P : Primitives) (c : P.State) : Nat → List Nat
  | 0 => []
  | n + 1 => (P.next c).1 :: keystream P (P.next c).2 n

/-- Method `XORKeyStream(data, data)` on a cipher state: the state afterwards
and the new contents of `data`. -/
def XORKeyStream (P : Primitives) (c : P.State) : List Nat → P.State × List Nat
  | [] => (c, [])
  | b :: bs =>
    let res := XORKeyStream P (P.next c).2 bs
    (res.1, (b ^^^ (P.next c).1) :: res.2)

/-! ## cipherpool.go -/

/-- Struct `cipherHandle`. -/
structure cipherHandle where
  id : Nat
  confounder : Nat × Nat × Nat
  deriving DecidableEq, Repr

/-- Lookup in a Go map, kept as an association list with unique keys. -/
def mapGet {κ ν : Type} [DecidableEq κ] : List (κ × ν) → κ → Option ν
  | [], _ => none
  | (k', v) :: m, k => if k' = k then some v else mapGet m k

/-- Assignment `m[k] = v` in a Go map. -/
def mapSet {κ ν : Type} [DecidableEq κ] (m : List (κ × ν)) (k : κ) (v : ν) : List (κ × ν) :=
  (k, v) :: m.filter (fun e => e.1 ≠ k)

/-- Struct `cipherPool`. A `*turing.Cipher` is an index into `heap`, the list of
cipher objects allocated so far, so that two pointers are the same instance
exactly when they are the same index. -/
structure cipherPool (P : Primitives) where
  mak : List Nat
  iv : List Nat
  ciphers : List (cipherHandle × Nat)
  heap : List P.State

/-- Function `newCipherPool`. -/
def newCipherPool (P : Primitives) (mak iv : List Nat) : cipherPool P :=
  { mak := mak, iv := iv, ciphers := [], heap := [] }

/-- Go `append(arr[:n], xs...)` for an array `arr`: the slice `arr[:n]` has the
capacity of the whole array, so when the new elements fit they are written
into `arr` itself. Returns the array afterwards and the resulting slice. -/
def appendInto (arr : List Nat) (n : Nat) (xs : List Nat) : List Nat × List Nat :=
  if n + xs.length ≤ arr.length then
    (arr.take n ++ xs ++ arr.drop (n + xs.length), arr.take n ++ xs)
  else (arr, arr.take n ++ xs)

/-- Method `cipherPool.getCipher`: the pool afterwards and the returned
pointer. -/
def getCipher (P : Primitives) (pool : cipherPool P) (id : Nat) (confounder : Nat × Nat × Nat) :
    Except Panic (cipherPool P × Nat) :=
  let handle : cipherHandle := { id := id, confounder := confounder }
  match mapGet pool.ciphers handle with
  | some c => .ok (pool, c)
  | none =>
    let basekey := P.sha1 (pool.mak ++ pool.iv)
    let a1 := appendInto basekey 16 [handle.id]
    let derivedkey := P.sha1 a1.2
    let a2 := appendInto a1.1 16
      [handle.id, handle.confounder.1, handle.confounder.2.1, handle.confounder.2.2]
    let derivediv := P.sha1 a2.2
    match P.NewCipher derivedkey derivediv with
    | none => .error .cipherError
    | some st =>
      .ok ({ pool with ciphers := mapSet pool.ciphers handle pool.heap.length,
                       heap := pool.heap ++ [st] }, pool.heap.length)

/-- Call `c.XORKeyStream(data, data)` through the pointer `c`: the pool with
the advanced cipher object, and the new contents of `data`. -/
def xorThrough (P : Primitives) (pool : cipherPool P) (c : Nat) (data : List Nat) :
    Except Panic (cipherPool P × List Nat) :=
  match pool.heap.get? c with
  | none => .error .nilDereference
  | some st =>
    let res := XORKeyStream P st data
    .ok ({ pool with heap := pool.heap.set c res.1 }, res.2)


/-! ## devo.go: the header parser -/

def tsType : Nat := 0x20

/-- Struct `fileHeader` (the two reserved fields are read and dropped). -/
structure fileHeader where
  Magic : List Nat
  Flags : Nat
  VideoOffset : Nat
  MetaSegments : Nat
  deriving DecidableEq, Repr

/-- Struct `metaHeader` (field `Type` is spelled `Typ`). -/
structure metaHeader where
  ChunkSize : Nat
  DataSize : Nat
  ID : Nat
  Typ : Nat
  deriving DecidableEq, Repr

/-- Struct `metadata`. -/
structure metadata where
  Header : metaHeader
  Content : List Nat
  deriving DecidableEq, Repr

/-- The zero value of `fileHeader`. -/
def fileHeader.zero : fileHeader :=
  { Magic := [0, 0, 0, 0], Flags := 0, VideoOffset := 0, MetaSegments := 0 }

/-- Decoding of the 16 bytes that `binary.Read` fetched for a `fileHeader`. -/
def decodeFileHeader (bs : List Nat) : fileHeader :=
  { Magic := bs.take 4,
    Flags := beUint ((bs.drop 6).take 2),
    VideoOffset := beUint ((bs.drop 10).take 4),
    MetaSegments := beUint ((bs.drop 14).take 2) }

/-- Decoding of the 12 bytes that `binary.Read` fetched for a `metaHeader`. -/
def decodeMetaHeader (bs : List Nat) : metaHeader :=
  { ChunkSize := beUint (bs.take 4),
    DataSize := beUint ((bs.drop 4).take 4),
    ID := beUint ((bs.drop 8).take 2),
    Typ := beUint ((bs.drop 10).take 2) }

/-- The ASCII tag "TiVo". -/
def tivoMagic : List Nat := [0x54, 0x69, 0x56, 0x6f]

/-- What `readFileMetadata` returns, with the reader afterwards and the final
value of the local variable `position`. -/
structure metaResult where
  header : fileHeader
  meta : List metadata
  err : Option GoError
  src : Reader
  position : Nat
  deriving DecidableEq, Repr

/-- The `for i := range meta` loop of `readFileMetadata` with `todo` iterations
left; `done` are the segments already stored in `meta`. On an error return the
segments not yet read are left out of `meta`. -/
def readSegments (header : fileHeader) :
    Nat → List metadata → Nat → Reader → metaResult
  | 0, done, position, src =>
    -- Skip forward to video content
    let skip := copyNDiscard src ((header.VideoOffset : Int) - (position : Int))
    { header := header, meta := done, err := skip.1, src := skip.2, position := position }
  | todo + 1, done, position, src =>
    let h := readFull 12 src
    match h.1.2 with
    | some e => { header := header, meta := done, err := some e, src := h.2, position := position }
    | none =>
      let hdr := decodeMetaHeader h.1.1
      -- `src.Read(current.Content)`: one call, the byte count is dropped
      let c := h.2.read hdr.DataSize
      match c.1.2 with
      | some e => { header := header, meta := done, err := some e, src := c.2, position := position }
      | none =>
        let current : metadata :=
          { Header := hdr,
            Content := c.1.1 ++ List.replicate (hdr.DataSize - c.1.1.length) 0 }
        let m := readFull 4 c.2
        match m.1.2 with
        | some e =>
          { header := header, meta := done ++ [current], err := some e, src := m.2,
            position := position }
        | none =>
          if beUint m.1.1 ≠ 0 then
            { header := header, meta := done ++ [current], err := some .metadataOffset,
              src := m.2, position := position }
          else
            readSegments header todo (done ++ [current]) (position + (16 + hdr.DataSize)) m.2

/-- Function `readFileMetadata`. The length of `meta` is computed in `uint16`. -/
def readFileMetadata (src : Reader) : metaResult :=
  let h := readFull 16 src
  match h.1.2 with
  | some e => { header := fileHeader.zero, meta := [], err := some e, src := h.2, position := 0 }
  | none =>
    let header := decodeFileHeader h.1.1
    if header.Magic ≠ tivoMagic then
      { header := header, meta := [], err := some .notTivoFile, src := h.2, position := 0 }
    else
      readSegments header ((header.MetaSegments + 65535) % 65536) [] 16 h.2

/-! ## mpegps.go -/

def psPrefix : Nat := 0x000001
def psSequenceHeader : Nat := 0xb3
def psSequenceExtension : Nat := 0xb5
def psGroupHeader : Nat := 0xb8
def psProgramEnd : Nat := 0xb9
def psPackStart : Nat := 0xba
def psSystemHeader : Nat := 0xbb
def psStreamMap : Nat := 0xbc

/-- Length of headers by flag bit (bit 0 .. 7). -/
def flagLengths : List Nat := [1, 2, 1, 1, 3, 6, 5, 5]

/-- Struct `psPacket`. Apart from pack-start packets the capacity of `content`
equals its length. -/
structure psPacket where
  id : Nat
  content : List Nat
  deriving DecidableEq, Repr

/-- Function `psCode`. -/
def psCode (id : Nat) : Nat := ((psPrefix <<< 8) % 4294967296) ||| id

/-- Method `psPacket.scramble`. -/
def psPacket.scramble (packet : psPacket) : Except Panic Nat :=
  if packet.id = psPackStart ∨ packet.id = psProgramEnd then .ok 0
  else do
    let b ← index packet.content 0
    pure ((b &&& 0x30) >>> 4)

/-- Method `psPacket.clearScramble`. -/
def psPacket.clearScramble (packet : psPacket) : Except Panic psPacket := do
  let s ← packet.scramble
  if s ≠ 0 then
    let b ← index packet.content 0
    pure { packet with content := packet.content.set 0 (b &&& 0xcf) }
  else pure packet

/-- The offset in `content` at which the slice returned by `psPacket.payload`
starts; the payload is `content[offset:]`. -/
def psPacket.payloadOffset (packet : psPacket) : Except Panic Nat :=
  if packet.id = psPackStart ∨ packet.id = psStreamMap ∨ packet.id = psSystemHeader then .ok 0
  else do
    let l ← index packet.content 2
    let hdrlen := l + 3
    if hdrlen ≤ packet.content.length then pure hdrlen
    else .error .sliceBoundsOutOfRange

/-- Method `psPacket.payload`. -/
def psPacket.payload (packet : psPacket) : Except Panic (List Nat) := do
  let off ← packet.payloadOffset
  pure (packet.content.drop off)

/-- A Go slice with spare capacity: `store` holds the elements from the start
of the slice up to its capacity, of which the first `len` are the slice. -/
structure CapSlice where
  store : List Nat
  len : Nat
  deriving DecidableEq, Repr

/-- Go `s[lo:hi]` on a slice with spare capacity: `hi` is checked against the
capacity, not the length. -/
def CapSlice.reslice (s : CapSlice) (lo hi : Nat) : Except Panic (List Nat) :=
  if lo ≤ hi ∧ hi ≤ s.store.length then .ok ((s.store.take hi).drop lo)
  else .error .sliceBoundsOutOfRange

/-- The offset computed by the loop over `flagLengths` in `privateData`. -/
def privateOffset (flags : Nat) : Nat :=
  (flagLengths.enum.foldl
    (fun offset bl => if flags &&& (1 <<< bl.1) ≠ 0 then offset + bl.2 else offset) 3)

/-- Method `psPacket.privateData`: the slice `content[offset : hdrlen-remaining]`. -/
def psPacket.privateData (packet : psPacket) : Except Panic CapSlice := do
  let flags ← index packet.content 1
  let l ← index packet.content 2
  let hdrlen := l + 3
  let offset := privateOffset flags
  if offset ≤ hdrlen - 3 ∧ hdrlen - 3 ≤ packet.content.length then
    pure { store := packet.content.drop offset, len := hdrlen - 3 - offset }
  else .error .sliceBoundsOutOfRange

/-- Struct `psDecryptor`. -/
structure psDecryptor (P : Primitives) where
  pool : cipherPool P

/-- Function `newPSDecryptor`. -/
def newPSDecryptor (P : Primitives) (mak iv : List Nat) : psDecryptor P :=
  { pool := newCipherPool P mak iv }

/-- Method `psDecryptor.decryptPacket`. -/
def psDecryptor.decryptPacket {P : Primitives} (dec : psDecryptor P) (packet : psPacket) :
    Except Panic (psDecryptor P × psPacket) := do
  let pd ← packet.privateData
  let scrambled ← pd.reslice 1 5
  let conf ← confounder scrambled
  let got ← getCipher P dec.pool packet.id conf
  -- We throw out the first four bytes of the cipher stream
  let dummy ← xorThrough P got.1 got.2 [0, 0, 0, 0]
  -- Use the rest of the stream to decrypt the packet payload
  let off ← packet.payloadOffset
  let enc ← xorThrough P dummy.1 got.2 (packet.content.drop off)
  let packet1 : psPacket := { packet with content := packet.content.take off ++ enc.2 }
  let packet2 ← packet1.clearScramble
  pure ({ pool := enc.1 }, packet2)

/-- Method `psDecryptor.processPacket` (its error result is always nil). -/
def psDecryptor.processPacket {P : Primitives} (dec : psDecryptor P) (packet : psPacket) :
    Except Panic (psDecryptor P × psPacket) :=
  if packet.id = psStreamMap then do
    -- Twiddle stream map for decrypted stream
    let pl ← packet.payload
    let b ← index pl 0
    pure (dec, { packet with content := packet.content.set 0 (b &&& 0xdf) })
  else do
    let s ← packet.scramble
    if s ≠ 0 then dec.decryptPacket packet else pure (dec, packet)

/-- Function `readPSPacket`: the packet or the error, and the reader afterwards. -/
def readPSPacket (src : Reader) : Except GoError psPacket × Reader :=
  let c := readFull 4 src
  match c.1.2 with
  | some e => (.error e, c.2)
  | none =>
    let code := beUint c.1.1
    if code >>> 8 ≠ psPrefix then (.error (.invalidPSCode code), c.2)
    else
      let id := wordOctet code 3
      if id = psProgramEnd then
        -- Empty content
        (.ok { id := id, content := [] }, c.2)
      else if id = psPackStart then
        -- Pack start content
        let body := readFull 10 c.2
        match body.1.2 with
        | some e => (.error e, body.2)
        | none =>
          -- Stuffing bytes
          let scount := (body.1.1.getD 9 0) &&& 0x07
          let stuffing := readFull scount body.2
          match stuffing.1.2 with
          | some e => (.error e, stuffing.2)
          | none => (.ok { id := id, content := body.1.1 ++ stuffing.1.1 }, stuffing.2)
      else
        -- Remaining packets are all in type-length-value format
        let len := readFull 2 c.2
        match len.1.2 with
        | some e => (.error e, len.2)
        | none =>
          let length := beUint len.1.1
          let content := readFull length len.2
          match content.1.2 with
          | some e => (.error e, content.2)
          | none => (.ok { id := id, content := content.1.1 }, content.2)

/-- The bytes of a `uint16` in big-endian order. -/
def putUint16 (v : Nat) : List Nat := [(v / 256) % 256, v % 256]

/-- The bytes of a `uint32` in big-endian order. -/
def putUint32 (v : Nat) : List Nat :=
  [(v / 16777216) % 256, (v / 65536) % 256, (v / 256) % 256, v % 256]

/-- Function `writePSPacket`: the bytes handed to the writer (a writer that
accepts every write). -/
def writePSPacket (p : psPacket) : List Nat :=
  let code := ((psPrefix <<< 8) % 4294967296) ||| p.id
  let head := putUint32 code
  if p.id = psPackStart ∨ p.id = psProgramEnd then head ++ p.content
  else head ++ putUint16 (p.content.length % 65536) ++ p.content

/-- Result of a decrypt loop: the error returned, the bytes written to the
output buffer, and the input left unread. -/
structure runResult where
  err : Option GoError
  out : List Nat
  src : Reader
  deriving DecidableEq, Repr

/-- The error handling after the `for` loop of `psDecryptor.decrypt`. -/
def psFinish (count : Nat) (err : Option GoError) : Option GoError :=
  -- An EOF is unexpected.  We expect to read psProgramEnd prior to hitting EOF.
  let err := if err = some .EOF then some .ErrUnexpectedEOF else err
  match err with
  | some e => some (.psPacketFailed count e)
  | none => none

/-- The `for` loop of `psDecryptor.decrypt`; `count` is the value of the
counter on entry to the iteration. Every iteration that does not leave the
loop takes at least four bytes from the input, so `fuel` bounds the number of
iterations. -/
def psDecryptLoop {P : Primitives} :
    Nat → psDecryptor P → Nat → List Nat → Reader → Except Panic (psDecryptor P × runResult)
  | 0, _, _, _, _ => .error .outOfFuel
  | fuel + 1, dec, count, out, src =>
    let count := count + 1
    let r := readPSPacket src
    match r.1 with
    | .error e => .ok (dec, { err := psFinish count (some e), out := out, src := r.2 })
    | .ok packet =>
      match dec.processPacket packet with
      | .error p => .error p
      | .ok (dec1, packet1) =>
        let out1 := out ++ writePSPacket packet1
        if packet1.id = psProgramEnd then
          .ok (dec1, { err := psFinish count none, out := out1, src := r.2 })
        else psDecryptLoop fuel dec1 count out1 r.2

/-- Method `psDecryptor.decrypt`. -/
def psDecryptor.decrypt {P : Primitives} (dec : psDecryptor P) (src : Reader) :
    Except Panic (psDecryptor P × runResult) :=
  psDecryptLoop (src.remaining.length + 1) dec 0 [] src


/-! ## mpegts.go -/

def tsSync : Nat := 0x47
def tsPatID : Nat := 0x0000
def tsIDMask : Nat := 0x1fff
def tsPrivateType : Nat := 0x97
def tsPrivateLength : Nat := 20

/-- Struct `tsPacket`; `content` is the array `[188]byte`, so an index below
188 is always in range and is read with `getD`. -/
structure tsPacket where
  content : List Nat
  deriving DecidableEq, Repr

/-- Struct `tsDecryptor`: `ciphers` maps a packet id to a cipher pointer of the
pool. -/
structure tsDecryptor (P : Primitives) where
  pool : cipherPool P
  ciphers : List (Nat × Nat)
  pmtID : Nat
  privateID : Nat

/-- Function `newTSDecryptor`. -/
def newTSDecryptor (P : Primitives) (mak iv : List Nat) : tsDecryptor P :=
  { pool := newCipherPool P mak iv, ciphers := [], pmtID := 0, privateID := 0 }

/-- Function `extractPacketID`. -/
def extractPacketID (b : List Nat) : Except Panic Nat := do
  let v ← joinShort b
  pure (v &&& tsIDMask)

/-- Method `tsPacket.payloadStart`. -/
def tsPacket.payloadStart (p : tsPacket) : Bool := (p.content.getD 1 0) &&& (1 <<< 6) ≠ 0

/-- Method `tsPacket.id`. -/
def tsPacket.id (p : tsPacket) : Except Panic Nat := do
  let b ← slice p.content 1 3
  extractPacketID b

/-- Method `tsPacket.scramble`. -/
def tsPacket.scramble (p : tsPacket) : Nat := (p.content.getD 3 0) >>> 6

/-- Method `tsPacket.clearScramble`. -/
def tsPacket.clearScramble (p : tsPacket) : tsPacket :=
  { content := p.content.set 3 ((p.content.getD 3 0) ^^^ 0xc0) }

/-- Method `tsPacket.hasAdaptation`. -/
def tsPacket.hasAdaptation (p : tsPacket) : Bool := (p.content.getD 3 0) &&& (1 <<< 5) ≠ 0

/-- Method `tsPacket.hasPayload`. -/
def tsPacket.hasPayload (p : tsPacket) : Bool := (p.content.getD 3 0) &&& (1 <<< 4) ≠ 0

/-- Method `tsPacket.counter`. -/
def tsPacket.counter (p : tsPacket) : Nat := (p.content.getD 3 0) &&& 0x0f

/-- The local variable `offset` of `tsPacket.payload`, of type `uint8`. -/
def tsPacket.payloadOffset (p : tsPacket) : Nat :=
  if p.hasAdaptation then (5 + p.content.getD 4 0) % 256 else 4

/-- Method `tsPacket.payload`: the slice `content[offset:]`. -/
def tsPacket.payload (p : tsPacket) : Except Panic (List Nat) :=
  sliceFrom p.content p.payloadOffset

/-- Value of `joinWord(payload[offset:offset+4])`. -/
def wordAt (payload : List Nat) (offset : Nat) : Except Panic Nat := do
  let b ← slice payload offset (offset + 4)
  joinWord b

/-- Method `tsDecryptor.processPAT`. -/
def tsDecryptor.processPAT {P : Primitives} (dec : tsDecryptor P) (p : tsPacket) :
    Except Panic (tsDecryptor P × Option GoError) := do
  let payload ← p.payload
  let pointer ← index payload 0
  if pointer ≠ 0x00 then pure (dec, some .patPointer)
  else
    -- We expect only a single program in the stream, which should mean a length of 13
    let l ← slice payload 2 4
    let l ← joinShort l
    let length := l &&& 0x0fff
    if length ≠ 13 then pure (dec, some .patLength)
    else
      let b ← slice payload 11 13
      let pid ← extractPacketID b
      pure ({ dec with pmtID := pid }, none)

/-- The `for uint16(offset) < length` loop of `processPMT`: the private-data
packet id when a stream of type `tsPrivateType` is found, `none` when the loop
ends without one. The offset grows by 5 per iteration and indexes the payload,
so `fuel` bounds the number of iterations. -/
def pmtLoop (payload : List Nat) (length : Nat) : Nat → Nat → Except Panic (Option Nat)
  | 0, _ => .error .outOfFuel
  | fuel + 1, offset =>
    if offset % 65536 < length then do
      let streamType ← index payload offset
      if streamType = tsPrivateType then
        let b ← slice payload (offset + 1) (offset + 3)
        let pid ← extractPacketID b
        pure (some pid)
      else pmtLoop payload length fuel (offset + 5)
    else pure none

/-- Method `tsDecryptor.processPMT`. -/
def tsDecryptor.processPMT {P : Primitives} (dec : tsDecryptor P) (p : tsPacket) :
    Except Panic (tsDecryptor P × Option GoError) := do
  let payload ← p.payload
  let pointer ← index payload 0
  if pointer ≠ 0x00 then pure (dec, some .pmtPointer)
  else
    -- Grab table length
    let l ← slice payload 2 4
    let l ← joinShort l
    let length := l &&& 0x0fff
    let found ← pmtLoop payload length (payload.length + 1) 13
    match found with
    | some pid => pure ({ dec with privateID := pid }, none)
    | none => pure (dec, some .pmtNoPrivate)

/-- The loop over the confounder table in `processPrivate`, with `n` entries
left and the next entry at `offset`. -/
def privateLoop {P : Primitives} (payload : List Nat) :
    Nat → cipherPool P → List (Nat × Nat) → Nat → Except Panic (cipherPool P × List (Nat × Nat))
  | 0, pool, ciphers, _ => .ok (pool, ciphers)
  | n + 1, pool, ciphers, offset => do
    let b ← slice payload offset (offset + 2)
    let pid ← extractPacketID b
    let streamID ← index payload (offset + 2)
    let sc ← slice payload (offset + 5) (offset + 9)
    let conf ← confounder sc
    let got ← getCipher P pool streamID conf
    privateLoop payload n got.1 (mapSet ciphers pid got.2) (offset + tsPrivateLength)

/-- Method `tsDecryptor.processPrivate`. -/
def tsDecryptor.processPrivate {P : Primitives} (dec : tsDecryptor P) (p : tsPacket) :
    Except Panic (tsDecryptor P × Option GoError) := do
  let payload ← p.payload
  let magic ← slice payload 0 4
  if magic ≠ tivoMagic then pure (dec, some .privateMagic)
  else
    -- Grab length of confounder table
    let tableLength ← index payload 9
    if tableLength % tsPrivateLength ≠ 0 then pure (dec, some (.privateLength tableLength))
    else
      -- Extract confounders from table and construct the appropriate cipher
      let res ← privateLoop payload (tableLength / tsPrivateLength) dec.pool [] 10
      pure ({ dec with pool := res.1, ciphers := res.2 }, none)

/-- The `for joinWord(...) == psCode(psSequenceHeader)` loop of
`tsDecryptor.decryptPacket`: the offset after the sequence headers. The offset
grows by at least 12 per iteration and the slice expression bounds it by the
payload length, so `fuel` bounds the number of iterations. -/
def sequenceLoop (payload : List Nat) : Nat → Nat → Except Panic Nat
  | 0, _ => .error .outOfFuel
  | fuel + 1, offset => do
    let w ← wordAt payload offset
    if w = psCode psSequenceHeader then
      let intrabyte ← index payload (offset + 11)
      let offset := offset + 12
      -- Skip Q matrices
      let offset := if intrabyte &&& (1 <<< 1) ≠ 0 then offset + 64 else offset
      let offset := if intrabyte &&& (1 <<< 0) ≠ 0 then offset + 64 else offset
      -- Skip sequence extension
      let w ← wordAt payload offset
      let offset := if w = psCode psSequenceExtension then offset + 10 else offset
      sequenceLoop payload fuel offset
    else pure offset

/-- The offset inside the payload at which `tsDecryptor.decryptPacket` starts
to decrypt (0 when the packet does not start a PES unit). -/
def decryptOffset (p : tsPacket) (payload : List Nat) : Except Panic Nat :=
  if p.payloadStart then do
    let w ← wordAt payload 0
    if w >>> 8 = psPrefix then
      -- Skip PES start code, length, and flags, then the remaining header length
      let hdrlen ← index payload 8
      let offset := 8 + 1 + hdrlen
      let offset ← sequenceLoop payload (payload.length + 1) offset
      -- Skip group header
      let w ← wordAt payload offset
      let offset := if w = psCode psGroupHeader then offset + 8 else offset
      let _ ← sliceFrom payload offset
      pure offset
    else pure 0
  else pure 0

/-- Method `tsDecryptor.decryptPacket`. -/
def tsDecryptor.decryptPacket {P : Primitives} (dec : tsDecryptor P) (p : tsPacket) :
    Except Panic (tsDecryptor P × tsPacket × Option GoError) := do
  let pid ← p.id
  match mapGet dec.ciphers pid with
  | none => pure (dec, p, some (.cipherMissing pid))
  | some c =>
    let payload ← p.payload
    let offset ← decryptOffset p payload
    let start := p.payloadOffset + offset
    let enc ← xorThrough P dec.pool c (p.content.drop start)
    let p1 : tsPacket := { content := p.content.take start ++ enc.2 }
    pure ({ dec with pool := enc.1 }, p1.clearScramble, none)

/-- Method `tsDecryptor.processPacket`. -/
def tsDecryptor.processPacket {P : Primitives} (dec : tsDecryptor P) (packet : tsPacket) :
    Except Panic (tsDecryptor P × tsPacket × Option GoError) := do
  let id ← packet.id
  if id = tsPatID then
    let r ← dec.processPAT packet
    pure (r.1, packet, r.2)
  else if id = dec.pmtID then
    let r ← dec.processPMT packet
    pure (r.1, packet, r.2)
  else if id = dec.privateID then
    let r ← dec.processPrivate packet
    pure (r.1, packet, r.2)
  else if packet.scramble ≠ 0 then dec.decryptPacket packet
  else pure (dec, packet, none)

/-- Function `readTSPacket`. -/
def readTSPacket (src : Reader) : Except GoError tsPacket × Reader :=
  let c := readFull 188 src
  match c.1.2 with
  | some e => (.error e, c.2)
  | none =>
    if c.1.1.getD 0 0 ≠ tsSync then (.error (.badSync (c.1.1.getD 0 0)), c.2)
    else (.ok { content := c.1.1 }, c.2)

/-- Function `writeTSPacket`: the bytes handed to the writer. -/
def writeTSPacket (packet : tsPacket) : List Nat := packet.content

/-- The error wrapping after the `for` loop of `tsDecryptor.decrypt`. -/
def tsFinish (count : Nat) (err : Option GoError) : Option GoError :=
  match err with
  | some e => some (.tsPacketFailed count e)
  | none => none

/-- The `for` loop of `tsDecryptor.decrypt`; `count` is the value of the
counter on entry to the iteration. Every iteration that does not leave the
loop takes 188 bytes from the input, so `fuel` bounds the number of
iterations. -/
def tsDecryptLoop {P : Primitives} :
    Nat → tsDecryptor P → Nat → List Nat → Reader → Except Panic (tsDecryptor P × runResult)
  | 0, _, _, _, _ => .error .outOfFuel
  | fuel + 1, dec, count, out, src =>
    let count := count + 1
    -- An mpeg-ts stream ends when there are no more packets to process.
    if peekEOF src then
      let err := if dec.pmtID = 0 ∨ dec.privateID = 0 then some GoError.ErrUnexpectedEOF else none
      .ok (dec, { err := tsFinish count err, out := out, src := src })
    else
      let r := readTSPacket src
      match r.1 with
      | .error e => .ok (dec, { err := tsFinish count (some e), out := out, src := r.2 })
      | .ok packet =>
        match dec.processPacket packet with
        | .error p => .error p
        | .ok (dec1, _, some e) =>
          .ok (dec1, { err := tsFinish count (some e), out := out, src := r.2 })
        | .ok (dec1, packet1, none) =>
          tsDecryptLoop fuel dec1 count (out ++ writeTSPacket packet1) r.2

/-- Method `tsDecryptor.decrypt`. -/
def tsDecryptor.decrypt {P : Primitives} (dec : tsDecryptor P) (src : Reader) :
    Except Panic (tsDecryptor P × runResult) :=
  tsDecryptLoop (src.remaining.length + 1) dec 0 [] src

/-! ## devo.go: `Decrypt` -/

/-- Function `Decrypt`. The source is a plain `io.Reader` (it does not implement
`io.Seeker`), the writer accepts every write; `out` are the bytes written to
`dstbuf`, which reach `dst` in full when `Decrypt` returns nil. -/
def Decrypt (P : Primitives) (src : Reader) (mak : List Nat) : Except Panic runResult :=
  let m := readFileMetadata src
  match m.err with
  | some e => .ok { err := some (.parsingMetadata e), out := [], src := m.src }
  | none =>
    -- The first metadata segment is used in entirety as an initialization vector
    match m.meta with
    | [] => .error .indexOutOfRange
    | first :: _ =>
      let iv := first.Content
      let run : Except Panic runResult :=
        if m.header.Flags &&& tsType ≠ 0 then
          (fun r => r.2) <$> (newTSDecryptor P mak iv).decrypt m.src
        else
          (fun r => r.2) <$> (newPSDecryptor P mak iv).decrypt m.src
      match run with
      | .error p => .error p
      | .ok r =>
        match r.err with
        | some e => .ok { r with err := some (.processingInput e) }
        | none => .ok r



/-! ## The derivation as the specification words it -/

/-- Step 1 of the specified derivation: `base = SHA1(mak ++ iv)`. -/
def specBase (P : Primitives) (mak iv : List Nat) : List Nat := P.sha1 (mak ++ iv)

/-- Step 2 of the specified derivation: `derived_key = SHA1(base[0:16] ++ stream_id)`. -/
def specDerivedKey (P : Primitives) (mak iv : List Nat) (h : cipherHandle) : List Nat :=
  P.sha1 ((specBase P mak iv).take 16 ++ [h.id])

/-- Step 3 of the specified derivation:
`derived_iv = SHA1(base[0:16] ++ stream_id ++ confounder[0] ++ confounder[1] ++ confounder[2])`. -/
def specDerivedIV (P : Primitives) (mak iv : List Nat) (h : cipherHandle) : List Nat :=
  P.sha1 ((specBase P mak iv).take 16
    ++ [h.id, h.confounder.1, h.confounder.2.1, h.confounder.2.2])

/-- Step 4 of the specified derivation: the cipher freshly constructed from the
derived key and IV, with no key stream consumed. -/
def specCipher (P : Primitives) (mak iv : List Nat) (h : cipherHandle) : Option P.State :=
  P.NewCipher (specDerivedKey P mak iv h) (specDerivedIV P mak iv h)

/-! ## Use of a pool over time -/

/-- What a decryptor does with its pool: fetch the cipher of a handle, or fetch
it and run `XORKeyStream` over `data` with it. A use through a pointer that was
fetched earlier is a `use` as well, since fetching a cached handle returns the
stored pointer and changes nothing. -/
inductive PoolOp where
  | get (h : cipherHandle)
  | use (h : cipherHandle) (data : List Nat)
  deriving DecidableEq, Repr

/-- The pool after one operation. -/
def applyOp (P : Primitives) (pool : cipherPool P) : PoolOp → Except Panic (cipherPool P)
  | .get h => do
    let got ← getCipher P pool h.id h.confounder
    pure got.1
  | .use h data => do
    let got ← getCipher P pool h.id h.confounder
    let res ← xorThrough P got.1 got.2 data
    pure res.1

/-- The pool after a sequence of operations. -/
def runOps (P : Primitives) : cipherPool P → List PoolOp → Except Panic (cipherPool P)
  | pool, [] => .ok pool
  | pool, op :: ops =>
    match applyOp P pool op with
    | .error e => .error e
    | .ok pool1 => runOps P pool1 ops

/-- The number of key stream bytes that `op` takes from the cipher of `h`. -/
def opConsumes (h : cipherHandle) : PoolOp → Nat
  | .get _ => 0
  | .use h' data => if h' = h then data.length else 0

/-- The number of key stream bytes that the operations take from the cipher of `h`. -/
def consumed (h : cipherHandle) (ops : List PoolOp) : Nat :=
  (ops.map (opConsumes h)).sum


/-- The invariant of a pool created for `mak` and `iv`, with `cnt h` the number
of key stream bytes taken so far from the cipher of `h`: every cached handle
points to the cipher derived for it, advanced by `cnt h` bytes; nothing has
been taken from a handle that is not cached; two handles never share a cipher
object. -/
def PoolInv (P : Primitives) (mak iv : List Nat) (pool : cipherPool P)
    (cnt : cipherHandle → Nat) : Prop :=
  pool.mak = mak ∧ pool.iv = iv ∧
  (∀ h c, mapGet pool.ciphers h = some c →
    ∃ st0, specCipher P mak iv h = some st0 ∧ pool.heap.get? c = some (advance P st0 (cnt h))) ∧
  (∀ h, mapGet pool.ciphers h = none → cnt h = 0) ∧
  (∀ h1 h2 c, mapGet pool.ciphers h1 = some c → mapGet pool.ciphers h2 = some c → h1 = h2)


/-! ## The segment table as the specification words it -/

/-- A reader that never makes a short read: everything still to come is in one
chunk (a regular file). -/
def fullReads (r : Reader) : Prop := r.length ≤ 1

/-- Section 4.3 of the specification on a plain byte string: `k` times a
12-byte segment header, exactly `DataSize` content bytes and a 4-byte end
marker that must be zero. Returns the segments and the bytes that follow. -/
def specSegments : Nat → List Nat → Option (List metadata × List Nat)
  | 0, bs => some ([], bs)
  | k + 1, bs =>
    if bs.length < 12 then none
    else
      let hdr := decodeMetaHeader (bs.take 12)
      let body := bs.drop 12
      if body.length < hdr.DataSize + 4 then none
      else if beUint ((body.drop hdr.DataSize).take 4) ≠ 0 then none
      else
        match specSegments k (body.drop (hdr.DataSize + 4)) with
        | none => none
        | some res =>
          some ({ Header := hdr, Content := body.take hdr.DataSize } :: res.1, res.2)

/-- The bytes a segment occupies in the input: header, content, end marker. -/
def segmentSize (m : metadata) : Nat := 16 + m.Header.DataSize

/-! ## A concrete instance of the primitives

Used to evaluate the definitions on concrete inputs. -/

/-- An instance of `Primitives` for evaluating the definitions: the "hash" of a
message is the 20 bytes `sum, sum+1, ...` (mod 256), a cipher state is a
counter seeded with the sum of the key and twice the sum of the IV, and the key
stream is the counter modulo 256. -/
@[reducible] def countingPrimitives : Primitives where
  State := Nat
  sha1 m := (List.range 20).map (fun i => (m.sum + i) % 256)
  sha1_length := by intro m; simp
  NewCipher key iv := some (key.sum + 2 * iv.sum)
  next s := (s % 256, s + 1)


/-! ## Concrete inputs -/

/-- A 16-byte file header: tag "TiVo", the given flag field, content offset and
segment count. -/
def headerBytes (flags videoOffset segments : Nat) : List Nat :=
  tivoMagic ++ [0, 0] ++ putUint16 flags ++ [0, 0] ++ putUint32 videoOffset ++ putUint16 segments

/-- A 12-byte segment header declaring 8 content bytes (id 1, type 2). -/
def segmentHeader8 : List Nat := [0, 0, 0, 0, 0, 0, 0, 8, 0, 1, 0, 2]

/-- A 44-byte PS file: header (content offset 40, segment count 2), one segment
with the eight content bytes `aa bb 00 00 00 00 cc dd` and a zero end marker,
then the program-end packet `00 00 01 b9` at offset 40. -/
def tightFile : List Nat :=
  headerBytes 0 40 2 ++ segmentHeader8 ++ [0xaa, 0xbb, 0, 0, 0, 0, 0xcc, 0xdd] ++ [0, 0, 0, 0]
    ++ [0, 0, 1, 0xb9]

/-- The same segment in a 52-byte PS file with eight padding bytes before the
content offset 48. -/
def paddedFile : List Nat :=
  headerBytes 0 48 2 ++ segmentHeader8 ++ [0xaa, 0xbb, 0, 0, 0, 0, 0xcc, 0xdd] ++ [0, 0, 0, 0]
    ++ List.replicate 8 0 ++ [0, 0, 1, 0xb9]

/-- A 40-byte header table like that of `tightFile` whose header declares the
content offset 20, inside the table, followed by the program-end packet. -/
def offsetBehindFile : List Nat :=
  headerBytes 0 20 2 ++ segmentHeader8 ++ [0xaa, 0xbb, 0, 0, 0, 0, 0xcc, 0xdd] ++ [0, 0, 0, 0]
    ++ [0, 0, 1, 0xb9]

/-- A reader that delivers `file` in two pieces, the first of `n` bytes (a pipe
whose writer has so far written `n` bytes). -/
def inTwoChunks (file : List Nat) (n : Nat) : Reader := [file.take n, file.drop n]

/-- A TS file whose header declares a single metadata segment: flag bit 5 set,
content offset 16, followed by one 188-byte null frame. -/
def oneSegmentFile : List Nat :=
  headerBytes 0x20 16 1 ++ [0x47, 0x1f, 0xff, 0x10] ++ List.replicate 184 0xff


/-- Stream id `e0` with confounder `01 02 03`. -/
def handleE0 : cipherHandle := { id := 0xe0, confounder := (1, 2, 3) }

/-- A new pool for the access key "1" and the IV `02`. -/
def freshPool : cipherPool countingPrimitives := newCipherPool countingPrimitives [0x31] [0x02]

/-- The pool `freshPool` after the cipher of `handleE0` has been fetched. -/
def onePool : cipherPool countingPrimitives :=
  { mak := [0x31], iv := [0x02], ciphers := [(handleE0, 0)], heap := [8970] }

/-- The pool `onePool` after one key stream byte of that cipher has been used. -/
def usedPool : cipherPool countingPrimitives :=
  { mak := [0x31], iv := [0x02], ciphers := [(handleE0, 0)], heap := [8971] }

/-- A scrambled PES packet of stream `e0`: scramble field 1, no optional
fields, header data length 6, confounder input `04 08 0c 00` at content
offsets 4..7, payload `aa bb cc` from offset 9. -/
def scrambledPES : psPacket :=
  { id := 0xe0,
    content := [0x90, 0x00, 0x06, 0x11, 0x04, 0x08, 0x0c, 0x00, 0x22, 0xaa, 0xbb, 0xcc] }

/-- The handle of `scrambledPES`, and of the entry of `privateFrame`. -/
def handlePES : cipherHandle := { id := 0xe0, confounder := (16, 32, 96) }

/-- The pool `freshPool` after the cipher of `handlePES` has been fetched. -/
def keyedPool : cipherPool countingPrimitives :=
  { mak := [0x31], iv := [0x02], ciphers := [(handlePES, 0)], heap := [4250] }

/-- A TS private-data frame on packet id `0021` whose table has one entry:
packet id `0100`, stream id `e0`, confounder input `04 08 0c 00`. -/
def privateFrame : tsPacket :=
  { content := [0x47, 0x00, 0x21, 0x10] ++ tivoMagic ++ [0, 0, 0, 0, 0] ++ [20]
      ++ [0x01, 0x00, 0xe0, 0, 0, 0x04, 0x08, 0x0c, 0x00] ++ List.replicate 11 0
      ++ List.replicate 154 0 }

/-- A scrambled TS data frame on packet id `0100` (scramble field 3, no
adaptation field, payload-start flag clear) with payload `aa bb cc 00 ...`. -/
def dataFrame : tsPacket :=
  { content := [0x47, 0x01, 0x00, 0xd0] ++ [0xaa, 0xbb, 0xcc] ++ List.replicate 181 0 }

/-- A TS decryptor that has seen its PAT and PMT (program map on `0020`,
private data on `0021`) and no private-data frame yet. -/
def tsReady : tsDecryptor countingPrimitives :=
  { pool := freshPool, ciphers := [], pmtID := 0x20, privateID := 0x21 }

/-- The decryptor `tsReady` after `privateFrame`. -/
def tsKeyed : tsDecryptor countingPrimitives :=
  { pool := keyedPool, ciphers := [(0x100, 0)], pmtID := 0x20, privateID := 0x21 }

/-- The pool `keyedPool` after `scrambledPES` has been decrypted: 4 + 3 key
stream bytes of the cipher are used. -/
def spentPool : cipherPool countingPrimitives :=
  { mak := [0x31], iv := [0x02], ciphers := [(handlePES, 0)], heap := [4257] }

/-- The packet `scrambledPES` after decryption with the cipher of `handlePES`. -/
def decryptedPES : psPacket :=
  { id := 0xe0,
    content := [0x80, 0x00, 0x06, 0x11, 0x04, 0x08, 0x0c, 0x00, 0x22,
      0xaa ^^^ 0x9e, 0xbb ^^^ 0x9f, 0xcc ^^^ 0xa0] }

/-- Position `k` of the key stream of a cipher state. -/
def keyByte (P : Primitives) (st : P.State) (k : Nat) : Nat := (P.next (advance P st k)).1

/-- The packets that `readPSPacket` can return: a byte id, byte content, no
content for program-end, a 10-byte body with `body[9] & 0x07` stuffing bytes
for pack-start, and a content length that fits 16 bits for the other ids. -/
def psProducible (p : psPacket) : Prop :=
  p.id < 256 ∧ isBytes p.content ∧
  (p.id = psProgramEnd → p.content = []) ∧
  (p.id = psPackStart → p.content.length = 10 + (p.content.getD 9 0 &&& 0x07)) ∧
  (p.id ≠ psProgramEnd → p.id ≠ psPackStart → p.content.length < 65536)

instance (p : psPacket) : Decidable (psProducible p) := by
  unfold psProducible; infer_instance

/-- The byte stream of a sequence of PS packets, each as `writePSPacket` writes it. -/
def psStream (ps : List psPacket) : List Nat := (ps.map writePSPacket).flatten

/-- An unscrambled PES packet of stream `e0` with three content bytes. -/
def clearPES : psPacket := { id := 0xe0, content := [0x81, 0x00, 0x00] }

/-- The program-end packet. -/
def programEnd : psPacket := { id := 0xb9, content := [] }

/-- A scrambled TS data frame on packet id `0100` like `dataFrame` whose
scramble field is 2 (byte 3 is `90`). -/
def evenKeyFrame : tsPacket :=
  { content := [0x47, 0x01, 0x00, 0x90] ++ [0xaa, 0xbb, 0xcc] ++ List.replicate 181 0 }

/-- A TS frame with the adaptation-field flag set whose adaptation length
byte is 251. -/
def wrapFrame : tsPacket :=
  { content := [0x47, 0x01, 0x00, 0x30, 0xfb] ++ List.replicate 183 0 }

/-- A TS frame with the adaptation-field flag set whose adaptation length
byte is 184. -/
def overlongFrame : tsPacket :=
  { content := [0x47, 0x01, 0x00, 0x30, 0xb8] ++ List.replicate 183 0 }

/-- A TS program-association frame on packet id 0: pointer 0, table id 0,
section length 13, one program whose map is on packet id `0020`. -/
def patFrame : tsPacket :=
  { content := [0x47, 0x40, 0x00, 0x10] ++ [0x00, 0x00, 0xb0, 0x0d, 0x00, 0x01, 0xc1, 0x00,
      0x00, 0x00, 0x01, 0xe0, 0x20] ++ List.replicate 171 0xff }

/-! ## The private-data table as the specification words it -/

/-- Payload offset at which entry `i` of the private-data table starts. -/
def entryOffset (i : Nat) : Nat := 10 + 20 * i

/-- Identifier of entry `i`: the low 13 bits of entry bytes 0-1. -/
def entryID (payload : List Nat) (i : Nat) : Nat :=
  (payload.getD (entryOffset i) 0 * 256 + payload.getD (entryOffset i + 1) 0) % 8192

/-- Cipher handle of entry `i`: entry byte 2 as stream id, with the
confounder of entry bytes 5..8. -/
def entryHandle (payload : List Nat) (i : Nat) : cipherHandle :=
  { id := payload.getD (entryOffset i + 2) 0,
    confounder :=
      ((confounder [payload.getD (entryOffset i + 5) 0, payload.getD (entryOffset i + 6) 0,
          payload.getD (entryOffset i + 7) 0, payload.getD (entryOffset i + 8) 0]).toOption).getD
        (0, 0, 0) }

/-- A TS private-data frame on packet id `0021` whose table has two entries
with the same packet id `0100`: the first with stream id `e0`, the second with
stream id `c0`, both with confounder input `04 08 0c 00`. -/
def duplicateFrame : tsPacket :=
  { content := [0x47, 0x00, 0x21, 0x10] ++ tivoMagic ++ [0, 0, 0, 0, 0] ++ [40]
      ++ [0x01, 0x00, 0xe0, 0, 0, 0x04, 0x08, 0x0c, 0x00] ++ List.replicate 11 0
      ++ [0x01, 0x00, 0xc0, 0, 0, 0x04, 0x08, 0x0c, 0x00] ++ List.replicate 11 0
      ++ List.replicate 134 0 }

/-- A TS program-map frame on packet id `0020`: pointer 0, table id 2, section
length 23, a first stream of type `02` on packet id `0100` and a second stream
of type `97` on packet id `0021`. -/
def pmtFrame : tsPacket :=
  { content := [0x47, 0x40, 0x20, 0x10] ++ [0x00, 0x02, 0xb0, 0x17, 0x00, 0x01, 0xc1, 0x00,
      0x00, 0xe1, 0x00, 0xf0, 0x00] ++ [0x02, 0xe1, 0x00, 0xf0, 0x00]
      ++ [0x97, 0xe0, 0x21, 0xf0, 0x00] ++ List.replicate 161 0xff }

/-- The byte stream of a sequence of TS frames, each as `writeTSPacket` writes
it. -/
def tsStream (frames : List tsPacket) : List Nat := (frames.map writeTSPacket).flatten

/-- Every frame of the sequence is processed without error, one after the
other: the decryptor after the last frame and the bytes written for the frames,
or `none` when `processPacket` returns an error or faults on some frame. -/
def tsProcessAll {P : Primitives} (dec : tsDecryptor P) :
    List tsPacket → Option (tsDecryptor P × List Nat)
  | [] => some (dec, [])
  | f :: fs =>
    match dec.processPacket f with
    | .ok (dec1, f1, none) =>
      match tsProcessAll dec1 fs with
      | some r => some (r.1, writeTSPacket f1 ++ r.2)
      | none => none
    | _ => none

/-- The frame `patFrame` with both scramble bits set (byte 3 is `d0`). -/
def scrambledPatFrame : tsPacket :=
  { content := [0x47, 0x40, 0x00, 0xd0] ++ [0x00, 0x00, 0xb0, 0x0d, 0x00, 0x01, 0xc1, 0x00,
      0x00, 0x00, 0x01, 0xe0, 0x20] ++ List.replicate 171 0xff }

/-- An unscrambled TS data frame on packet id `0100` (byte 3 is `10`). -/
def clearFrame : tsPacket :=
  { content := [0x47, 0x01, 0x00, 0x10] ++ [0xaa, 0xbb, 0xcc] ++ List.replicate 181 0 }

/-! ## The structural skip as the specification words it -/

/-- The four bytes `P[o..o+3]` of a payload, fewer when the payload ends
before. -/
def bytesAt (payload : List Nat) (o : Nat) : List Nat := (payload.drop o).take 4

/-- The offset after a sequence header at `off`: 12 bytes, and 64 more for each
of bit 1 and bit 0 of the byte at `off + 11`. -/
def afterMatrices (payload : List Nat) (off : Nat) : Nat :=
  off + 12 + 64 * (payload.getD (off + 11) 0 / 2 % 2) + 64 * (payload.getD (off + 11) 0 % 2)

/-- The offset after a sequence extension: 10 more when `00 00 01 b5` is at
`off`. -/
def afterExtension (payload : List Nat) (off : Nat) : Nat :=
  if bytesAt payload off = [0x00, 0x00, 0x01, 0xb5] then off + 10 else off

/-- The `while` of the structural skip, from offset `off`: at a sequence-header
start code `00 00 01 b3` the offset advances past the header, its matrices and
a sequence extension that follows; `fuel` bounds the number of rounds. -/
def skipSequence (payload : List Nat) : Nat → Nat → Nat
  | 0, off => off
  | fuel + 1, off =>
    if bytesAt payload off = [0x00, 0x00, 0x01, 0xb3] then
      skipSequence payload fuel (afterExtension payload (afterMatrices payload off))
    else off

/-- The offset `off` of the structural skip: `9 + P[8]`, then the sequence
headers, then 8 more when `00 00 01 b8` follows. Every round of the `while`
advances by at least 12, so `len(P) + 1` rounds are never used up. -/
def skipOffset (payload : List Nat) : Nat :=
  let off := skipSequence payload (payload.length + 1) (9 + payload.getD 8 0)
  if bytesAt payload off = [0x00, 0x00, 0x01, 0xb8] then off + 8 else off

/-- A scrambled TS data frame on packet id `0100` that starts a PES unit: PES
header `00 00 01 e0` with 2 bytes of header data, a sequence header with one
quantiser matrix (byte 11 of it is `02`), a sequence extension, a group header,
and then the bytes `aa bb cc 00 ...` from payload offset 105 on. -/
def pesFrame : tsPacket :=
  { content := [0x47, 0x41, 0x00, 0xd0]
      ++ [0x00, 0x00, 0x01, 0xe0, 0x00, 0x00, 0x80, 0x00, 0x02, 0x00, 0x00]
      ++ [0x00, 0x00, 0x01, 0xb3] ++ List.replicate 7 0 ++ [0x02] ++ List.replicate 64 0
      ++ [0x00, 0x00, 0x01, 0xb5] ++ List.replicate 6 0
      ++ [0x00, 0x00, 0x01, 0xb8] ++ List.replicate 4 0
      ++ [0xaa, 0xbb, 0xcc] ++ List.replicate 76 0 }

/-! ## The private-data offset as the specification words it -/

/-- The offset `off` of the specification: 3 plus the lengths 1, 2, 1, 1, 3,
6, 5, 5 (bits 0 to 7) of the fields whose flag bit is set. -/
def specPrivateOffset (flags : Nat) : Nat :=
  3 + ((List.range 8).map
    (fun bit => if flags.testBit bit then [1, 2, 1, 1, 3, 6, 5, 5].getD bit 0 else 0)).sum

/-- A TS frame on packet id 0 whose adaptation field of 180 bytes leaves a
payload of 3 bytes. -/
def shortPatFrame : tsPacket :=
  { content := [0x47, 0x40, 0x00, 0x30, 180] ++ List.replicate 180 0xff ++ [0x00, 0x00, 0xb0] }

/-- A TS frame on packet id `0020` with pointer 0 and section length `fff`,
without a stream-type byte `97` in its payload. -/
def longPmtFrame : tsPacket :=
  { content := [0x47, 0x40, 0x20, 0x10] ++ [0x00, 0x02, 0xbf, 0xff] ++ List.replicate 180 0 }

/-- A TS private-data frame on packet id `0021` with the tag and the table
length 200, which is 10 entries, more than the payload of 184 bytes holds. -/
def longPrivateFrame : tsPacket :=
  { content := [0x47, 0x00, 0x21, 0x10] ++ tivoMagic ++ [0, 0, 0, 0, 0] ++ [200]
      ++ List.replicate 174 0 }

/-- A scrambled TS data frame on packet id `0100` that starts a PES unit whose
header data length byte is `ff`. -/
def runawayFrame : tsPacket :=
  { content := [0x47, 0x41, 0x00, 0xd0]
      ++ [0x00, 0x00, 0x01, 0xe0, 0x00, 0x00, 0x80, 0x00, 0xff] ++ List.replicate 175 0 }

/-- A PS file whose header declares a single metadata segment: flags 0, content
offset 16, followed by the program-end packet. -/
def psOneSegmentFile : List Nat := headerBytes 0 16 1 ++ [0, 0, 1, 0xb9]

/-- A PS file whose header declares no metadata segment: flags 0, content
offset 16, followed by the program-end packet. -/
def zeroSegmentFile : List Nat := headerBytes 0 16 0 ++ [0, 0, 1, 0xb9]

/-- A TS frame on packet id `0020` with pointer 0 and section length `fff`
whose only stream-type byte `97` is the last byte of the payload, at payload
offset 183. -/
def tailPmtFrame : tsPacket :=
  { content := [0x47, 0x40, 0x20, 0x10] ++ [0x00, 0x02, 0xbf, 0xff] ++ List.replicate 179 0
      ++ [0x97] }

/-- A TS frame on packet id `0020` with pointer 0 and section length 200,
without a stream-type byte `97` in its payload of 184 bytes. -/
def overPmtFrame : tsPacket :=
  { content := [0x47, 0x40, 0x20, 0x10] ++ [0x00, 0x02, 0xb0, 0xc8] ++ List.replicate 180 0 }

/-- A scrambled TS data frame on packet id `0100` that starts a PES unit with
170 bytes of header data and a group header `00 00 01 b8` at payload offset
179, five bytes before the end of the payload. -/
def groupAtEndFrame : tsPacket :=
  { content := [0x47, 0x41, 0x00, 0xd0]
      ++ [0x00, 0x00, 0x01, 0xe0, 0x00, 0x00, 0x80, 0x00, 170] ++ List.replicate 170 0
      ++ [0x00, 0x00, 0x01, 0xb8, 0x00] }

/-- A scrambled TS data frame on packet id `0100` with the payload-start flag
set whose adaptation field of 181 bytes leaves a payload of 2 bytes. -/
def tinyPesFrame : tsPacket :=
  { content := [0x47, 0x41, 0x00, 0xf0, 181] ++ List.replicate 181 0xff ++ [0x00, 0x00] }

/-! ## Theorems -/

theorem and_shl_lt (a m k : Nat) (h : m <<< k < 256) : ((a &&& m) <<< k) % 256 = (a &&& m) <<< k := by
  apply Nat.mod_eq_of_lt
  have h1 : a &&& m ≤ m := Nat.and_le_right
  rw [Nat.shiftLeft_eq] at h ⊢
  calc (a &&& m) * 2 ^ k ≤ m * 2 ^ k := Nat.mul_le_mul_right _ h1
    _ < 256 := h

theorem or_byte_mod (a b : Nat) (ha : a < 256) (hb : b < 256) : (a ||| b) % 256 = a ||| b := by
  apply Nat.mod_eq_of_lt
  exact Nat.or_lt_two_pow (n := 8) ha hb

theorem shr_byte_lt (b k : Nat) (hb : b < 256) : b >>> k < 256 := by
  rw [Nat.shiftRight_eq_div_pow]
  exact lt_of_le_of_lt (Nat.div_le_self _ _) hb


/-! ### Reading from a chunked input -/

theorem readLoop_fst (r : Reader) : ∀ n, (readLoop n r).1 = r.remaining.take n := by
  induction r with
  | nil => intro n; simp [readLoop, Reader.remaining]
  | cons c rest ih =>
    intro n
    simp only [readLoop, Reader.remaining, List.flatten_cons]
    by_cases h0 : n = 0
    · simp [h0]
    · by_cases hc : c.length ≤ n
      · simp only [h0, hc, if_true, if_false]
        rw [ih, List.take_append_eq_append_take, List.take_of_length_le hc]
        rfl
      · simp only [h0, hc, if_false]
        rw [List.take_append_of_le_length (by omega)]

theorem readLoop_snd (r : Reader) : ∀ n, (readLoop n r).2.remaining = r.remaining.drop n := by
  induction r with
  | nil => intro n; simp [readLoop, Reader.remaining]
  | cons c rest ih =>
    intro n
    simp only [readLoop]
    by_cases h0 : n = 0
    · simp [h0]
    · by_cases hc : c.length ≤ n
      · simp only [h0, hc, if_true, if_false]
        rw [ih]
        simp only [Reader.remaining, List.flatten_cons]
        rw [List.drop_append_eq_append_drop, List.drop_of_length_le hc]
        rfl
      · simp only [h0, hc, if_false]
        simp only [Reader.remaining, List.flatten_cons]
        rw [List.drop_append_of_le_length (by omega)]

theorem readFull_ok (n : Nat) (r : Reader) (h : n ≤ r.remaining.length) :
    (readFull n r).1 = (r.remaining.take n, none) ∧
    (readFull n r).2.remaining = r.remaining.drop n := by
  have hl : (readLoop n r).1.length = n := by
    rw [readLoop_fst, List.length_take]; omega
  simp only [readFull, hl, if_true]
  exact ⟨by rw [readLoop_fst], readLoop_snd r n⟩

theorem readFull_fail (n : Nat) (r : Reader) (h : r.remaining.length < n) :
    (readFull n r).1.2 = some .EOF ∨ (readFull n r).1.2 = some .ErrUnexpectedEOF := by
  have hl : (readLoop n r).1.length ≠ n := by
    rw [readLoop_fst, List.length_take]; omega
  simp only [readFull, hl, if_false]
  by_cases h0 : (readLoop n r).1.length = 0
  · left; simp [h0]
  · right; simp [h0]

theorem readFull_rest (n : Nat) (r : Reader) :
    (readFull n r).2.remaining = r.remaining.drop n := by
  simp only [readFull]
  split
  · exact readLoop_snd r n
  · split <;> exact readLoop_snd r n

theorem readSegments_header (header : fileHeader) :
    ∀ todo done position src, (readSegments header todo done position src).header = header := by
  intro todo
  induction todo with
  | zero => intro done position src; simp [readSegments]
  | succ todo ih =>
    intro done position src
    simp only [readSegments]
    split
    · rfl
    · split
      · rfl
      · split
        · rfl
        · split
          · rfl
          · exact ih _ _ _

/-- C8: on an input of at least 16 bytes whose first four bytes are not "TiVo",
`readFileMetadata` returns the missing-magic error having consumed exactly the
16 header bytes and no metadata segment, and `Decrypt` returns that error
wrapped; whenever `readFileMetadata` succeeds the returned magic is "TiVo". -/
theorem readFileMetadata_magic (src : Reader) (hlen : 16 ≤ src.remaining.length) :
    (src.remaining.take 4 ≠ tivoMagic →
      (readFileMetadata src).err = some .notTivoFile ∧
      (readFileMetadata src).meta = [] ∧
      (readFileMetadata src).src.remaining = src.remaining.drop 16 ∧
      ∀ (P : Primitives) (mak : List Nat),
        Decrypt P src mak = .ok { err := some (.parsingMetadata .notTivoFile), out := [],
                                  src := (readFileMetadata src).src }) ∧
    ((readFileMetadata src).err = none → (readFileMetadata src).header.Magic = tivoMagic) := by
  obtain ⟨h1, h2⟩ := readFull_ok 16 src hlen
  have hm : (decodeFileHeader (readFull 16 src).1.1).Magic = src.remaining.take 4 := by
    rw [h1]; simp [decodeFileHeader, List.take_take]
  have h12 : (readFull 16 src).1.2 = none := by rw [h1]
  constructor
  · intro hne
    have hr : readFileMetadata src =
        { header := decodeFileHeader (readFull 16 src).1.1, meta := [],
          err := some .notTivoFile, src := (readFull 16 src).2, position := 0 } := by
      simp only [readFileMetadata, h12]
      rw [if_pos (by rw [hm]; exact hne)]
    refine ⟨by rw [hr], by rw [hr], by rw [hr]; exact h2, ?_⟩
    intro P mak
    simp only [Decrypt]
    rw [hr]
  · intro herr
    by_cases hmag : (decodeFileHeader (readFull 16 src).1.1).Magic = tivoMagic
    · have hr : readFileMetadata src =
          readSegments (decodeFileHeader (readFull 16 src).1.1)
            (((decodeFileHeader (readFull 16 src).1.1).MetaSegments + 65535) % 65536) [] 16
            (readFull 16 src).2 := by
        simp only [readFileMetadata, h12]
        rw [if_neg (by simpa using hmag)]
      rw [hr, readSegments_header]; exact hmag
    · exfalso
      have hr : (readFileMetadata src).err = some .notTivoFile := by
        simp only [readFileMetadata, h12]
        rw [if_pos hmag]
      rw [hr] at herr; exact absurd herr (by simp)

/-- Witness for C8: a 16-byte header with the tag "XiVo" followed by four bytes
is rejected after 16 bytes, and the successfully parsed `tightFile` has the
tag "TiVo". -/
theorem readFileMetadata_magic_witness :
    (readFileMetadata [[0x58, 0x69, 0x56, 0x6f, 0, 0, 0, 0, 0, 0, 0, 0, 0, 16, 0, 2, 9, 9, 9, 9]]).err
        = some .notTivoFile ∧
    (readFileMetadata [[0x58, 0x69, 0x56, 0x6f, 0, 0, 0, 0, 0, 0, 0, 0, 0, 16, 0, 2, 9, 9, 9, 9]]).src.remaining
        = [9, 9, 9, 9] ∧
    (readFileMetadata [tightFile]).header.Magic = tivoMagic :=
  have h := (readFileMetadata_magic
    [[0x58, 0x69, 0x56, 0x6f, 0, 0, 0, 0, 0, 0, 0, 0, 0, 16, 0, 2, 9, 9, 9, 9]] (by decide)).1
    (by decide)
  ⟨h.1, h.2.2.1.trans (by decide),
   (readFileMetadata_magic [tightFile] (by decide)).2 (by decide)⟩

/-- C6: evaluation at the failing input. `tightFile` arrives in two chunks of
30 and 14 bytes. `readFileMetadata` succeeds with content offset 40 and running
count 40, but it has consumed only 34 bytes: the next byte read is the metadata
byte `cc` at offset 34, not the first content byte at offset 40. Delivered in
one chunk the same file leaves the input at offset 40. -/
theorem readFileMetadata_short_read_position :
    (readFileMetadata (inTwoChunks tightFile 30)).err = none ∧
    (readFileMetadata (inTwoChunks tightFile 30)).header.VideoOffset = 40 ∧
    (readFileMetadata (inTwoChunks tightFile 30)).position = 40 ∧
    (readFileMetadata (inTwoChunks tightFile 30)).src.remaining = tightFile.drop 34 ∧
    (readFileMetadata (inTwoChunks tightFile 30)).src.remaining
      = [0xcc, 0xdd, 0, 0, 0, 0, 0, 0, 1, 0xb9] ∧
    (readFileMetadata [tightFile]).src.remaining = tightFile.drop 40 := by
  decide

/-- A content offset below the running count: `io.CopyN` is called with the
negative count 20 - 40, reads nothing and returns nil, so `readFileMetadata`
succeeds having consumed 40 bytes with `VideoOffset` = 20. -/
theorem readFileMetadata_offset_behind :
    (readFileMetadata [offsetBehindFile]).err = none ∧
    (readFileMetadata [offsetBehindFile]).header.VideoOffset = 20 ∧
    (readFileMetadata [offsetBehindFile]).position = 40 ∧
    (readFileMetadata [offsetBehindFile]).src.remaining = offsetBehindFile.drop 40 := by
  decide

/-- C7: evaluation at the failing input. `paddedFile` arrives in two chunks of
30 and 22 bytes. `readFileMetadata` succeeds and returns one segment declaring
8 content bytes, but its content is `aa bb` followed by six zero bytes, while
the 8 bytes after the segment header in the input are `aa bb 00 00 00 00 cc dd`
(which is what is returned when the file arrives in one chunk). -/
theorem readFileMetadata_short_read_content :
    (readFileMetadata (inTwoChunks paddedFile 30)).err = none ∧
    (readFileMetadata (inTwoChunks paddedFile 30)).header.MetaSegments = 2 ∧
    (readFileMetadata (inTwoChunks paddedFile 30)).meta.map (fun m => m.Header.DataSize) = [8] ∧
    (readFileMetadata (inTwoChunks paddedFile 30)).meta.map (fun m => m.Content)
      = [[0xaa, 0xbb, 0, 0, 0, 0, 0, 0]] ∧
    (paddedFile.drop 28).take 8 = [0xaa, 0xbb, 0, 0, 0, 0, 0xcc, 0xdd] ∧
    (readFileMetadata [paddedFile]).meta.map (fun m => m.Content)
      = [[0xaa, 0xbb, 0, 0, 0, 0, 0xcc, 0xdd]] := by
  decide

set_option maxRecDepth 8000 in
/-- C9: evaluation at the failing input. The header of `oneSegmentFile` parses
successfully with flag bit 5 set and no segment returned; `Decrypt` then faults
on `meta[0]` and runs neither decryptor. -/
theorem Decrypt_one_segment_faults :
    (readFileMetadata [oneSegmentFile]).err = none ∧
    (readFileMetadata [oneSegmentFile]).meta = [] ∧
    (readFileMetadata [oneSegmentFile]).header.Flags &&& 0x20 = 0x20 ∧
    Decrypt countingPrimitives [oneSegmentFile] [0x33, 0x38] = .error .indexOutOfRange := by
  decide

theorem and_32_ne_zero_iff (n : Nat) : n &&& 32 ≠ 0 ↔ n.testBit 5 = true := by
  constructor
  · intro h
    by_contra hb
    apply h
    apply Nat.eq_of_testBit_eq
    intro i
    rw [Nat.testBit_and, show (32 : Nat) = 2 ^ 5 from rfl, Nat.testBit_two_pow]
    by_cases hi : 5 = i
    · subst hi; simp at hb; simp [hb]
    · simp [hi]
  · intro h h0
    have := congrArg (fun m => Nat.testBit m 5) h0
    simp only [Nat.testBit_and, h, Nat.zero_testBit] at this
    exact absurd this (by decide)

/-- Container selection in `Decrypt` when the parser succeeds and returns at
least one segment: the TS decryptor runs when bit 5 of the flag field is set,
the PS decryptor otherwise, each created with the content of segment 0 as IV
and started on the input as the parser left it. -/
theorem Decrypt_select (P : Primitives) (src : Reader) (mak : List Nat)
    (first : metadata) (rest : List metadata)
    (herr : (readFileMetadata src).err = none)
    (hmeta : (readFileMetadata src).meta = first :: rest) :
    ((readFileMetadata src).header.Flags.testBit 5 = true →
      Decrypt P src mak =
        match (newTSDecryptor P mak first.Content).decrypt (readFileMetadata src).src with
        | .error p => .error p
        | .ok r => .ok { r.2 with err := r.2.err.map GoError.processingInput }) ∧
    ((readFileMetadata src).header.Flags.testBit 5 = false →
      Decrypt P src mak =
        match (newPSDecryptor P mak first.Content).decrypt (readFileMetadata src).src with
        | .error p => .error p
        | .ok r => .ok { r.2 with err := r.2.err.map GoError.processingInput }) := by
  constructor
  · intro hbit
    have hsel : (readFileMetadata src).header.Flags &&& tsType ≠ 0 :=
      (and_32_ne_zero_iff _).2 hbit
    simp only [Decrypt, herr, hmeta]
    rw [if_pos hsel]
    cases hrun : (newTSDecryptor P mak first.Content).decrypt (readFileMetadata src).src with
    | error p => rfl
    | ok r =>
      obtain ⟨d, rr⟩ := r
      obtain ⟨e, o, sr⟩ := rr
      cases e <;> simp [Functor.map, Except.map]
  · intro hbit
    have hsel : ¬ ((readFileMetadata src).header.Flags &&& tsType ≠ 0) := by
      rw [show tsType = 32 from rfl, and_32_ne_zero_iff, hbit]; simp
    simp only [Decrypt, herr, hmeta]
    rw [if_neg hsel]
    cases hrun : (newPSDecryptor P mak first.Content).decrypt (readFileMetadata src).src with
    | error p => rfl
    | ok r =>
      obtain ⟨d, rr⟩ := r
      obtain ⟨e, o, sr⟩ := rr
      cases e <;> simp [Functor.map, Except.map]


/-! ### PS packet framing -/

theorem beUint_four (b0 b1 b2 b3 : Nat) :
    beUint [b0, b1, b2, b3] = ((b0 * 256 + b1) * 256 + b2) * 256 + b3 := by
  simp [beUint]

theorem beUint_two (b0 b1 : Nat) : beUint [b0, b1] = b0 * 256 + b1 := by
  simp [beUint]

theorem wordOctet_low (w : Nat) : wordOctet w 3 = w % 256 := by
  have hc : (24 + 2 ^ 64 - (3 * 8) % 2 ^ 64) % 2 ^ 64 = 0 := by norm_num
  simp only [wordOctet, hc]
  have h := Nat.and_pow_two_sub_one_eq_mod w 8
  simp only [Nat.shiftRight_zero] at *
  rw [if_pos (by decide)]
  have h2 : (2 : Nat) ^ 8 - 1 = 0xff := by norm_num
  rw [h2] at h
  rw [h]
  simp

theorem list_eq_cons_of_length {α : Type} (l : List α) (n : Nat) (h : n + 1 ≤ l.length) :
    ∃ a t, l = a :: t ∧ n ≤ t.length := by
  cases l with
  | nil => simp at h
  | cons a t => exact ⟨a, t, rfl, by simpa using h⟩

/-- Function `readPSPacket` fails when the input does not start with `00 00 01`. -/
theorem readPSPacket_wrong_start (src : Reader) (hb : isBytes src.remaining)
    (hp : src.remaining.take 3 ≠ [0, 0, 1]) : ∃ e, (readPSPacket src).1 = .error e := by
  by_cases hlen : 4 ≤ src.remaining.length
  · obtain ⟨h1, -⟩ := readFull_ok 4 src hlen
    obtain ⟨b0, t0, e0, l0⟩ := list_eq_cons_of_length src.remaining 3 hlen
    obtain ⟨b1, t1, e1, l1⟩ := list_eq_cons_of_length t0 2 l0
    obtain ⟨b2, t2, e2, l2⟩ := list_eq_cons_of_length t1 1 l1
    obtain ⟨b3, t3, e3, -⟩ := list_eq_cons_of_length t2 0 l2
    subst e1 e2 e3
    rw [e0] at h1 hp hb
    have hb0 : b0 < 256 := hb b0 (by simp)
    have hb1 : b1 < 256 := hb b1 (by simp)
    have hb2 : b2 < 256 := hb b2 (by simp)
    have hb3 : b3 < 256 := hb b3 (by simp)
    have hne : beUint [b0, b1, b2, b3] >>> 8 ≠ psPrefix := by
      rw [beUint_four, Nat.shiftRight_eq_div_pow]
      intro hc
      apply hp
      simp only [psPrefix] at hc
      have : b0 = 0 ∧ b1 = 0 ∧ b2 = 1 := by
        norm_num at hc
        omega
      obtain ⟨r0, r1, r2⟩ := this
      subst r0 r1 r2
      rfl
    refine ⟨.invalidPSCode (beUint [b0, b1, b2, b3]), ?_⟩
    simp only [readPSPacket]
    rw [h1]
    simp only [List.take_succ_cons, List.take_zero]
    rw [if_pos hne]
  · have hf := readFull_fail 4 src (by omega)
    rcases hf with hf | hf
    · exact ⟨.EOF, by simp only [readPSPacket]; rw [hf]⟩
    · exact ⟨.ErrUnexpectedEOF, by simp only [readPSPacket]; rw [hf]⟩

/-- After the start code `00 00 01 id` the packet is read according to `id`. -/
theorem readPSPacket_body (src : Reader) (id : Nat) (rest : List Nat) (hid : id < 256)
    (hs : src.remaining = 0 :: 0 :: 1 :: id :: rest) :
    (id = 0xb9 →
      (readPSPacket src).1 = .ok { id := id, content := [] } ∧
      (readPSPacket src).2.remaining = rest) ∧
    (id = 0xba →
      (10 + (rest.getD 9 0 &&& 0x07) ≤ rest.length →
        (readPSPacket src).1
          = .ok { id := id, content := rest.take (10 + (rest.getD 9 0 &&& 0x07)) } ∧
        (readPSPacket src).2.remaining = rest.drop (10 + (rest.getD 9 0 &&& 0x07))) ∧
      (rest.length < 10 + (rest.getD 9 0 &&& 0x07) → ∃ e, (readPSPacket src).1 = .error e)) ∧
    (id ≠ 0xb9 → id ≠ 0xba →
      (2 + (rest.getD 0 0 * 256 + rest.getD 1 0) ≤ rest.length →
        (readPSPacket src).1
          = .ok { id := id, content := (rest.drop 2).take (rest.getD 0 0 * 256 + rest.getD 1 0) } ∧
        (readPSPacket src).2.remaining = rest.drop (2 + (rest.getD 0 0 * 256 + rest.getD 1 0))) ∧
      (rest.length < 2 + (rest.getD 0 0 * 256 + rest.getD 1 0) →
        ∃ e, (readPSPacket src).1 = .error e)) := by
  obtain ⟨h1, h2⟩ := readFull_ok 4 src (by rw [hs]; simp)
  rw [hs] at h1 h2
  simp only [List.take_succ_cons, List.take_zero, List.drop_succ_cons, List.drop_zero] at h1 h2
  have hcode : beUint [0, 0, 1, id] = 256 + id := by rw [beUint_four]
  have hpre : ¬ ((256 + id) >>> 8 ≠ psPrefix) := by
    rw [Nat.shiftRight_eq_div_pow]; simp only [psPrefix]; norm_num; omega
  have hoct : wordOctet (256 + id) 3 = id := by rw [wordOctet_low]; omega
  have hunf : readPSPacket src =
      if id = psProgramEnd then (.ok { id := id, content := [] }, (readFull 4 src).2)
      else if id = psPackStart then
        let body := readFull 10 (readFull 4 src).2
        match body.1.2 with
        | some e => (.error e, body.2)
        | none =>
          let scount := (body.1.1.getD 9 0) &&& 0x07
          let stuffing := readFull scount body.2
          match stuffing.1.2 with
          | some e => (.error e, stuffing.2)
          | none => (.ok { id := id, content := body.1.1 ++ stuffing.1.1 }, stuffing.2)
      else
        let len := readFull 2 (readFull 4 src).2
        match len.1.2 with
        | some e => (.error e, len.2)
        | none =>
          let length := beUint len.1.1
          let content := readFull length len.2
          match content.1.2 with
          | some e => (.error e, content.2)
          | none => (.ok { id := id, content := content.1.1 }, content.2) := by
    simp only [readPSPacket]
    rw [h1]
    simp only [hcode, hoct]
    rw [if_neg hpre]
  refine ⟨?_, ?_, ?_⟩
  · intro h9
    rw [hunf, if_pos (by rw [h9]; rfl)]
    exact ⟨rfl, h2⟩
  · intro ha
    have hne : id ≠ psProgramEnd := by rw [ha]; decide
    have heq : id = psPackStart := by rw [ha]; rfl
    rw [hunf, if_neg hne, if_pos heq]
    constructor
    · intro hlen
      obtain ⟨b1, b2⟩ := readFull_ok 10 (readFull 4 src).2 (by rw [h2]; omega)
      rw [h2] at b1 b2
      have hg : (rest.take 10).getD 9 0 = rest.getD 9 0 := by
        simp [List.getD_eq_getElem?_getD, List.getElem?_take]
      obtain ⟨c1, c2⟩ := readFull_ok (rest.getD 9 0 &&& 0x07) (readFull 10 (readFull 4 src).2).2
        (by rw [b2, List.length_drop]; omega)
      rw [b2] at c1 c2
      simp only [b1, hg, c1]
      refine ⟨?_, ?_⟩
      · congr 2
        rw [← List.take_add]
      · rw [c2, List.drop_drop]
    · intro hlen
      by_cases h10 : 10 ≤ rest.length
      · obtain ⟨b1, b2⟩ := readFull_ok 10 (readFull 4 src).2 (by rw [h2]; omega)
        rw [h2] at b1 b2
        have hg : (rest.take 10).getD 9 0 = rest.getD 9 0 := by
          simp [List.getD_eq_getElem?_getD, List.getElem?_take]
        have hf := readFull_fail (rest.getD 9 0 &&& 0x07) (readFull 10 (readFull 4 src).2).2
          (by rw [b2, List.length_drop]; omega)
        simp only [b1, hg]
        rcases hf with hf | hf
        · exact ⟨.EOF, by rw [hf]⟩
        · exact ⟨.ErrUnexpectedEOF, by rw [hf]⟩
      · have hf := readFull_fail 10 (readFull 4 src).2 (by rw [h2]; omega)
        rcases hf with hf | hf
        · exact ⟨.EOF, by simp only [hf]⟩
        · exact ⟨.ErrUnexpectedEOF, by simp only [hf]⟩
  · intro h9 ha
    have hne : id ≠ psProgramEnd := h9
    have hne2 : id ≠ psPackStart := ha
    rw [hunf, if_neg hne, if_neg hne2]
    constructor
    · intro hlen
      obtain ⟨b1, b2⟩ := readFull_ok 2 (readFull 4 src).2 (by rw [h2]; omega)
      rw [h2] at b1 b2
      obtain ⟨x0, t0, e0, l0⟩ := list_eq_cons_of_length rest 1 (by omega)
      obtain ⟨x1, t1, e1, -⟩ := list_eq_cons_of_length t0 0 l0
      subst e1; subst e0
      simp only [List.take_succ_cons, List.take_zero, List.drop_succ_cons, List.drop_zero,
        List.getD_cons_zero, List.getD_cons_succ, List.length_cons] at b1 b2 hlen ⊢
      obtain ⟨c1, c2⟩ := readFull_ok (x0 * 256 + x1) (readFull 2 (readFull 4 src).2).2
        (by rw [b2]; omega)
      rw [b2] at c1 c2
      simp only [b1, beUint_two, c1]
      refine ⟨trivial, ?_⟩
      rw [c2]
      exact List.drop_drop (x0 * 256 + x1) 2 (x0 :: x1 :: t1)
    · intro hlen
      by_cases h2' : 2 ≤ rest.length
      · obtain ⟨b1, b2⟩ := readFull_ok 2 (readFull 4 src).2 (by rw [h2]; omega)
        rw [h2] at b1 b2
        obtain ⟨x0, t0, e0, l0⟩ := list_eq_cons_of_length rest 1 (by omega)
        obtain ⟨x1, t1, e1, -⟩ := list_eq_cons_of_length t0 0 l0
        subst e1; subst e0
        simp only [List.take_succ_cons, List.take_zero, List.drop_succ_cons, List.drop_zero,
          List.getD_cons_zero, List.getD_cons_succ, List.length_cons] at b1 b2 hlen ⊢
        have hf := readFull_fail (x0 * 256 + x1) (readFull 2 (readFull 4 src).2).2
          (by rw [b2]; omega)
        simp only [b1, beUint_two]
        rcases hf with hf | hf
        · exact ⟨.EOF, by rw [hf]⟩
        · exact ⟨.ErrUnexpectedEOF, by rw [hf]⟩
      · have hf := readFull_fail 2 (readFull 4 src).2 (by rw [h2]; omega)
        rcases hf with hf | hf
        · exact ⟨.EOF, by simp only [hf]⟩
        · exact ⟨.ErrUnexpectedEOF, by simp only [hf]⟩


/-! ### The cipher pool -/

theorem appendInto_snd (arr : List Nat) (n : Nat) (xs : List Nat) :
    (appendInto arr n xs).2 = arr.take n ++ xs := by
  simp only [appendInto]; split <;> rfl

theorem appendInto_fst_length (arr : List Nat) (n : Nat) (xs : List Nat) :
    (appendInto arr n xs).1.length = arr.length := by
  simp only [appendInto]
  split
  · simp only [List.length_append, List.length_take, List.length_drop]; omega
  · rfl

theorem appendInto_fst_take (arr : List Nat) (n : Nat) (xs : List Nat) (h : n ≤ arr.length) :
    (appendInto arr n xs).1.take n = arr.take n := by
  simp only [appendInto]
  split
  · rw [List.append_assoc, List.take_append_of_le_length (by rw [List.length_take]; omega),
      List.take_take, Nat.min_self]
  · rfl

theorem mapGet_filter_ne {κ ν : Type} [DecidableEq κ] (m : List (κ × ν)) (k k' : κ)
    (h : k' ≠ k) : mapGet (m.filter (fun e => e.1 ≠ k)) k' = mapGet m k' := by
  induction m with
  | nil => rfl
  | cons e m ih =>
    obtain ⟨a, v⟩ := e
    rw [List.filter_cons]
    by_cases ha : a = k
    · have hd : decide ((a, v).1 ≠ k) = false := by simp [ha]
      rw [hd]
      simp only [Bool.false_eq_true, if_false]
      rw [ih]
      simp only [mapGet]
      rw [if_neg (by rw [ha]; exact fun hc => h hc.symm)]
    · have hd : decide ((a, v).1 ≠ k) = true := by simp [ha]
      rw [hd]
      simp only [if_true, mapGet]
      rw [ih]

theorem mapGet_mapSet_self {κ ν : Type} [DecidableEq κ] (m : List (κ × ν)) (k : κ) (v : ν) :
    mapGet (mapSet m k v) k = some v := by
  simp [mapSet, mapGet]

theorem mapGet_mapSet_ne {κ ν : Type} [DecidableEq κ] (m : List (κ × ν)) (k k' : κ) (v : ν)
    (h : k' ≠ k) : mapGet (mapSet m k v) k' = mapGet m k' := by
  have hk : ¬ (k = k') := fun hc => h hc.symm
  simp only [mapSet, mapGet, hk, if_false]
  exact mapGet_filter_ne m k k' h

/-- The value of `getCipher` on a handle that is not cached. -/
theorem getCipher_fresh (P : Primitives) (pool : cipherPool P) (id : Nat)
    (conf : Nat × Nat × Nat)
    (hfresh : mapGet pool.ciphers { id := id, confounder := conf } = none) :
    getCipher P pool id conf =
      match specCipher P pool.mak pool.iv { id := id, confounder := conf } with
      | none => .error .cipherError
      | some st =>
        .ok ({ pool with
                ciphers := mapSet pool.ciphers { id := id, confounder := conf } pool.heap.length,
                heap := pool.heap ++ [st] }, pool.heap.length) := by
  have h20 : 16 ≤ (P.sha1 (pool.mak ++ pool.iv)).length := by rw [P.sha1_length]; decide
  simp only [getCipher, hfresh, specCipher, specDerivedKey, specDerivedIV, specBase,
    appendInto_snd, appendInto_fst_take _ _ _ h20]

/-- The value of `getCipher` on a cached handle. -/
theorem getCipher_cached (P : Primitives) (pool : cipherPool P) (id : Nat)
    (conf : Nat × Nat × Nat) (c : Nat)
    (hc : mapGet pool.ciphers { id := id, confounder := conf } = some c) :
    getCipher P pool id conf = .ok (pool, c) := by
  simp only [getCipher, hc]

/-- C2: for a handle that is not cached, `getCipher` constructs its cipher as
`NewCipher(key, ivd)` with `base = SHA1(mak ++ iv)`, `key = SHA1(base[0:16] ++ [id])`
and `ivd = SHA1(base[0:16] ++ [id, c0, c1, c2])`: both arguments are 20-byte
digests, the array `basekey` has the same first 16 bytes after the first and
after the second `append`, the object behind the returned pointer is the
constructed cipher, and `getCipher` panics exactly when `NewCipher` fails. -/
theorem getCipher_derivation (P : Primitives) (pool : cipherPool P) (id c0 c1 c2 : Nat)
    (hfresh : mapGet pool.ciphers { id := id, confounder := (c0, c1, c2) } = none) :
    (P.sha1 ((P.sha1 (pool.mak ++ pool.iv)).take 16 ++ [id])).length = 20 ∧
    (P.sha1 ((P.sha1 (pool.mak ++ pool.iv)).take 16 ++ [id, c0, c1, c2])).length = 20 ∧
    (appendInto (P.sha1 (pool.mak ++ pool.iv)) 16 [id]).1.take 16
      = (P.sha1 (pool.mak ++ pool.iv)).take 16 ∧
    (appendInto (appendInto (P.sha1 (pool.mak ++ pool.iv)) 16 [id]).1 16 [id, c0, c1, c2]).1.take 16
      = (P.sha1 (pool.mak ++ pool.iv)).take 16 ∧
    (∀ st,
      P.NewCipher (P.sha1 ((P.sha1 (pool.mak ++ pool.iv)).take 16 ++ [id]))
        (P.sha1 ((P.sha1 (pool.mak ++ pool.iv)).take 16 ++ [id, c0, c1, c2])) = some st →
      ∃ pool' c, getCipher P pool id (c0, c1, c2) = .ok (pool', c) ∧
        pool'.heap.get? c = some st) ∧
    (P.NewCipher (P.sha1 ((P.sha1 (pool.mak ++ pool.iv)).take 16 ++ [id]))
        (P.sha1 ((P.sha1 (pool.mak ++ pool.iv)).take 16 ++ [id, c0, c1, c2])) = none →
      getCipher P pool id (c0, c1, c2) = .error .cipherError) := by
  have h20 : 16 ≤ (P.sha1 (pool.mak ++ pool.iv)).length := by rw [P.sha1_length]; decide
  have hg := getCipher_fresh P pool id (c0, c1, c2) hfresh
  simp only [specCipher, specDerivedKey, specDerivedIV, specBase] at hg
  have h20' : 16 ≤ (appendInto (P.sha1 (pool.mak ++ pool.iv)) 16 [id]).1.length := by
    rw [appendInto_fst_length]; exact h20
  refine ⟨P.sha1_length _, P.sha1_length _, appendInto_fst_take _ _ _ h20,
    (appendInto_fst_take _ _ _ h20').trans (appendInto_fst_take _ _ _ h20), ?_, ?_⟩
  · intro st hst
    rw [hst] at hg
    exact ⟨_, _, hg, by simp⟩
  · intro hnone
    rw [hnone] at hg
    exact hg

/-- Witness for C2: the first cipher of a new pool with key "1" and IV `02`,
for stream id `e0` and confounder `01 02 03`. -/
theorem getCipher_derivation_witness :
    ∃ pool' c,
      getCipher countingPrimitives (newCipherPool countingPrimitives [0x31] [0x02]) 0xe0 (1, 2, 3)
        = .ok (pool', c) ∧
      pool'.heap.get? c = some (8970 : Nat) :=
  (getCipher_derivation countingPrimitives (newCipherPool countingPrimitives [0x31] [0x02])
    0xe0 1 2 3 (by decide)).2.2.2.2.1 8970 (by decide)

/-- C3: `getCipher` on a cached handle returns the stored pointer and leaves the
pool as it is; on a handle that is not cached a successful call stores a new
cipher object under that handle and leaves the entry of every other handle and
every existing cipher object unchanged. So every cached handle stays cached
with the same pointer, and a second call with the same handle returns the same
pointer without changing the pool. The call on a handle that is not cached
returns whenever `NewCipher` accepts the derived key and IV. -/
theorem getCipher_memo (P : Primitives) (pool : cipherPool P) (id : Nat)
    (conf : Nat × Nat × Nat) :
    (∀ c, mapGet pool.ciphers { id := id, confounder := conf } = some c →
      getCipher P pool id conf = .ok (pool, c)) ∧
    (∀ pool' c, mapGet pool.ciphers { id := id, confounder := conf } = none →
      getCipher P pool id conf = .ok (pool', c) →
      mapGet pool'.ciphers { id := id, confounder := conf } = some c ∧
      (∀ h, h ≠ { id := id, confounder := conf } →
        mapGet pool'.ciphers h = mapGet pool.ciphers h) ∧
      c = pool.heap.length ∧
      (∀ p, p < pool.heap.length → pool'.heap.get? p = pool.heap.get? p)) ∧
    (∀ pool' c, getCipher P pool id conf = .ok (pool', c) →
      (∀ h p, mapGet pool.ciphers h = some p → mapGet pool'.ciphers h = some p) ∧
      getCipher P pool' id conf = .ok (pool', c)) ∧
    (∀ st, mapGet pool.ciphers { id := id, confounder := conf } = none →
      specCipher P pool.mak pool.iv { id := id, confounder := conf } = some st →
      ∃ pool' c, getCipher P pool id conf = .ok (pool', c)) := by
  have fresh : ∀ pool' c, mapGet pool.ciphers { id := id, confounder := conf } = none →
      getCipher P pool id conf = .ok (pool', c) →
      mapGet pool'.ciphers { id := id, confounder := conf } = some c ∧
      (∀ h, h ≠ { id := id, confounder := conf } →
        mapGet pool'.ciphers h = mapGet pool.ciphers h) ∧
      c = pool.heap.length ∧
      (∀ p, p < pool.heap.length → pool'.heap.get? p = pool.heap.get? p) := by
    intro pool' c hnone hget
    rw [getCipher_fresh P pool id conf hnone] at hget
    cases hsp : specCipher P pool.mak pool.iv { id := id, confounder := conf } with
    | none => rw [hsp] at hget; exact absurd hget (by simp)
    | some st =>
      rw [hsp] at hget
      simp only [Except.ok.injEq, Prod.mk.injEq] at hget
      obtain ⟨hp, hc⟩ := hget
      subst hp; subst hc
      refine ⟨mapGet_mapSet_self _ _ _, fun h hh => mapGet_mapSet_ne _ _ _ _ hh, rfl, ?_⟩
      intro p hp
      simp only [List.get?_eq_getElem?]
      rw [List.getElem?_append_left hp]
  refine ⟨fun c hc => getCipher_cached P pool id conf c hc, fresh, ?_, ?_⟩
  rotate_left
  · intro st hnone hst
    have hg := getCipher_fresh P pool id conf hnone
    rw [hst] at hg
    exact ⟨_, _, hg⟩
  intro pool' c hget
  cases hm : mapGet pool.ciphers { id := id, confounder := conf } with
  | some c0 =>
    rw [getCipher_cached P pool id conf c0 hm] at hget
    simp only [Except.ok.injEq, Prod.mk.injEq] at hget
    obtain ⟨hp, hc⟩ := hget
    subst hp; subst hc
    exact ⟨fun h p hh => hh, getCipher_cached P pool id conf c0 hm⟩
  | none =>
    obtain ⟨h1, h2, -, -⟩ := fresh pool' c hm hget
    refine ⟨?_, getCipher_cached P pool' id conf c h1⟩
    intro h p hh
    by_cases heq : h = { id := id, confounder := conf }
    · rw [heq, hm] at hh; exact absurd hh (by simp)
    · rw [h2 h heq]; exact hh


/-! ### Key stream positions -/

theorem advance_add (P : Primitives) (m : Nat) :
    ∀ (c : P.State) (n : Nat), advance P c (m + n) = advance P (advance P c m) n := by
  induction m with
  | zero => intro c n; simp [advance]
  | succ m ih =>
    intro c n
    rw [show m + 1 + n = (m + n) + 1 from by omega]
    simp only [advance]
    exact ih _ _

theorem keystream_drop (P : Primitives) (m : Nat) :
    ∀ (c : P.State) (n : Nat),
      (keystream P c (m + n)).drop m = keystream P (advance P c m) n := by
  induction m with
  | zero => intro c n; simp [advance]
  | succ m ih =>
    intro c n
    rw [show m + 1 + n = (m + n) + 1 from by omega]
    simp only [keystream, advance, List.drop_succ_cons]
    exact ih _ _

theorem XORKeyStream_eq (P : Primitives) (data : List Nat) :
    ∀ c : P.State, XORKeyStream P c data =
      (advance P c data.length,
        List.zipWith (fun b k => b ^^^ k) data (keystream P c data.length)) := by
  induction data with
  | nil => intro c; rfl
  | cons b bs ih =>
    intro c
    simp only [XORKeyStream, ih, List.length_cons, advance, keystream, List.zipWith_cons_cons]

theorem xorThrough_ok (P : Primitives) (pool : cipherPool P) (c : Nat) (data : List Nat)
    (st : P.State) (h : pool.heap.get? c = some st) :
    xorThrough P pool c data =
      .ok ({ pool with heap := pool.heap.set c (advance P st data.length) },
        List.zipWith (fun b k => b ^^^ k) data (keystream P st data.length)) := by
  simp only [xorThrough, h, XORKeyStream_eq]

theorem get?_lt {α : Type} (l : List α) (c : Nat) (a : α) (h : l.get? c = some a) :
    c < l.length := by
  rw [List.get?_eq_getElem?] at h
  by_contra hc
  rw [List.getElem?_eq_none (by omega)] at h
  exact absurd h (by simp)

/-! ### The pool over a sequence of operations -/

theorem PoolInv_new (P : Primitives) (mak iv : List Nat) :
    PoolInv P mak iv (newCipherPool P mak iv) (fun _ => 0) := by
  refine ⟨rfl, rfl, ?_, fun _ _ => rfl, ?_⟩
  · intro h c hc; simp [newCipherPool, mapGet] at hc
  · intro h1 h2 c hc; simp [newCipherPool, mapGet] at hc

theorem PoolInv_getCipher (P : Primitives) (mak iv : List Nat) (pool pool' : cipherPool P)
    (cnt : cipherHandle → Nat) (h : cipherHandle) (c : Nat)
    (hinv : PoolInv P mak iv pool cnt)
    (hget : getCipher P pool h.id h.confounder = .ok (pool', c)) :
    PoolInv P mak iv pool' cnt ∧ mapGet pool'.ciphers h = some c := by
  obtain ⟨hmak, hiv, hobj, hzero, hinj⟩ := hinv
  have hh : ({ id := h.id, confounder := h.confounder } : cipherHandle) = h := by
    cases h; rfl
  cases hm : mapGet pool.ciphers h with
  | some c0 =>
    rw [getCipher_cached P pool h.id h.confounder c0 (by rw [hh]; exact hm)] at hget
    simp only [Except.ok.injEq, Prod.mk.injEq] at hget
    obtain ⟨hp, hc⟩ := hget
    subst hp; subst hc
    exact ⟨⟨hmak, hiv, hobj, hzero, hinj⟩, hm⟩
  | none =>
    have hsp' : specCipher P pool.mak pool.iv h = specCipher P mak iv h := by rw [hmak, hiv]
    rw [getCipher_fresh P pool h.id h.confounder (by rw [hh]; exact hm), hh, hsp'] at hget
    cases hsp : specCipher P mak iv h with
    | none => rw [hsp] at hget; exact absurd hget (by simp)
    | some st =>
      rw [hsp] at hget
      simp only [Except.ok.injEq, Prod.mk.injEq] at hget
      obtain ⟨hp, hc⟩ := hget
      subst hp; subst hc
      refine ⟨⟨hmak, hiv, ?_, ?_, ?_⟩, mapGet_mapSet_self _ _ _⟩
      · intro h' c' hc'
        by_cases heq : h' = h
        · subst heq
          rw [mapGet_mapSet_self] at hc'
          simp only [Option.some.injEq] at hc'
          subst hc'
          refine ⟨st, hsp, ?_⟩
          rw [hzero h' hm]
          simp [advance]
        · rw [mapGet_mapSet_ne _ _ _ _ heq] at hc'
          obtain ⟨st0, hs0, hg0⟩ := hobj h' c' hc'
          refine ⟨st0, hs0, ?_⟩
          have hlt := get?_lt _ _ _ hg0
          rw [List.get?_eq_getElem?] at hg0 ⊢
          show (pool.heap ++ [st])[c']? = _
          rw [List.getElem?_append_left hlt]
          exact hg0
      · intro h' hn
        by_cases heq : h' = h
        · subst heq; exact hzero h' hm
        · rw [mapGet_mapSet_ne _ _ _ _ heq] at hn
          exact hzero h' hn
      · intro h1 h2 c' e1 e2
        by_cases q1 : h1 = h
        · by_cases q2 : h2 = h
          · rw [q1, q2]
          · exfalso
            rw [q1, mapGet_mapSet_self] at e1
            rw [mapGet_mapSet_ne _ _ _ _ q2] at e2
            simp only [Option.some.injEq] at e1
            obtain ⟨_, _, hg⟩ := hobj h2 c' e2
            have := get?_lt _ _ _ hg
            omega
        · by_cases q2 : h2 = h
          · exfalso
            rw [q2, mapGet_mapSet_self] at e2
            rw [mapGet_mapSet_ne _ _ _ _ q1] at e1
            simp only [Option.some.injEq] at e2
            obtain ⟨_, _, hg⟩ := hobj h1 c' e1
            have := get?_lt _ _ _ hg
            omega
          · rw [mapGet_mapSet_ne _ _ _ _ q1] at e1
            rw [mapGet_mapSet_ne _ _ _ _ q2] at e2
            exact hinj h1 h2 c' e1 e2

theorem PoolInv_applyOp (P : Primitives) (mak iv : List Nat) (pool pool' : cipherPool P)
    (cnt : cipherHandle → Nat) (op : PoolOp)
    (hinv : PoolInv P mak iv pool cnt)
    (hop : applyOp P pool op = .ok pool') :
    PoolInv P mak iv pool' (fun h => cnt h + opConsumes h op) := by
  cases op with
  | get h =>
    cases hg : getCipher P pool h.id h.confounder with
    | error e =>
      simp only [applyOp, bind, Except.bind, pure, Except.pure, hg] at hop
      exact absurd hop (by simp)
    | ok got =>
      simp only [applyOp, bind, Except.bind, pure, Except.pure, hg, Except.ok.injEq] at hop
      subst hop
      simpa [opConsumes] using (PoolInv_getCipher P mak iv pool got.1 cnt h got.2 hinv hg).1
  | use h data =>
    cases hg : getCipher P pool h.id h.confounder with
    | error e =>
      simp only [applyOp, bind, Except.bind, pure, Except.pure, hg] at hop
      exact absurd hop (by simp)
    | ok got =>
      obtain ⟨⟨hmak, hiv, hobj, hzero, hinj⟩, hmc⟩ :=
        PoolInv_getCipher P mak iv pool got.1 cnt h got.2 hinv hg
      obtain ⟨st0, hs0, hg0⟩ := hobj h got.2 hmc
      simp only [applyOp, bind, Except.bind, pure, Except.pure, hg,
        xorThrough_ok P got.1 got.2 data _ hg0, Except.ok.injEq] at hop
      subst hop
      have hlt := get?_lt _ _ _ hg0
      refine ⟨hmak, hiv, ?_, ?_, hinj⟩
      · intro h' c' hc'
        by_cases heq : h' = h
        · subst heq
          rw [hmc] at hc'
          simp only [Option.some.injEq] at hc'
          subst hc'
          refine ⟨st0, hs0, ?_⟩
          simp only [opConsumes, if_true, List.get?_eq_getElem?]
          rw [List.getElem?_set_self hlt, advance_add]
        · obtain ⟨st1, hs1, hg1⟩ := hobj h' c' hc'
          refine ⟨st1, hs1, ?_⟩
          have hne : got.2 ≠ c' := fun hcc => heq (hinj h' h c' hc' (hcc ▸ hmc))
          have hcons : opConsumes h' (PoolOp.use h data) = 0 := by
            simp only [opConsumes]
            rw [if_neg (fun hc => heq hc.symm)]
          simp only [hcons, Nat.add_zero, List.get?_eq_getElem?]
          rw [List.getElem?_set_ne hne]
          rw [List.get?_eq_getElem?] at hg1
          exact hg1
      · intro h' hn
        have heq : h' ≠ h := fun hc => by rw [hc, hmc] at hn; exact absurd hn (by simp)
        have hcons : opConsumes h' (PoolOp.use h data) = 0 := by
          simp only [opConsumes]
          rw [if_neg (fun hc => heq hc.symm)]
        simp only [hcons, Nat.add_zero]
        exact hzero h' hn

theorem PoolInv_runOps (P : Primitives) (mak iv : List Nat) (ops : List PoolOp) :
    ∀ (pool pool' : cipherPool P) (cnt : cipherHandle → Nat),
      PoolInv P mak iv pool cnt → runOps P pool ops = .ok pool' →
      PoolInv P mak iv pool' (fun h => cnt h + consumed h ops) := by
  induction ops with
  | nil =>
    intro pool pool' cnt hinv hrun
    simp only [runOps, Except.ok.injEq] at hrun
    subst hrun
    simpa [consumed] using hinv
  | cons op ops ih =>
    intro pool pool' cnt hinv hrun
    simp only [runOps] at hrun
    cases hop : applyOp P pool op with
    | error e => rw [hop] at hrun; exact absurd hrun (by simp)
    | ok pool1 =>
      rw [hop] at hrun
      have h1 := PoolInv_applyOp P mak iv pool pool1 cnt op hinv hop
      have h2 := ih pool1 pool' _ h1 hrun
      have hfun : (fun h => cnt h + opConsumes h op + consumed h ops)
          = (fun h => cnt h + consumed h (op :: ops)) := by
        funext h
        simp only [consumed, List.map_cons, List.sum_cons]
        omega
      rw [← hfun]
      exact h2


/-! ### Where key stream is discarded -/

/-- The value of `psDecryptor.decryptPacket`: four key stream bytes of the
packet's cipher are thrown away and the payload is XORed with the bytes that
follow them. -/
theorem ps_decryptPacket_eq (P : Primitives) (dec : psDecryptor P) (packet : psPacket)
    (pd : CapSlice) (sc : List Nat) (conf : Nat × Nat × Nat) (pool1 : cipherPool P)
    (c : Nat) (st : P.State) (off : Nat)
    (h1 : packet.privateData = .ok pd) (h2 : pd.reslice 1 5 = .ok sc)
    (h3 : confounder sc = .ok conf)
    (h4 : getCipher P dec.pool packet.id conf = .ok (pool1, c))
    (h5 : pool1.heap.get? c = some st)
    (h6 : packet.payloadOffset = .ok off) :
    dec.decryptPacket packet =
      match psPacket.clearScramble
          { id := packet.id,
            content := packet.content.take off ++
              List.zipWith (fun b k => b ^^^ k) (packet.content.drop off)
                ((keystream P st (4 + (packet.content.length - off))).drop 4) } with
      | .error e => .error e
      | .ok packet' =>
        .ok ({ pool := { pool1 with
                  heap := pool1.heap.set c (advance P st (4 + (packet.content.length - off))) } },
             packet') := by
  have hlt := get?_lt _ _ _ h5
  have hx1 : xorThrough P pool1 c [0, 0, 0, 0] =
      .ok ({ pool1 with heap := pool1.heap.set c (advance P st 4) },
        List.zipWith (fun b k => b ^^^ k) [0, 0, 0, 0] (keystream P st 4)) :=
    xorThrough_ok P pool1 c [0, 0, 0, 0] st h5
  have h5' : ({ pool1 with heap := pool1.heap.set c (advance P st 4) } : cipherPool P).heap.get? c
      = some (advance P st 4) := by
    simp only [List.get?_eq_getElem?]
    exact List.getElem?_set_self hlt
  have hx2 := xorThrough_ok P { pool1 with heap := pool1.heap.set c (advance P st 4) } c
    (packet.content.drop off) (advance P st 4) h5'
  simp only [psDecryptor.decryptPacket, bind, Except.bind, pure, Except.pure, h1, h2, h3, h4,
    hx1, h6, hx2, List.length_drop, List.set_set, ← advance_add, keystream_drop]
  cases psPacket.clearScramble
    { id := packet.id,
      content := packet.content.take off ++
        List.zipWith (fun b k => b ^^^ k) (packet.content.drop off)
          (keystream P (advance P st 4) (packet.content.length - off)) } <;> rfl

/-- The value of `tsDecryptor.decryptPacket` on a frame whose packet id has a
cipher: the frame is XORed from the decrypt offset on with the key stream of
that cipher at its current position; no key stream is thrown away. -/
theorem ts_decryptPacket_eq (P : Primitives) (dec : tsDecryptor P) (p : tsPacket)
    (pid c : Nat) (st : P.State) (payload : List Nat) (offset : Nat)
    (h1 : p.id = .ok pid) (h2 : mapGet dec.ciphers pid = some c)
    (h3 : dec.pool.heap.get? c = some st)
    (h4 : p.payload = .ok payload) (h5 : decryptOffset p payload = .ok offset) :
    dec.decryptPacket p =
      .ok ({ dec with pool := { dec.pool with
                heap := dec.pool.heap.set c
                  (advance P st (p.content.length - (p.payloadOffset + offset))) } },
           tsPacket.clearScramble
             { content := p.content.take (p.payloadOffset + offset) ++
                 List.zipWith (fun b k => b ^^^ k) (p.content.drop (p.payloadOffset + offset))
                   (keystream P st (p.content.length - (p.payloadOffset + offset))) },
           none) := by
  have hx := xorThrough_ok P dec.pool c (p.content.drop (p.payloadOffset + offset)) st h3
  simp only [tsDecryptor.decryptPacket, bind, Except.bind, pure, Except.pure, h1, h2, h4, h5,
    hx, List.length_drop]


/-- Witness for C3: the first call on `freshPool` stores the cipher of
`handleE0` as object 0, and the second call returns object 0 again and leaves
the pool as it is. -/
theorem getCipher_memo_witness :
    (mapGet onePool.ciphers { id := 0xe0, confounder := (1, 2, 3) } = some 0 ∧
      (∀ h, h ≠ { id := 0xe0, confounder := (1, 2, 3) } →
        mapGet onePool.ciphers h = mapGet freshPool.ciphers h) ∧
      0 = freshPool.heap.length ∧
      (∀ p, p < freshPool.heap.length → onePool.heap.get? p = freshPool.heap.get? p)) ∧
    getCipher countingPrimitives onePool 0xe0 (1, 2, 3) = .ok (onePool, 0) :=
  ⟨(getCipher_memo countingPrimitives freshPool 0xe0 (1, 2, 3)).2.1 onePool 0 (by decide) rfl,
   (getCipher_memo countingPrimitives onePool 0xe0 (1, 2, 3)).1 0 (by decide)⟩

set_option maxRecDepth 100000 in
/-- C4, counterexample: the cipher that `getCipher` returns for the handle
`(e0, 10 20 60)`, not cached before, yields `9a` as its next key stream byte,
which is byte 0 of the freshly constructed cipher (byte 4 is `9e`); and the TS
decryptor, after `privateFrame` has created that cipher, XORs the first three
payload bytes `aa bb cc` of `dataFrame` with the key stream bytes 0, 1 and 2. -/
theorem getCipher_discards_nothing :
    (getCipher countingPrimitives freshPool 0xe0 (16, 32, 96)).toOption.map
        (fun r => (r.1.heap.get? r.2).map (fun st => keystream countingPrimitives st 1))
      = some (some [0x9a]) ∧
    (specCipher countingPrimitives [0x31] [0x02] handlePES).map
        (fun st => keystream countingPrimitives st 5) = some [0x9a, 0x9b, 0x9c, 0x9d, 0x9e] ∧
    ((tsReady.processPrivate privateFrame).toOption.bind
        (fun r => (r.1.decryptPacket dataFrame).toOption)).map
        (fun r => ((r.2.1.content.drop 4).take 3, r.2.2))
      = some ([0xaa ^^^ 0x9a, 0xbb ^^^ 0x9b, 0xcc ^^^ 0x9c], none) := by
  decide

/-- C4, amended: for a handle that is not cached `getCipher` returns the
freshly constructed cipher with none of its key stream used. The four bytes
are thrown away by the PS decryptor's `decryptPacket`, on every packet it
decrypts: the payload is XORed with the key stream from byte 4 on, counted
from the position the packet's cipher had when it was fetched, and the cipher
ends `4 + len(payload)` bytes further. The TS decryptor's `decryptPacket`
throws nothing away: the frame is XORed from the decrypt offset on with the key
stream from the cipher's current position. -/
theorem keystream_discard_by_caller (P : Primitives) :
    (∀ (pool : cipherPool P) (id : Nat) (conf : Nat × Nat × Nat) (st0 : P.State),
      mapGet pool.ciphers { id := id, confounder := conf } = none →
      specCipher P pool.mak pool.iv { id := id, confounder := conf } = some st0 →
      ∃ pool' c, getCipher P pool id conf = .ok (pool', c) ∧ pool'.heap.get? c = some st0) ∧
    (∀ (dec : psDecryptor P) (packet : psPacket) (pd : CapSlice) (sc : List Nat)
        (conf : Nat × Nat × Nat) (pool1 : cipherPool P) (c : Nat) (st : P.State) (off : Nat),
      packet.privateData = .ok pd → pd.reslice 1 5 = .ok sc → confounder sc = .ok conf →
      getCipher P dec.pool packet.id conf = .ok (pool1, c) → pool1.heap.get? c = some st →
      packet.payloadOffset = .ok off →
      dec.decryptPacket packet =
        match psPacket.clearScramble
            { id := packet.id,
              content := packet.content.take off ++
                List.zipWith (fun b k => b ^^^ k) (packet.content.drop off)
                  ((keystream P st (4 + (packet.content.length - off))).drop 4) } with
        | .error e => .error e
        | .ok packet' =>
          .ok ({ pool := { pool1 with
                    heap := pool1.heap.set c
                      (advance P st (4 + (packet.content.length - off))) } },
               packet')) ∧
    (∀ (dec : tsDecryptor P) (p : tsPacket) (pid c : Nat) (st : P.State) (payload : List Nat)
        (offset : Nat),
      p.id = .ok pid → mapGet dec.ciphers pid = some c → dec.pool.heap.get? c = some st →
      p.payload = .ok payload → decryptOffset p payload = .ok offset →
      dec.decryptPacket p =
        .ok ({ dec with pool := { dec.pool with
                  heap := dec.pool.heap.set c
                    (advance P st (p.content.length - (p.payloadOffset + offset))) } },
             tsPacket.clearScramble
               { content := p.content.take (p.payloadOffset + offset) ++
                   List.zipWith (fun b k => b ^^^ k)
                     (p.content.drop (p.payloadOffset + offset))
                     (keystream P st (p.content.length - (p.payloadOffset + offset))) },
             none)) := by
  refine ⟨?_, ?_, ?_⟩
  · intro pool id conf st0 hfresh hspec
    have hg := getCipher_fresh P pool id conf hfresh
    rw [hspec] at hg
    exact ⟨_, _, hg, by simp⟩
  · intro dec packet pd sc conf pool1 c st off h1 h2 h3 h4 h5 h6
    exact ps_decryptPacket_eq P dec packet pd sc conf pool1 c st off h1 h2 h3 h4 h5 h6
  · intro dec p pid c st payload offset h1 h2 h3 h4 h5
    exact ts_decryptPacket_eq P dec p pid c st payload offset h1 h2 h3 h4 h5

set_option maxRecDepth 8000 in
/-- Witness for C4 (amended): `getCipher` on `freshPool` returns the fresh
cipher (state 4250); the PS decryptor turns the payload `aa bb cc` of
`scrambledPES` into `aa^9e bb^9f cc^a0` (key stream bytes 4, 5, 6); the TS
decryptor turns the first payload bytes `aa bb cc` of `dataFrame` into
`aa^9a bb^9b cc^9c` (key stream bytes 0, 1, 2). -/
theorem keystream_discard_by_caller_witness :
    (∃ pool' c, getCipher countingPrimitives freshPool 0xe0 (16, 32, 96) = .ok (pool', c) ∧
      pool'.heap.get? c = some (4250 : Nat)) ∧
    ((psDecryptor.mk freshPool).decryptPacket scrambledPES).toOption.map (fun r => r.2.content)
      = some [0x80, 0x00, 0x06, 0x11, 0x04, 0x08, 0x0c, 0x00, 0x22,
          0xaa ^^^ 0x9e, 0xbb ^^^ 0x9f, 0xcc ^^^ 0xa0] ∧
    (tsKeyed.decryptPacket dataFrame).toOption.map (fun r => (r.2.1.content.drop 4).take 3)
      = some [0xaa ^^^ 0x9a, 0xbb ^^^ 0x9b, 0xcc ^^^ 0x9c] :=
  ⟨(keystream_discard_by_caller countingPrimitives).1 freshPool 0xe0 (16, 32, 96) 4250
      (by decide) (by decide),
   by
    rw [(keystream_discard_by_caller countingPrimitives).2.1 (psDecryptor.mk freshPool)
      scrambledPES { store := [17, 4, 8, 12, 0, 34, 170, 187, 204], len := 3 } [4, 8, 12, 0]
      (16, 32, 96) keyedPool 0 4250 9 (by decide) (by decide) (by decide) rfl (by decide)
      (by decide)]
    decide,
   by
    rw [(keystream_discard_by_caller countingPrimitives).2.2 tsKeyed dataFrame 0x100 0 4250
      (dataFrame.content.drop 4) 0 (by decide) (by decide) (by decide) (by decide) (by decide)]
    decide⟩

/-- C5, counterexample: after one key stream byte has been used through the
handle `handleE0`, the cipher that `getCipher` returns for it yields the key
stream `0b 0c 0d`, while a cipher freshly derived for the same handle yields
`0a 0b 0c`. -/
theorem cached_cipher_keystream_differs :
    ((runOps countingPrimitives freshPool [.use handleE0 [0]]).toOption.bind
        (fun pool => (getCipher countingPrimitives pool 0xe0 (1, 2, 3)).toOption.bind
          (fun r => (r.1.heap.get? r.2).map (fun st => keystream countingPrimitives st 3))))
      = some [0x0b, 0x0c, 0x0d] ∧
    (specCipher countingPrimitives [0x31] [0x02] handleE0).map
        (fun st => keystream countingPrimitives st 3) = some [0x0a, 0x0b, 0x0c] := by
  decide

/-- C5, amended: in every pool state reached from a new pool by a sequence of
`getCipher` calls and key stream uses, the cipher that `getCipher` returns for
a handle is the cipher freshly derived from (mak, iv, id, confounder) advanced
by the number of key stream bytes already used through that handle; its key
stream is the fresh key stream with that many bytes dropped. -/
theorem getCipher_after_ops (P : Primitives) (mak iv : List Nat) (ops : List PoolOp)
    (pool pool' : cipherPool P) (id : Nat) (conf : Nat × Nat × Nat) (c : Nat)
    (hrun : runOps P (newCipherPool P mak iv) ops = .ok pool)
    (hget : getCipher P pool id conf = .ok (pool', c)) :
    ∃ st0, specCipher P mak iv { id := id, confounder := conf } = some st0 ∧
      pool'.heap.get? c
        = some (advance P st0 (consumed { id := id, confounder := conf } ops)) ∧
      ∀ n, keystream P (advance P st0 (consumed { id := id, confounder := conf } ops)) n
        = (keystream P st0 (consumed { id := id, confounder := conf } ops + n)).drop
            (consumed { id := id, confounder := conf } ops) := by
  have hinv := PoolInv_runOps P mak iv ops _ pool _ (PoolInv_new P mak iv) hrun
  obtain ⟨⟨-, -, hobj, -, -⟩, hmc⟩ :=
    PoolInv_getCipher P mak iv pool pool' _ { id := id, confounder := conf } c hinv hget
  obtain ⟨st0, hs0, hg0⟩ := hobj _ c hmc
  simp only [Nat.zero_add] at hg0
  exact ⟨st0, hs0, hg0, fun n => (keystream_drop P _ st0 n).symm⟩

/-- Witness for C5 (amended): after one byte used through `handleE0` the
returned cipher is the fresh cipher (state 8970) advanced by one byte. -/
theorem getCipher_after_ops_witness :
    ∃ st0, specCipher countingPrimitives [0x31] [0x02] { id := 0xe0, confounder := (1, 2, 3) }
        = some st0 ∧
      usedPool.heap.get? 0
        = some (advance countingPrimitives st0
            (consumed { id := 0xe0, confounder := (1, 2, 3) } [.use handleE0 [0]])) ∧
      ∀ n, keystream countingPrimitives (advance countingPrimitives st0
            (consumed { id := 0xe0, confounder := (1, 2, 3) } [.use handleE0 [0]])) n
        = (keystream countingPrimitives st0
            (consumed { id := 0xe0, confounder := (1, 2, 3) } [.use handleE0 [0]] + n)).drop
            (consumed { id := 0xe0, confounder := (1, 2, 3) } [.use handleE0 [0]]) :=
  getCipher_after_ops countingPrimitives [0x31] [0x02] [.use handleE0 [0]] usedPool usedPool
    0xe0 (1, 2, 3) 0 rfl rfl

set_option maxRecDepth 100000 in
/-- C10, counterexample: among the 256 packet ids, the start code followed by
ten zero bytes is read as a packet with that 10-byte body for the id `ba`
only, so one id, not two, has the fixed 10-byte body; the system header id
`bb` reads the same input as a length-prefixed packet of length 0. -/
theorem fixed_body_only_pack_start :
    (List.range 256).filter (fun id =>
        decide ((readPSPacket [[0, 0, 1, id] ++ List.replicate 10 0]).1
          = .ok { id := id, content := List.replicate 10 0 })) = [0xba] ∧
    (readPSPacket [[0, 0, 1, 0xbb] ++ List.replicate 10 0]).1
      = .ok { id := 0xbb, content := [] } := by
  decide

/-- C10, amended: `readPSPacket` fails on every input whose first three bytes
are not `00 00 01`; otherwise byte 3 is the packet id and the content is empty
for the id `b9`, the 10-byte body followed by `body[9] & 0x07` stuffing bytes
for the id `ba` and for no other id, and for every other id the `N` bytes that
follow the 16-bit big-endian length `N`; it fails when the input ends before
the start code or the content is complete, and otherwise leaves the input just
after the content. -/
theorem readPSPacket_framing (src : Reader) (hb : isBytes src.remaining) :
    (src.remaining.take 3 ≠ [0, 0, 1] → ∃ e, (readPSPacket src).1 = .error e) ∧
    (src.remaining.length < 4 → ∃ e, (readPSPacket src).1 = .error e) ∧
    (∀ id rest, src.remaining = 0 :: 0 :: 1 :: id :: rest →
      (id = 0xb9 →
        (readPSPacket src).1 = .ok { id := id, content := [] } ∧
        (readPSPacket src).2.remaining = rest) ∧
      (id = 0xba →
        (10 + (rest.getD 9 0 &&& 0x07) ≤ rest.length →
          (readPSPacket src).1
            = .ok { id := id, content := rest.take (10 + (rest.getD 9 0 &&& 0x07)) } ∧
          (readPSPacket src).2.remaining = rest.drop (10 + (rest.getD 9 0 &&& 0x07))) ∧
        (rest.length < 10 + (rest.getD 9 0 &&& 0x07) →
          ∃ e, (readPSPacket src).1 = .error e)) ∧
      (id ≠ 0xb9 → id ≠ 0xba →
        (2 + (rest.getD 0 0 * 256 + rest.getD 1 0) ≤ rest.length →
          (readPSPacket src).1
            = .ok { id := id,
                    content := (rest.drop 2).take (rest.getD 0 0 * 256 + rest.getD 1 0) } ∧
          (readPSPacket src).2.remaining
            = rest.drop (2 + (rest.getD 0 0 * 256 + rest.getD 1 0))) ∧
        (rest.length < 2 + (rest.getD 0 0 * 256 + rest.getD 1 0) →
          ∃ e, (readPSPacket src).1 = .error e))) := by
  refine ⟨readPSPacket_wrong_start src hb, ?_, ?_⟩
  · intro hlen
    rcases readFull_fail 4 src hlen with hf | hf
    · exact ⟨.EOF, by simp only [readPSPacket]; rw [hf]⟩
    · exact ⟨.ErrUnexpectedEOF, by simp only [readPSPacket]; rw [hf]⟩
  · intro id rest hs
    have hid : id < 256 := hb id (by rw [hs]; simp)
    exact readPSPacket_body src id rest hid hs

/-- Witness for C10 (amended): a pack-start packet with three stuffing bytes, a
length-prefixed packet of stream `e0`, and an input starting `00 00 02`. -/
theorem readPSPacket_framing_witness :
    ((readPSPacket [[0, 0, 1, 0xba, 0, 0, 0, 0, 0, 0, 0, 0, 0, 3, 1, 2, 3, 9, 9]]).1
        = .ok { id := 0xba, content := [0, 0, 0, 0, 0, 0, 0, 0, 0, 3, 1, 2, 3] } ∧
      (readPSPacket [[0, 0, 1, 0xba, 0, 0, 0, 0, 0, 0, 0, 0, 0, 3, 1, 2, 3, 9, 9]]).2.remaining
        = [9, 9]) ∧
    ((readPSPacket [[0, 0, 1, 0xe0, 0, 3], [1, 2, 3, 9, 9]]).1
        = .ok { id := 0xe0, content := [1, 2, 3] } ∧
      (readPSPacket [[0, 0, 1, 0xe0, 0, 3], [1, 2, 3, 9, 9]]).2.remaining = [9, 9]) ∧
    (∃ e, (readPSPacket [[0, 0, 2, 0xe0, 0, 3, 1, 2, 3]]).1 = .error e) :=
  ⟨((readPSPacket_framing [[0, 0, 1, 0xba, 0, 0, 0, 0, 0, 0, 0, 0, 0, 3, 1, 2, 3, 9, 9]]
      (by decide)).2.2 0xba [0, 0, 0, 0, 0, 0, 0, 0, 0, 3, 1, 2, 3, 9, 9] rfl).2.1 rfl |>.1
      (by decide),
   ((readPSPacket_framing [[0, 0, 1, 0xe0, 0, 3], [1, 2, 3, 9, 9]]
      (by decide)).2.2 0xe0 [0, 3, 1, 2, 3, 9, 9] rfl).2.2 (by decide) (by decide) |>.1
      (by decide),
   (readPSPacket_framing [[0, 0, 2, 0xe0, 0, 3, 1, 2, 3]] (by decide)).1 (by decide)⟩


/-! ### The header parser on a reader without short reads -/

theorem readLoop_fullReads (n : Nat) (r : Reader) (hf : fullReads r) :
    fullReads (readLoop n r).2 := by
  unfold fullReads at *
  match r, hf with
  | [], _ => simp [readLoop]
  | [c], _ =>
    simp only [readLoop]
    split
    · simp
    · split <;> simp
  | _ :: _ :: _, hf => simp at hf

theorem readFull_fullReads (n : Nat) (r : Reader) (hf : fullReads r) :
    fullReads (readFull n r).2 := by
  simp only [readFull]
  split
  · exact readLoop_fullReads n r hf
  · split <;> exact readLoop_fullReads n r hf

theorem read_fullReads (n : Nat) (r : Reader) (hf : fullReads r)
    (hok : (r.read n).1.2 = none) :
    (r.read n).1.1 = r.remaining.take n ∧ (r.read n).2.remaining = r.remaining.drop n ∧
    fullReads (r.read n).2 := by
  unfold fullReads at *
  match r, hf with
  | [], _ =>
    by_cases h0 : n = 0
    · simp [Reader.read, h0, Reader.remaining]
    · simp [Reader.read, h0] at hok
  | [c], _ =>
    simp only [Reader.read, Reader.remaining, List.flatten_cons, List.flatten_nil,
      List.append_nil]
    by_cases h0 : n = 0
    · simp [h0]
    · by_cases hc : c.length ≤ n
      · simp [h0, hc, List.take_of_length_le hc, List.drop_of_length_le hc]
      · simp [h0, hc]
  | _ :: _ :: _, hf => simp at hf

theorem specSegments_length (k : Nat) :
    ∀ (bs : List Nat) (ms : List metadata) (rest : List Nat),
      specSegments k bs = some (ms, rest) →
      ms.length = k ∧ bs.length = (ms.map segmentSize).sum + rest.length := by
  induction k with
  | zero =>
    intro bs ms rest h
    simp only [specSegments, Option.some.injEq, Prod.mk.injEq] at h
    obtain ⟨h1, h2⟩ := h
    subst h1; subst h2
    simp
  | succ k ih =>
    intro bs ms rest h
    simp only [specSegments] at h
    split at h
    · exact absurd h (by simp)
    · split at h
      · exact absurd h (by simp)
      · split at h
        · exact absurd h (by simp)
        · split at h
          · exact absurd h (by simp)
          · rename_i res hres
            simp only [Option.some.injEq, Prod.mk.injEq] at h
            obtain ⟨h1, h2⟩ := h
            obtain ⟨i1, i2⟩ := ih _ res.1 res.2 hres
            subst h1; subst h2
            refine ⟨by simp [i1], ?_⟩
            simp only [List.length_drop] at i2
            simp only [List.map_cons, List.sum_cons, segmentSize]
            simp only [List.length_drop] at *
            omega

/-- On a reader without short reads the segment loop of `readFileMetadata`,
when it succeeds, returns the segments of `specSegments`, keeps a running
count equal to the bytes read, and leaves the input after the skipped bytes. -/
theorem readSegments_fullReads (header : fileHeader) (todo : Nat) :
    ∀ (done : List metadata) (position : Nat) (src : Reader), fullReads src →
      (readSegments header todo done position src).err = none →
      ∃ ms rest, specSegments todo src.remaining = some (ms, rest) ∧
        (readSegments header todo done position src).meta = done ++ ms ∧
        (readSegments header todo done position src).position
          = position + (ms.map segmentSize).sum ∧
        header.VideoOffset - (position + (ms.map segmentSize).sum) ≤ rest.length ∧
        (readSegments header todo done position src).src.remaining
          = rest.drop (header.VideoOffset - (position + (ms.map segmentSize).sum)) := by
  induction todo with
  | zero =>
    intro done position src _ herr
    refine ⟨[], src.remaining, rfl, by simp [readSegments], by simp [readSegments], ?_, ?_⟩
    · simp only [readSegments, copyNDiscard] at herr
      simp only [List.map_nil, List.sum_nil, Nat.add_zero]
      by_cases hn : (header.VideoOffset : Int) - (position : Int) ≤ 0
      · omega
      · rw [if_neg hn] at herr
        by_cases hl : (readLoop ((header.VideoOffset : Int) - (position : Int)).toNat src).1.length
            = ((header.VideoOffset : Int) - (position : Int)).toNat
        · rw [readLoop_fst, List.length_take] at hl
          omega
        · rw [if_neg hl] at herr
          exact absurd herr (by simp)
    · simp only [readSegments, copyNDiscard] at herr ⊢
      simp only [List.map_nil, List.sum_nil, Nat.add_zero]
      by_cases hn : (header.VideoOffset : Int) - (position : Int) ≤ 0
      · rw [if_pos hn]
        have : header.VideoOffset - position = 0 := by omega
        rw [this, List.drop_zero]
      · rw [if_neg hn]
        have ht : ((header.VideoOffset : Int) - (position : Int)).toNat
            = header.VideoOffset - position := by omega
        split
        · rw [readLoop_snd, ht]
        · rw [readLoop_snd, ht]
  | succ todo ih =>
    intro done position src hf herr
    by_cases h12 : 12 ≤ src.remaining.length
    · obtain ⟨a1, a2⟩ := readFull_ok 12 src h12
      have af := readFull_fullReads 12 src hf
      cases hc : ((readFull 12 src).2.read
          (decodeMetaHeader (src.remaining.take 12)).DataSize).1.2 with
      | some e =>
        simp only [readSegments, a1, hc] at herr
        exact absurd herr (by simp)
      | none =>
        obtain ⟨c1, c2, cf⟩ := read_fullReads _ _ af hc
        rw [a2] at c1 c2
        by_cases h4 : 4 ≤ ((readFull 12 src).2.read
            (decodeMetaHeader (src.remaining.take 12)).DataSize).2.remaining.length
        · obtain ⟨m1, m2⟩ := readFull_ok 4 _ h4
          have mf := readFull_fullReads 4 _ cf
          rw [c2] at m1 m2 h4
          by_cases hz : beUint (((src.remaining.drop 12).drop
              (decodeMetaHeader (src.remaining.take 12)).DataSize).take 4) = 0
          · have hlen : (decodeMetaHeader (src.remaining.take 12)).DataSize + 4
                ≤ (src.remaining.drop 12).length := by
              simp only [List.length_drop] at h4 ⊢
              omega
            have hfill : (src.remaining.drop 12).take
                  (decodeMetaHeader (src.remaining.take 12)).DataSize ++
                List.replicate ((decodeMetaHeader (src.remaining.take 12)).DataSize -
                  ((src.remaining.drop 12).take
                    (decodeMetaHeader (src.remaining.take 12)).DataSize).length) 0
                = (src.remaining.drop 12).take
                    (decodeMetaHeader (src.remaining.take 12)).DataSize := by
              have : ((src.remaining.drop 12).take
                  (decodeMetaHeader (src.remaining.take 12)).DataSize).length
                  = (decodeMetaHeader (src.remaining.take 12)).DataSize := by
                rw [List.length_take]; omega
              rw [this, Nat.sub_self]
              simp
            have hunf : readSegments header (todo + 1) done position src =
                readSegments header todo
                  (done ++ [{ Header := decodeMetaHeader (src.remaining.take 12),
                              Content := (src.remaining.drop 12).take
                                (decodeMetaHeader (src.remaining.take 12)).DataSize }])
                  (position + (16 + (decodeMetaHeader (src.remaining.take 12)).DataSize))
                  (readFull 4 ((readFull 12 src).2.read
                    (decodeMetaHeader (src.remaining.take 12)).DataSize).2).2 := by
              simp only [readSegments, a1, hc, c1, m1, hz, hfill, ne_eq, not_true_eq_false,
                if_false]
            rw [hunf] at herr ⊢
            obtain ⟨ms, rest, i1, i2, i3, i4, i5⟩ := ih _ _ _ mf herr
            rw [m2, List.drop_drop] at i1
            refine ⟨{ Header := decodeMetaHeader (src.remaining.take 12),
                      Content := (src.remaining.drop 12).take
                        (decodeMetaHeader (src.remaining.take 12)).DataSize } :: ms, rest,
              ?_, ?_, ?_, ?_, ?_⟩
            · simp only [specSegments]
              rw [if_neg (by omega), if_neg (by omega), if_neg (by simpa using hz), i1]
            · rw [i2, List.append_assoc]; rfl
            · rw [i3]; simp only [List.map_cons, List.sum_cons, segmentSize]; omega
            · simp only [List.map_cons, List.sum_cons, segmentSize] at i4 ⊢
              have e : position + (16 + (decodeMetaHeader (src.remaining.take 12)).DataSize
                    + (ms.map segmentSize).sum)
                  = position + (16 + (decodeMetaHeader (src.remaining.take 12)).DataSize)
                    + (ms.map segmentSize).sum := by omega
              simp only [segmentSize] at e
              rw [e]; exact i4
            · simp only [List.map_cons, List.sum_cons, segmentSize] at i5 ⊢
              have e : position + (16 + (decodeMetaHeader (src.remaining.take 12)).DataSize
                    + (ms.map segmentSize).sum)
                  = position + (16 + (decodeMetaHeader (src.remaining.take 12)).DataSize)
                    + (ms.map segmentSize).sum := by omega
              simp only [segmentSize] at e
              rw [e]; exact i5
          · simp only [readSegments, a1, hc, m1] at herr
            rw [if_pos hz] at herr
            exact absurd herr (by simp)
        · rcases readFull_fail 4 _ (Nat.lt_of_not_le h4) with hfail | hfail
          · simp only [readSegments, a1, hc, hfail] at herr
            exact absurd herr (by simp)
          · simp only [readSegments, a1, hc, hfail] at herr
            exact absurd herr (by simp)
    · rcases readFull_fail 12 src (Nat.lt_of_not_le h12) with hfail | hfail
      · simp only [readSegments, hfail] at herr
        exact absurd herr (by simp)
      · simp only [readSegments, hfail] at herr
        exact absurd herr (by simp)


/-- The header parser on a reader without short reads: a successful
`readFileMetadata` returns the segments of `specSegments` (count - 1 of them,
the count taken in `uint16`), its running count equals the bytes read before
the skip, and when the content offset is not below that count the bytes
consumed in total equal the content offset. -/
theorem readFileMetadata_fullReads (src : Reader) (hf : fullReads src)
    (herr : (readFileMetadata src).err = none) :
    ∃ ms rest,
      specSegments (((readFileMetadata src).header.MetaSegments + 65535) % 65536)
        (src.remaining.drop 16) = some (ms, rest) ∧
      (readFileMetadata src).header = decodeFileHeader (src.remaining.take 16) ∧
      (readFileMetadata src).meta = ms ∧
      ms.length = ((readFileMetadata src).header.MetaSegments + 65535) % 65536 ∧
      (readFileMetadata src).position = 16 + (ms.map segmentSize).sum ∧
      src.remaining.length = (readFileMetadata src).position + rest.length ∧
      (readFileMetadata src).src.remaining
        = rest.drop ((readFileMetadata src).header.VideoOffset
            - (readFileMetadata src).position) ∧
      ((readFileMetadata src).position ≤ (readFileMetadata src).header.VideoOffset →
        src.remaining.length - (readFileMetadata src).src.remaining.length
          = (readFileMetadata src).header.VideoOffset) := by
  by_cases h16 : 16 ≤ src.remaining.length
  · obtain ⟨a1, a2⟩ := readFull_ok 16 src h16
    have af := readFull_fullReads 16 src hf
    by_cases hmag : (decodeFileHeader (src.remaining.take 16)).Magic = tivoMagic
    · have hunf : readFileMetadata src =
          readSegments (decodeFileHeader (src.remaining.take 16))
            (((decodeFileHeader (src.remaining.take 16)).MetaSegments + 65535) % 65536) [] 16
            (readFull 16 src).2 := by
        simp only [readFileMetadata, a1]
        rw [if_neg (by simpa using hmag)]
      rw [hunf] at herr
      obtain ⟨ms, rest, i1, i2, i3, i4, i5⟩ := readSegments_fullReads _ _ [] 16 _ af herr
      rw [a2] at i1
      obtain ⟨l1, l2⟩ := specSegments_length _ _ _ _ i1
      have hh := readSegments_header (decodeFileHeader (src.remaining.take 16))
        (((decodeFileHeader (src.remaining.take 16)).MetaSegments + 65535) % 65536) [] 16
        (readFull 16 src).2
      rw [hunf, hh]
      simp only [List.length_drop] at l2
      refine ⟨ms, rest, i1, rfl, by simpa using i2, l1, i3, by rw [i3]; omega, ?_, ?_⟩
      · rw [i5, i3]
      · intro hle
        rw [i5, List.length_drop]
        rw [i3] at hle
        omega
    · exfalso
      have hr : (readFileMetadata src).err = some .notTivoFile := by
        simp only [readFileMetadata, a1]
        rw [if_pos hmag]
      rw [hr] at herr; exact absurd herr (by simp)
  · exfalso
    rcases readFull_fail 16 src (Nat.lt_of_not_le h16) with hfail | hfail
    · simp only [readFileMetadata, hfail] at herr
      exact absurd herr (by simp)
    · simp only [readFileMetadata, hfail] at herr
      exact absurd herr (by simp)

/-- C1: on a byte sequence of length at least 4 `confounder` returns the three
bytes given by the bit-packing formula (taken modulo 256) over the first four
bytes, the result depends on the first four bytes only, and on a sequence of
fewer than four bytes it panics. -/
theorem confounder_spec (s : List Nat) (hs : isBytes s) :
    (4 ≤ s.length →
      confounder s = .ok
        ( ((((s.getD 0 0) &&& 0x3f) <<< 2) ||| ((s.getD 1 0) >>> 6)) % 256,
          ((((s.getD 1 0) &&& 0x3f) <<< 2) ||| ((s.getD 2 0) >>> 6)) % 256,
          ((((s.getD 2 0) &&& 0x1f) <<< 3) ||| ((s.getD 3 0) >>> 5)) % 256 )
      ∧ confounder s = confounder (s.take 4)) ∧
    (s.length < 4 → confounder s = .error (.explicit "expected at least 4 bytes")) := by
  match s, hs with
  | [], _ => simp [confounder]
  | [_], _ => simp [confounder]
  | [_, _], _ => simp [confounder]
  | [_, _, _], _ => simp [confounder]
  | s0 :: s1 :: s2 :: s3 :: rest, hs =>
    have h0 : s0 < 256 := hs s0 (by simp)
    have h1 : s1 < 256 := hs s1 (by simp)
    have h2 : s2 < 256 := hs s2 (by simp)
    have h3 : s3 < 256 := hs s3 (by simp)
    have e0 := and_shl_lt s0 0x3f 2 (by decide)
    have e1 := and_shl_lt s1 0x3f 2 (by decide)
    have e2 := and_shl_lt s2 0x1f 3 (by decide)
    have l0 : (s0 &&& 0x3f) <<< 2 < 256 := by rw [← e0]; exact Nat.mod_lt _ (by decide)
    have l1 : (s1 &&& 0x3f) <<< 2 < 256 := by rw [← e1]; exact Nat.mod_lt _ (by decide)
    have l2 : (s2 &&& 0x1f) <<< 3 < 256 := by rw [← e2]; exact Nat.mod_lt _ (by decide)
    refine ⟨fun _ => ⟨?_, ?_⟩, fun h => ?_⟩
    · simp only [confounder, List.getD_cons_zero, List.getD_cons_succ]
      rw [e0, e1, e2, or_byte_mod _ _ l0 (shr_byte_lt s1 6 h1),
        or_byte_mod _ _ l1 (shr_byte_lt s2 6 h2), or_byte_mod _ _ l2 (shr_byte_lt s3 5 h3)]
    · simp [confounder]
    · simp at h; omega

/-- Witness for C1 on the five-byte sequence `ff 80 40 20 99`. -/
theorem confounder_spec_witness :
    confounder [0xff, 0x80, 0x40, 0x20, 0x99] = .ok (0xfe, 0x01, 0x01) ∧
    confounder [0xff, 0x80, 0x40] = .error (.explicit "expected at least 4 bytes") :=
  ⟨by
    have h := (confounder_spec [0xff, 0x80, 0x40, 0x20, 0x99] (by decide)).1 (by decide)
    exact h.1.trans (by decide),
   (confounder_spec [0xff, 0x80, 0x40] (by decide)).2 (by decide)⟩

/-! ### PS packet processing -/

theorem index_cons_zero (b : Nat) (rest : List Nat) : index (b :: rest) 0 = .ok b := rfl

theorem index_ok_iff (s : List Nat) (i b : Nat) : index s i = .ok b ↔ s[i]? = some b := by
  simp only [index, List.get?_eq_getElem?]
  cases h : s[i]? with
  | none => simp
  | some a => simp

theorem index_zero_ok (s : List Nat) (b : Nat) (h : index s 0 = .ok b) :
    ∃ rest, s = b :: rest := by
  cases s with
  | nil => simp [index] at h
  | cons a rest =>
    simp only [index, List.get?_cons_zero, Except.ok.injEq] at h
    exact ⟨rest, by rw [h]⟩

theorem and_cf_and_30 (b : Nat) : ((b &&& 0xcf) &&& 0x30) >>> 4 = 0 := by
  rw [Nat.and_assoc]
  have : (0xcf : Nat) &&& 0x30 = 0 := by decide
  rw [this]
  simp

/-- After `clearScramble` the scramble field reads zero. -/
theorem clearScramble_scramble (p q : psPacket) (h : p.clearScramble = .ok q) :
    q.scramble = .ok 0 ∧ q.id = p.id := by
  simp only [psPacket.clearScramble, bind, Except.bind, pure, Except.pure] at h
  cases hs : p.scramble with
  | error e => rw [hs] at h; exact absurd h (by simp)
  | ok s =>
    rw [hs] at h
    simp only at h
    by_cases hz : s = 0
    · rw [if_neg (by simpa using hz)] at h
      simp only [Except.ok.injEq] at h
      subst h; subst hz
      exact ⟨hs, rfl⟩
    · rw [if_pos hz] at h
      cases hb : index p.content 0 with
      | error e => rw [hb] at h; exact absurd h (by simp)
      | ok b =>
        rw [hb] at h
        simp only [Except.ok.injEq] at h
        subst h
        obtain ⟨rest, hc⟩ := index_zero_ok _ _ hb
        refine ⟨?_, rfl⟩
        simp only [psPacket.scramble, bind, Except.bind, pure, Except.pure]
        split
        · rfl
        · rw [hc]
          simp only [List.set_cons_zero, index_cons_zero, and_cf_and_30]

theorem keystream_length (P : Primitives) (n : Nat) :
    ∀ st : P.State, (keystream P st n).length = n := by
  induction n with
  | zero => intro st; rfl
  | succ n ih => intro st; simp [keystream, ih]

theorem keystream_getElem? (P : Primitives) (n : Nat) :
    ∀ (st : P.State) (k : Nat), k < n → (keystream P st n)[k]? = some (keyByte P st k) := by
  induction n with
  | zero => intro st k hk; omega
  | succ n ih =>
    intro st k hk
    cases k with
    | zero => simp [keystream, keyByte, advance]
    | succ k =>
      simp only [keystream, List.getElem?_cons_succ]
      rw [ih _ k (by omega)]
      simp [keyByte, advance]

/-- When `decryptPacket` returns, every step of it has returned. -/
theorem ps_decryptPacket_inv (P : Primitives) (dec dec' : psDecryptor P)
    (packet packet' : psPacket) (h : dec.decryptPacket packet = .ok (dec', packet')) :
    ∃ pd sc conf pool1 c st off,
      packet.privateData = .ok pd ∧ pd.reslice 1 5 = .ok sc ∧ confounder sc = .ok conf ∧
      getCipher P dec.pool packet.id conf = .ok (pool1, c) ∧ pool1.heap.get? c = some st ∧
      packet.payloadOffset = .ok off := by
  cases h1 : packet.privateData with
  | error e =>
    simp only [psDecryptor.decryptPacket, bind, Except.bind, h1] at h
    exact absurd h (by simp)
  | ok pd =>
    cases h2 : pd.reslice 1 5 with
    | error e =>
      simp only [psDecryptor.decryptPacket, bind, Except.bind, h1, h2] at h
      exact absurd h (by simp)
    | ok sc =>
      cases h3 : confounder sc with
      | error e =>
        simp only [psDecryptor.decryptPacket, bind, Except.bind, h1, h2, h3] at h
        exact absurd h (by simp)
      | ok conf =>
        cases h4 : getCipher P dec.pool packet.id conf with
        | error e =>
          simp only [psDecryptor.decryptPacket, bind, Except.bind, h1, h2, h3, h4] at h
          exact absurd h (by simp)
        | ok got =>
          obtain ⟨pool1, c⟩ := got
          cases h5 : pool1.heap.get? c with
          | none =>
            simp only [psDecryptor.decryptPacket, bind, Except.bind, h1, h2, h3, h4,
              xorThrough, h5] at h
            exact absurd h (by simp)
          | some st =>
            cases h6 : packet.payloadOffset with
            | error e =>
              simp only [psDecryptor.decryptPacket, bind, Except.bind, h1, h2, h3, h4,
                xorThrough_ok P pool1 c _ st h5, h6] at h
              exact absurd h (by simp)
            | ok off =>
              exact ⟨pd, sc, conf, pool1, c, st, off, rfl, h2, h3, h4, h5, rfl⟩

theorem and_cf_testBit (b i : Nat) (hi : i < 8) :
    (b &&& 0xcf).testBit i = (if i = 4 ∨ i = 5 then false else b.testBit i) := by
  rw [Nat.testBit_and]
  interval_cases i <;> simp <;> (try (intro _; decide))

theorem and_df_testBit (b i : Nat) (hi : i < 8) :
    (b &&& 0xdf).testBit i = (if i = 5 then false else b.testBit i) := by
  rw [Nat.testBit_and]
  interval_cases i <;> simp <;> (try (intro _; decide))

/-- The result of `decryptPacket` when it returns. -/
theorem ps_decryptPacket_result (P : Primitives) (dec dec' : psDecryptor P)
    (packet packet' : psPacket) (h : dec.decryptPacket packet = .ok (dec', packet')) :
    ∃ pd sc conf pool1 c st off,
      packet.privateData = .ok pd ∧ pd.reslice 1 5 = .ok sc ∧ confounder sc = .ok conf ∧
      getCipher P dec.pool packet.id conf = .ok (pool1, c) ∧ pool1.heap.get? c = some st ∧
      packet.payloadOffset = .ok off ∧
      psPacket.clearScramble
          { id := packet.id,
            content := packet.content.take off ++
              List.zipWith (fun b k => b ^^^ k) (packet.content.drop off)
                ((keystream P st (4 + (packet.content.length - off))).drop 4) } = .ok packet' ∧
      dec'.pool.heap.get? c = some (advance P st (4 + (packet.content.length - off))) := by
  obtain ⟨pd, sc, conf, pool1, c, st, off, h1, h2, h3, h4, h5, h6⟩ :=
    ps_decryptPacket_inv P dec dec' packet packet' h
  refine ⟨pd, sc, conf, pool1, c, st, off, h1, h2, h3, h4, h5, h6, ?_⟩
  rw [ps_decryptPacket_eq P dec packet pd sc conf pool1 c st off h1 h2 h3 h4 h5 h6] at h
  cases hcs : psPacket.clearScramble
      { id := packet.id,
        content := packet.content.take off ++
          List.zipWith (fun b k => b ^^^ k) (packet.content.drop off)
            ((keystream P st (4 + (packet.content.length - off))).drop 4) } with
  | error e => rw [hcs] at h; exact absurd h (by simp)
  | ok q =>
    rw [hcs] at h
    simp only [Except.ok.injEq, Prod.mk.injEq] at h
    obtain ⟨hd, hq⟩ := h
    subst hd; subst hq
    refine ⟨rfl, ?_⟩
    simp only [List.get?_eq_getElem?]
    exact List.getElem?_set_self (get?_lt _ _ _ h5)

/-- C13: on a stream-map packet (id `bc`) with non-empty content `processPacket`
returns the decryptor unchanged and the packet with `content[0] & 0xdf` in
place of `content[0]`: bit 5 is cleared and the other bits of that byte, the
other bytes and the id are as before, whatever bits 4 and 5 were. No cipher is
fetched and no key stream is used. -/
theorem processPacket_stream_map (P : Primitives) (dec : psDecryptor P) (packet : psPacket)
    (b : Nat) (rest : List Nat) (hid : packet.id = 0xbc) (hc : packet.content = b :: rest) :
    dec.processPacket packet
      = .ok (dec, { id := packet.id, content := (b &&& 0xdf) :: rest }) ∧
    (b &&& 0xdf).testBit 5 = false ∧
    (∀ i, i < 8 → i ≠ 5 → (b &&& 0xdf).testBit i = b.testBit i) := by
  refine ⟨?_, ?_, ?_⟩
  · have h1 : packet.id = psStreamMap := hid
    simp only [psDecryptor.processPacket, h1, if_true, psPacket.payload,
      psPacket.payloadOffset, bind, Except.bind, pure, Except.pure, true_or, or_true, hc,
      List.drop_zero, index_cons_zero, List.set_cons_zero]
  · rw [and_df_testBit b 5 (by decide)]; simp
  · intro i hi h5
    rw [and_df_testBit b i hi, if_neg h5]

/-- Witness for C13: a stream-map packet whose first content byte is `ff`. -/
theorem processPacket_stream_map_witness :
    (psDecryptor.mk freshPool).processPacket { id := 0xbc, content := [0xff, 0x01] }
      = .ok (psDecryptor.mk freshPool, { id := 0xbc, content := [0xdf, 0x01] }) :=
  (processPacket_stream_map countingPrimitives (psDecryptor.mk freshPool)
    { id := 0xbc, content := [0xff, 0x01] } 0xff [0x01] rfl rfl).1

set_option maxRecDepth 100000 in
theorem scramble_zero_and_df : ∀ b, b < 256 → (b &&& 0x30) >>> 4 = 0 → b &&& 0xdf = b := by
  decide

/-- The value of `processPacket` on a packet that is not a stream map. -/
theorem processPacket_other (P : Primitives) (dec : psDecryptor P) (packet : psPacket)
    (hid : packet.id ≠ psStreamMap) :
    dec.processPacket packet =
      match packet.scramble with
      | .error e => .error e
      | .ok s => if s ≠ 0 then dec.decryptPacket packet else .ok (dec, packet) := by
  simp only [psDecryptor.processPacket, hid, if_false, bind, Except.bind, pure, Except.pure]
  cases packet.scramble <;> rfl

/-- C14: when `processPacket` returns on a packet that is not a stream map the
scramble field of the result reads zero; processing the result again, of any
packet, returns it unchanged with the decryptor (and so the key stream
positions) unchanged; and a packet whose scramble field reads zero is returned
unchanged. -/
theorem processPacket_scramble_idempotent (P : Primitives) (dec dec' : psDecryptor P)
    (packet packet' : psPacket) (h : dec.processPacket packet = .ok (dec', packet')) :
    (packet.id ≠ 0xbc → packet'.scramble = .ok 0) ∧
    dec'.processPacket packet' = .ok (dec', packet') ∧
    (packet.scramble = .ok 0 → packet.id ≠ 0xbc ∨ isBytes packet.content →
      dec' = dec ∧ packet' = packet) := by
  by_cases hid : packet.id = psStreamMap
  · -- stream map
    have hne : ∃ b rest, packet.content = b :: rest := by
      cases hc : packet.content with
      | nil =>
        simp only [psDecryptor.processPacket, hid, if_true, psPacket.payload,
          psPacket.payloadOffset, bind, Except.bind, pure, Except.pure, true_or, or_true, hc,
          List.drop_zero, index] at h
        exact absurd h (by simp)
      | cons b rest => exact ⟨b, rest, rfl⟩
    obtain ⟨b, rest, hc⟩ := hne
    rw [(processPacket_stream_map P dec packet b rest hid hc).1] at h
    simp only [Except.ok.injEq, Prod.mk.injEq] at h
    obtain ⟨hd, hp⟩ := h
    subst hd; subst hp
    refine ⟨fun hn => absurd hid hn, ?_, ?_⟩
    · rw [(processPacket_stream_map P dec { id := packet.id, content := (b &&& 0xdf) :: rest }
        (b &&& 0xdf) rest hid rfl).1]
      have : (b &&& 0xdf) &&& 0xdf = b &&& 0xdf := by
        rw [Nat.and_assoc]; rfl
      simp only [this]
    · intro hs hor
      rcases hor with hn | hb
      · exact absurd hid hn
      · refine ⟨rfl, ?_⟩
        have hb0 : b < 256 := hb b (by rw [hc]; simp)
        have hsc : (b &&& 0x30) >>> 4 = 0 := by
          have hnot : ¬ (packet.id = psPackStart ∨ packet.id = psProgramEnd) := by
            rw [hid]; decide
          simp only [psPacket.scramble, hnot, if_false, hc, index_cons_zero, bind, Except.bind,
            pure, Except.pure, Except.ok.injEq] at hs
          exact hs
        rw [scramble_zero_and_df b hb0 hsc]
        cases packet
        simp only at hc
        rw [hc]
  · -- every other packet
    have hid' : packet.id ≠ 0xbc := hid
    rw [processPacket_other P dec packet hid] at h
    cases hs : packet.scramble with
    | error e => rw [hs] at h; exact absurd h (by simp)
    | ok s =>
      rw [hs] at h
      simp only at h
      by_cases hz : s = 0
      · rw [if_neg (by simpa using hz)] at h
        simp only [Except.ok.injEq, Prod.mk.injEq] at h
        obtain ⟨hd, hp⟩ := h
        subst hd; subst hp; subst hz
        refine ⟨fun _ => hs, ?_, fun _ _ => ⟨rfl, rfl⟩⟩
        rw [processPacket_other P dec packet hid, hs]
        rfl
      · rw [if_pos hz] at h
        obtain ⟨pd, sc, conf, pool1, c, st, off, -, -, -, -, -, -, hcs, -⟩ :=
          ps_decryptPacket_result P dec dec' packet packet' h
        obtain ⟨hz', hi'⟩ := clearScramble_scramble _ _ hcs
        have hid2 : packet'.id ≠ psStreamMap := by rw [hi']; exact hid
        refine ⟨fun _ => hz', ?_, ?_⟩
        · rw [processPacket_other P dec' packet' hid2, hz']
          rfl
        · intro h0
          injection h0 with e
          exact absurd e hz

/-- Witness for C14: the scrambled packet `scrambledPES` is decrypted once, and
processing the result again changes nothing. -/
theorem processPacket_scramble_idempotent_witness :
    decryptedPES.scramble = .ok 0 ∧
    (psDecryptor.mk spentPool).processPacket decryptedPES
      = .ok (psDecryptor.mk spentPool, decryptedPES) :=
  have h := processPacket_scramble_idempotent countingPrimitives (psDecryptor.mk freshPool)
    (psDecryptor.mk spentPool) scrambledPES decryptedPES rfl
  ⟨h.1 (by decide), h.2.1⟩

/-- C12: when `decryptPacket` returns on a packet with non-zero scramble field
whose id is none of pack-start, program-end, stream-map, system-header, the
content keeps its length, `content[0]` becomes `content[0] & 0xcf` (bits 4 and
5 cleared), the bytes `1 .. content[2]+2` are unchanged, and every byte at an
index `i ≥ content[2]+3` is XORed with the key stream byte at position
`4 + (i - (content[2]+3))`, counted from the position that the cipher of
(packet id, confounder) had when it was fetched for this packet. -/
theorem ps_decryptPacket_frame (P : Primitives) (dec dec' : psDecryptor P)
    (packet packet' : psPacket) (s : Nat)
    (hid : packet.id ≠ 0xba ∧ packet.id ≠ 0xb9 ∧ packet.id ≠ 0xbc ∧ packet.id ≠ 0xbb)
    (hs : packet.scramble = .ok s) (hs0 : s ≠ 0)
    (h : dec.decryptPacket packet = .ok (dec', packet')) :
    ∃ pd sc conf pool1 c st b l,
      packet.privateData = .ok pd ∧ pd.reslice 1 5 = .ok sc ∧ confounder sc = .ok conf ∧
      getCipher P dec.pool packet.id conf = .ok (pool1, c) ∧ pool1.heap.get? c = some st ∧
      packet.content[0]? = some b ∧ packet.content[2]? = some l ∧
      packet'.id = packet.id ∧
      packet'.content.length = packet.content.length ∧
      packet'.content[0]? = some (b &&& 0xcf) ∧
      (∀ i, 1 ≤ i → i < l + 3 → packet'.content[i]? = packet.content[i]?) ∧
      (∀ i, l + 3 ≤ i → i < packet.content.length →
        packet'.content[i]?
          = (packet.content[i]?).map (fun x => x ^^^ keyByte P st (4 + (i - (l + 3))))) ∧
      dec'.pool.heap.get? c
        = some (advance P st (4 + (packet.content.length - (l + 3)))) := by
  obtain ⟨hba, hb9, hbc, hbb⟩ := hid
  obtain ⟨pd, sc, conf, pool1, c, st, off, h1, h2, h3, h4, h5, h6, hcs, hheap⟩ :=
    ps_decryptPacket_result P dec dec' packet packet' h
  -- the scramble field is read from content[0]
  have hnot : ¬ (packet.id = psPackStart ∨ packet.id = psProgramEnd) := by
    intro hc; rcases hc with hc | hc
    · exact hba hc
    · exact hb9 hc
  have hb : ∃ b, index packet.content 0 = .ok b ∧ (b &&& 0x30) >>> 4 = s := by
    simp only [psPacket.scramble, hnot, if_false, bind, Except.bind, pure, Except.pure] at hs
    cases hi : index packet.content 0 with
    | error e => rw [hi] at hs; exact absurd hs (by simp)
    | ok b =>
      rw [hi] at hs
      simp only [Except.ok.injEq] at hs
      exact ⟨b, rfl, hs⟩
  obtain ⟨b, hb, hbs⟩ := hb
  -- the payload offset is content[2] + 3
  have hnot2 : ¬ (packet.id = psPackStart ∨ packet.id = psStreamMap ∨
      packet.id = psSystemHeader) := by
    intro hc; rcases hc with hc | hc | hc
    · exact hba hc
    · exact hbc hc
    · exact hbb hc
  have hl : ∃ l, index packet.content 2 = .ok l ∧ off = l + 3 ∧ l + 3 ≤ packet.content.length := by
    simp only [psPacket.payloadOffset, hnot2, if_false, bind, Except.bind, pure,
      Except.pure] at h6
    cases hi : index packet.content 2 with
    | error e => rw [hi] at h6; exact absurd h6 (by simp)
    | ok l =>
      rw [hi] at h6
      simp only at h6
      by_cases hle : l + 3 ≤ packet.content.length
      · rw [if_pos hle] at h6
        simp only [Except.ok.injEq] at h6
        exact ⟨l, rfl, h6.symm, hle⟩
      · rw [if_neg hle] at h6
        exact absurd h6 (by simp)
  obtain ⟨l, hl, hoff, hle⟩ := hl
  subst hoff
  rw [index_ok_iff] at hb hl
  -- the packet handed to clearScramble
  have hlenZ : (List.zipWith (fun b k => b ^^^ k) (packet.content.drop (l + 3))
      ((keystream P st (4 + (packet.content.length - (l + 3)))).drop 4)).length
      = packet.content.length - (l + 3) := by
    simp only [List.length_zipWith, List.length_drop, keystream_length]
    omega
  have h0 : (packet.content.take (l + 3) ++
      List.zipWith (fun b k => b ^^^ k) (packet.content.drop (l + 3))
        ((keystream P st (4 + (packet.content.length - (l + 3)))).drop 4))[0]? = some b := by
    rw [List.getElem?_append_left (by rw [List.length_take]; omega),
      List.getElem?_take_of_lt (by omega)]
    exact hb
  have hsc1 : psPacket.scramble
      { id := packet.id,
        content := packet.content.take (l + 3) ++
          List.zipWith (fun b k => b ^^^ k) (packet.content.drop (l + 3))
            ((keystream P st (4 + (packet.content.length - (l + 3)))).drop 4) } = .ok s := by
    simp only [psPacket.scramble, hnot, if_false, bind, Except.bind, pure, Except.pure,
      (index_ok_iff _ _ _).2 h0, hbs]
  have hp' : packet' =
      { id := packet.id,
        content := (packet.content.take (l + 3) ++
          List.zipWith (fun b k => b ^^^ k) (packet.content.drop (l + 3))
            ((keystream P st (4 + (packet.content.length - (l + 3)))).drop 4)).set 0
              (b &&& 0xcf) } := by
    simp only [psPacket.clearScramble, bind, Except.bind, pure, Except.pure, hsc1,
      (index_ok_iff _ _ _).2 h0] at hcs
    rw [if_pos hs0] at hcs
    simp only [Except.ok.injEq] at hcs
    exact hcs.symm
  refine ⟨pd, sc, conf, pool1, c, st, b, l, h1, h2, h3, h4, h5, hb, hl, ?_, ?_, ?_, ?_, ?_,
    hheap⟩
  · rw [hp']
  · rw [hp']
    simp only [List.length_set, List.length_append, List.length_take, hlenZ]
    omega
  · rw [hp']
    simp only
    rw [List.getElem?_set_self (by
      simp only [List.length_append, List.length_take, hlenZ]; omega)]
  · intro i hi1 hi2
    rw [hp']
    simp only
    rw [List.getElem?_set_ne (by omega),
      List.getElem?_append_left (by rw [List.length_take]; omega),
      List.getElem?_take_of_lt hi2]
  · intro i hi1 hi2
    rw [hp']
    simp only
    rw [List.getElem?_set_ne (by omega),
      List.getElem?_append_right (by rw [List.length_take]; omega),
      List.length_take, Nat.min_eq_left hle, List.getElem?_zipWith, List.getElem?_drop,
      List.getElem?_drop, keystream_getElem? P _ st _ (by omega),
      show l + 3 + (i - (l + 3)) = i from by omega]
    cases packet.content[i]? <;> rfl

/-- Witness for C12: `scrambledPES` (scramble field 1, stream `e0`) decrypted
with a new pool gives `decryptedPES`. -/
theorem ps_decryptPacket_frame_witness :
    decryptedPES.id = scrambledPES.id ∧
    decryptedPES.content.length = scrambledPES.content.length ∧
    decryptedPES.content[0]? = some (0x90 &&& 0xcf) := by
  obtain ⟨pd, sc, conf, pool1, c, st, b, l, -, -, -, -, -, hb, -, hid, hlen, h0, -⟩ :=
    ps_decryptPacket_frame countingPrimitives (psDecryptor.mk freshPool)
      (psDecryptor.mk spentPool) scrambledPES decryptedPES 1 (by decide) (by decide)
      (by decide) rfl
  have : b = 0x90 := by
    have hb' : scrambledPES.content[0]? = some 0x90 := by decide
    rw [hb'] at hb
    exact (Option.some.inj hb).symm
  subst this
  exact ⟨hid, hlen, h0⟩

/-! ### PS read/write round trip -/

theorem startCode_bytes (id : Nat) (hid : id < 256) :
    putUint32 (((psPrefix <<< 8) % 4294967296) ||| id) = [0, 0, 1, id] := by
  have h1 : ((psPrefix <<< 8) % 4294967296) = 2 ^ 8 * 1 := by decide
  rw [h1, ← Nat.mul_add_lt_is_or (by simpa using hid) 1]
  simp only [putUint32]
  have e1 : (2 ^ 8 * 1 + id) / 16777216 % 256 = 0 := by omega
  have e2 : (2 ^ 8 * 1 + id) / 65536 % 256 = 0 := by omega
  have e3 : (2 ^ 8 * 1 + id) / 256 % 256 = 1 := by omega
  have e4 : (2 ^ 8 * 1 + id) % 256 = id := by omega
  rw [e1, e2, e3, e4]

theorem writePSPacket_eq (p : psPacket) (hid : p.id < 256) :
    writePSPacket p =
      if p.id = psPackStart ∨ p.id = psProgramEnd then 0 :: 0 :: 1 :: p.id :: p.content
      else 0 :: 0 :: 1 :: p.id :: (p.content.length % 65536 / 256 % 256)
        :: (p.content.length % 65536 % 256) :: p.content := by
  simp only [writePSPacket, startCode_bytes p.id hid, putUint16]
  split <;> rfl

theorem isBytes_take (l : List Nat) (n : Nat) (h : isBytes l) : isBytes (l.take n) :=
  fun b hb => h b (List.mem_of_mem_take hb)

theorem isBytes_drop (l : List Nat) (n : Nat) (h : isBytes l) : isBytes (l.drop n) :=
  fun b hb => h b (List.mem_of_mem_drop hb)

/-- What `readPSPacket` returns is producible, and writing it gives back the
bytes that were consumed. -/
theorem readPSPacket_write (src : Reader) (hb : isBytes src.remaining) (p : psPacket)
    (h : (readPSPacket src).1 = .ok p) :
    src.remaining = writePSPacket p ++ (readPSPacket src).2.remaining ∧ psProducible p := by
  have hlen : 4 ≤ src.remaining.length := by
    by_contra hc
    rcases readFull_fail 4 src (by omega) with hf | hf
    · simp only [readPSPacket, hf] at h; exact absurd h (by simp)
    · simp only [readPSPacket, hf] at h; exact absurd h (by simp)
  have hpre : src.remaining.take 3 = [0, 0, 1] := by
    by_contra hc
    obtain ⟨e, he⟩ := readPSPacket_wrong_start src hb hc
    rw [he] at h; exact absurd h (by simp)
  obtain ⟨b0, t0, e0, l0⟩ := list_eq_cons_of_length src.remaining 3 hlen
  obtain ⟨b1, t1, e1, l1⟩ := list_eq_cons_of_length t0 2 l0
  obtain ⟨b2, t2, e2, l2⟩ := list_eq_cons_of_length t1 1 l1
  obtain ⟨id, rest, e3, -⟩ := list_eq_cons_of_length t2 0 l2
  subst e1 e2 e3
  rw [e0] at hpre
  simp only [List.take_succ_cons, List.take_zero, List.cons.injEq, and_true] at hpre
  obtain ⟨r0, r1, r2⟩ := hpre
  subst r0 r1 r2
  have hid : id < 256 := hb id (by rw [e0]; simp)
  have hrest : isBytes rest := fun b hm => hb b (by rw [e0]; simp [hm])
  obtain ⟨c1, c2, c3⟩ := readPSPacket_body src id rest hid e0
  by_cases h9 : id = 0xb9
  · obtain ⟨d1, d2⟩ := c1 h9
    rw [d1] at h
    simp only [Except.ok.injEq] at h
    subst h
    refine ⟨?_, hid, by intro b hm; simp at hm, fun _ => rfl, ?_, ?_⟩
    · rw [d2, e0, writePSPacket_eq _ hid]
      simp only
      rw [if_pos (show id = psPackStart ∨ id = psProgramEnd from Or.inr h9)]
      rfl
    · intro ha; simp only at ha; rw [h9] at ha; exact absurd ha (by decide)
    · intro hn; exact absurd h9 hn
  · by_cases ha : id = 0xba
    · obtain ⟨d1, d2⟩ := c2 ha
      by_cases hfit : 10 + (rest.getD 9 0 &&& 0x07) ≤ rest.length
      · obtain ⟨f1, f2⟩ := d1 hfit
        rw [f1] at h
        simp only [Except.ok.injEq] at h
        subst h
        refine ⟨?_, hid, isBytes_take _ _ hrest, ?_, ?_, ?_⟩
        · rw [f2, e0, writePSPacket_eq _ hid]
          simp only
          rw [if_pos (show id = psPackStart ∨ id = psProgramEnd from Or.inl ha)]
          simp only [List.cons_append, List.take_append_drop]
        · intro hn; exact absurd hn h9
        · intro _
          simp only
          have hg : (rest.take (10 + (rest.getD 9 0 &&& 0x07))).getD 9 0 = rest.getD 9 0 := by
            simp only [List.getD_eq_getElem?_getD]
            rw [List.getElem?_take_of_lt (by omega)]
          rw [hg, List.length_take]
          omega
        · intro _ hn; exact absurd ha hn
      · obtain ⟨e, he⟩ := d2 (by omega)
        rw [he] at h; exact absurd h (by simp)
    · obtain ⟨d1, d2⟩ := c3 h9 ha
      by_cases hfit : 2 + (rest.getD 0 0 * 256 + rest.getD 1 0) ≤ rest.length
      · obtain ⟨f1, f2⟩ := d1 hfit
        rw [f1] at h
        simp only [Except.ok.injEq] at h
        subst h
        obtain ⟨x0, u0, g0, m0⟩ := list_eq_cons_of_length rest 1 (by omega)
        obtain ⟨x1, u1, g1, -⟩ := list_eq_cons_of_length u0 0 m0
        subst g1; subst g0
        have hx0 : x0 < 256 := hrest x0 (by simp)
        have hx1 : x1 < 256 := hrest x1 (by simp)
        simp only [List.getD_cons_zero, List.getD_cons_succ, List.length_cons,
          List.drop_succ_cons, List.drop_zero] at hfit f2 ⊢
        have hl : (u1.take (x0 * 256 + x1)).length = x0 * 256 + x1 := by
          rw [List.length_take]; omega
        refine ⟨?_, hid, isBytes_take _ _ (isBytes_drop _ 2 hrest), ?_, ?_, ?_⟩
        · rw [f2, e0, writePSPacket_eq _ hid]
          simp only
          rw [if_neg (show ¬ (id = psPackStart ∨ id = psProgramEnd) from by
            intro hc; rcases hc with hc | hc
            · exact ha hc
            · exact h9 hc), hl]
          have q0 : (x0 * 256 + x1) % 65536 / 256 % 256 = x0 := by omega
          have q1 : (x0 * 256 + x1) % 65536 % 256 = x1 := by omega
          rw [q0, q1]
          have hd : List.drop (2 + (x0 * 256 + x1)) (x0 :: x1 :: u1)
              = List.drop (x0 * 256 + x1) u1 :=
            (List.drop_drop (x0 * 256 + x1) 2 (x0 :: x1 :: u1)).symm
          rw [hd]
          simp only [List.cons_append, List.take_append_drop]
        · intro hn; exact absurd hn h9
        · intro hn; exact absurd hn ha
        · intro _ _
          simp only
          rw [hl]; omega
      · obtain ⟨e, he⟩ := d2 (by omega)
        rw [he] at h; exact absurd h (by simp)

/-- Reading what `writePSPacket` wrote for a producible packet gives the packet
back and leaves the input just after it. -/
theorem writePSPacket_read (q : psPacket) (hq : psProducible q) (r : Reader)
    (tail : List Nat) (hr : r.remaining = writePSPacket q ++ tail) :
    (readPSPacket r).1 = .ok q ∧ (readPSPacket r).2.remaining = tail := by
  obtain ⟨hid, -, he, hp, ho⟩ := hq
  obtain ⟨id, content⟩ := q
  simp only at hid he hp ho
  rw [writePSPacket_eq _ hid] at hr
  simp only at hr
  by_cases h9 : id = 0xb9
  · have hc := he h9
    subst hc
    rw [if_pos (show id = psPackStart ∨ id = psProgramEnd from Or.inr h9)] at hr
    exact (readPSPacket_body r id tail hid hr).1 h9
  · by_cases ha : id = 0xba
    · rw [if_pos (show id = psPackStart ∨ id = psProgramEnd from Or.inl ha)] at hr
      have hlen := hp ha
      have hg : (content ++ tail).getD 9 0 = content.getD 9 0 := by
        simp only [List.getD_eq_getElem?_getD]
        rw [List.getElem?_append_left (by omega)]
      have hbody := ((readPSPacket_body r id (content ++ tail) hid hr).2.1 ha).1
      rw [hg, ← hlen] at hbody
      have := hbody (by simp)
      simpa using this
    · rw [if_neg (show ¬ (id = psPackStart ∨ id = psProgramEnd) from by
        intro hc; rcases hc with hc | hc
        · exact ha hc
        · exact h9 hc)] at hr
      have hlt := ho h9 ha
      rw [Nat.mod_eq_of_lt hlt] at hr
      have hr' : r.remaining = 0 :: 0 :: 1 :: id :: (content.length / 256 % 256)
          :: (content.length % 256) :: (content ++ tail) := by rw [hr]; rfl
      have hbody := ((readPSPacket_body r id _ hid hr').2.2 h9 ha).1
      simp only [List.getD_cons_zero, List.getD_cons_succ, List.length_cons,
        List.drop_succ_cons, List.drop_zero, List.length_append] at hbody
      have hN : content.length / 256 % 256 * 256 + content.length % 256 = content.length := by
        omega
      rw [hN] at hbody
      have := hbody (by omega)
      rw [show 2 + content.length = content.length + 2 from by omega] at this
      simpa using this

/-- C11: when `readPSPacket` succeeds, `writePSPacket` of the packet emits
exactly the bytes consumed (the input is what it writes followed by what is
left unread), and the packet is producible; conversely for every producible
packet, reading what `writePSPacket` wrote (followed by anything) yields the
same id and content and leaves the input just after the packet. -/
theorem ps_read_write_roundtrip :
    (∀ (src : Reader) (p : psPacket), isBytes src.remaining → (readPSPacket src).1 = .ok p →
      src.remaining = writePSPacket p ++ (readPSPacket src).2.remaining ∧ psProducible p) ∧
    (∀ (q : psPacket) (r : Reader) (tail : List Nat), psProducible q →
      r.remaining = writePSPacket q ++ tail →
      (readPSPacket r).1 = .ok q ∧ (readPSPacket r).2.remaining = tail) :=
  ⟨fun src p hb h => readPSPacket_write src hb p h,
   fun q r tail hq hr => writePSPacket_read q hq r tail hr⟩

/-- Witness for C11: a length-prefixed packet of stream `e0` read from an input
in two chunks, and written again. -/
theorem ps_read_write_roundtrip_witness :
    ([0, 0, 1, 0xe0, 0, 3, 1, 2, 3, 9, 9]
        = writePSPacket { id := 0xe0, content := [1, 2, 3] } ++ [9, 9] ∧
      psProducible { id := 0xe0, content := [1, 2, 3] }) ∧
    ((readPSPacket [writePSPacket { id := 0xe0, content := [1, 2, 3] }]).1
        = .ok { id := 0xe0, content := [1, 2, 3] } ∧
      (readPSPacket [writePSPacket { id := 0xe0, content := [1, 2, 3] }]).2.remaining = []) :=
  ⟨ps_read_write_roundtrip.1 [[0, 0, 1, 0xe0, 0, 3], [1, 2, 3, 9, 9]]
      { id := 0xe0, content := [1, 2, 3] } (by decide) (by decide),
   ps_read_write_roundtrip.2 { id := 0xe0, content := [1, 2, 3] }
      [writePSPacket { id := 0xe0, content := [1, 2, 3] }] [] (by decide) (by decide)⟩

/-! ### The PS decrypt loop on unscrambled input -/

/-- A packet whose scramble field reads zero is returned unchanged by
`processPacket`, with the decryptor unchanged. -/
theorem processPacket_zero_scramble (P : Primitives) (dec : psDecryptor P) (packet : psPacket)
    (hs : packet.scramble = .ok 0) (hb : isBytes packet.content) :
    dec.processPacket packet = .ok (dec, packet) := by
  by_cases hid : packet.id = psStreamMap
  · have hnot : ¬ (packet.id = psPackStart ∨ packet.id = psProgramEnd) := by
      rw [hid]; decide
    simp only [psPacket.scramble, hnot, if_false, bind, Except.bind, pure, Except.pure] at hs
    cases hi : index packet.content 0 with
    | error e => rw [hi] at hs; exact absurd hs (by simp)
    | ok b =>
      rw [hi] at hs
      simp only [Except.ok.injEq] at hs
      obtain ⟨rest, hc⟩ := index_zero_ok _ _ hi
      have hb0 : b < 256 := hb b (by rw [hc]; simp)
      have hr := (processPacket_stream_map P dec packet b rest hid hc).1
      rw [scramble_zero_and_df b hb0 hs] at hr
      rw [hr]
      cases packet
      simp only at hc
      rw [hc]
  · rw [processPacket_other P dec packet hid, hs]
    rfl

theorem readPSPacket_at_end (src : Reader) (h : src.remaining = []) :
    (readPSPacket src).1 = .error .EOF ∧ (readPSPacket src).2.remaining = [] := by
  have h1 : (readLoop 4 src).1 = [] := by rw [readLoop_fst, h]; rfl
  have h2 : (readFull 4 src).1 = ([], some .EOF) := by
    simp only [readFull, h1, List.length_nil]
    rfl
  have h3 : (readFull 4 src).2.remaining = [] := by rw [readFull_rest, h]; rfl
  simp only [readPSPacket, h2]
  exact ⟨trivial, h3⟩

theorem psStream_cons (p : psPacket) (ps : List psPacket) :
    psStream (p :: ps) = writePSPacket p ++ psStream ps := by
  simp [psStream]

theorem psStream_append (ps qs : List psPacket) :
    psStream (ps ++ qs) = psStream ps ++ psStream qs := by
  simp [psStream]

theorem writePSPacket_length (p : psPacket) : 1 ≤ (writePSPacket p).length := by
  simp only [writePSPacket, putUint32]
  split <;> simp

theorem psStream_length (ps : List psPacket) : ps.length ≤ (psStream ps).length := by
  induction ps with
  | nil => simp [psStream]
  | cons p ps ih =>
    rw [psStream_cons, List.length_append, List.length_cons]
    have := writePSPacket_length p
    omega

/-- One iteration of the PS decrypt loop on an unscrambled packet. -/
theorem psDecryptLoop_step (P : Primitives) (fuel : Nat) (dec : psDecryptor P)
    (count : Nat) (out : List Nat) (src : Reader) (p : psPacket) (tail : List Nat)
    (hp : psProducible p) (hs : p.scramble = .ok 0)
    (hsrc : src.remaining = writePSPacket p ++ tail) :
    psDecryptLoop (fuel + 1) dec count out src =
      (if p.id = psProgramEnd then
        .ok (dec, { err := none, out := out ++ writePSPacket p, src := (readPSPacket src).2 })
      else psDecryptLoop fuel dec (count + 1) (out ++ writePSPacket p) (readPSPacket src).2) ∧
    (readPSPacket src).2.remaining = tail := by
  obtain ⟨h1, h2⟩ := writePSPacket_read p hp src tail hsrc
  have hproc := processPacket_zero_scramble P dec p hs hp.2.1
  refine ⟨?_, h2⟩
  simp only [psDecryptLoop, h1, hproc]
  split <;> rfl

/-- The PS decrypt loop on a sequence of unscrambled packets without a
program-end packet: every packet is written and the end of input is reported
with the number of the packet that could not be read. -/
theorem psDecryptLoop_no_end (P : Primitives) (dec : psDecryptor P) (ps : List psPacket) :
    ∀ (fuel count : Nat) (out : List Nat) (src : Reader),
      (∀ p ∈ ps, psProducible p ∧ p.scramble = .ok 0) → (∀ p ∈ ps, p.id ≠ psProgramEnd) →
      src.remaining = psStream ps → ps.length + 1 ≤ fuel →
      ∃ r', psDecryptLoop fuel dec count out src
          = .ok (dec, { err := some (.psPacketFailed (count + ps.length + 1) .ErrUnexpectedEOF),
                        out := out ++ psStream ps, src := r' }) ∧
        r'.remaining = [] := by
  induction ps with
  | nil =>
    intro fuel count out src _ _ hsrc hfuel
    obtain ⟨f, rfl⟩ : ∃ f, fuel = f + 1 := ⟨fuel - 1, by omega⟩
    have hsrc' : src.remaining = [] := by rw [hsrc]; rfl
    obtain ⟨h1, h2⟩ := readPSPacket_at_end src hsrc'
    refine ⟨(readPSPacket src).2, ?_, h2⟩
    simp only [psDecryptLoop, h1, psFinish, psStream, List.map_nil, List.flatten_nil,
      List.append_nil, List.length_nil, Nat.add_zero, if_true]
  | cons p ps ih =>
    intro fuel count out src hwf hne hsrc hfuel
    obtain ⟨f, rfl⟩ : ∃ f, fuel = f + 1 := ⟨fuel - 1, by simp at hfuel; omega⟩
    obtain ⟨hp, hs⟩ := hwf p (by simp)
    rw [psStream_cons] at hsrc
    obtain ⟨h1, h2⟩ := psDecryptLoop_step P f dec count out src p (psStream ps) hp hs hsrc
    rw [h1, if_neg (hne p (by simp))]
    obtain ⟨r', i1, i2⟩ := ih f (count + 1) (out ++ writePSPacket p) (readPSPacket src).2
      (fun q hq => hwf q (by simp [hq])) (fun q hq => hne q (by simp [hq])) h2
      (by simp at hfuel; omega)
    refine ⟨r', ?_, i2⟩
    rw [i1, psStream_cons, List.length_cons, List.append_assoc]
    congr 5
    omega

/-- The PS decrypt loop on a sequence of unscrambled packets stops at the first
program-end packet, having written the packets up to and including it. -/
theorem psDecryptLoop_at_end (P : Primitives) (dec : psDecryptor P) (pre : List psPacket) :
    ∀ (e : psPacket) (post : List psPacket) (fuel count : Nat) (out : List Nat) (src : Reader),
      (∀ p ∈ pre ++ e :: post, psProducible p ∧ p.scramble = .ok 0) →
      (∀ p ∈ pre, p.id ≠ psProgramEnd) → e.id = psProgramEnd →
      src.remaining = psStream (pre ++ e :: post) → pre.length + 1 ≤ fuel →
      ∃ r', psDecryptLoop fuel dec count out src
          = .ok (dec, { err := none, out := out ++ psStream (pre ++ [e]), src := r' }) ∧
        r'.remaining = psStream post := by
  induction pre with
  | nil =>
    intro e post fuel count out src hwf _ he hsrc hfuel
    obtain ⟨f, rfl⟩ : ∃ f, fuel = f + 1 := ⟨fuel - 1, by omega⟩
    obtain ⟨hp, hs⟩ := hwf e (by simp)
    rw [List.nil_append, psStream_cons] at hsrc
    obtain ⟨h1, h2⟩ := psDecryptLoop_step P f dec count out src e (psStream post) hp hs hsrc
    refine ⟨(readPSPacket src).2, ?_, h2⟩
    rw [h1, if_pos he]
    simp [psStream]
  | cons p pre ih =>
    intro e post fuel count out src hwf hne he hsrc hfuel
    obtain ⟨f, rfl⟩ : ∃ f, fuel = f + 1 := ⟨fuel - 1, by simp at hfuel; omega⟩
    obtain ⟨hp, hs⟩ := hwf p (by simp)
    rw [List.cons_append, psStream_cons] at hsrc
    obtain ⟨h1, h2⟩ :=
      psDecryptLoop_step P f dec count out src p (psStream (pre ++ e :: post)) hp hs hsrc
    rw [h1, if_neg (hne p (by simp))]
    obtain ⟨r', i1, i2⟩ := ih e post f (count + 1) (out ++ writePSPacket p)
      (readPSPacket src).2 (fun q hq => hwf q (by simp at hq ⊢; tauto))
      (fun q hq => hne q (by simp [hq])) he h2 (by simp at hfuel; omega)
    refine ⟨r', ?_, i2⟩
    rw [i1, List.cons_append, psStream_cons, List.append_assoc]

theorem first_split {α : Type} (Q : α → Prop) [DecidablePred Q] (l : List α)
    (h : ∃ a ∈ l, Q a) :
    ∃ pre e post, l = pre ++ e :: post ∧ (∀ a ∈ pre, ¬ Q a) ∧ Q e := by
  induction l with
  | nil => simp at h
  | cons a l ih =>
    by_cases ha : Q a
    · exact ⟨[], a, l, rfl, by simp, ha⟩
    · obtain ⟨b, hb, hq⟩ := h
      have hb' : b ∈ l := by
        rcases List.mem_cons.1 hb with hb | hb
        · subst hb; exact absurd hq ha
        · exact hb
      obtain ⟨pre, e, post, h1, h2, h3⟩ := ih ⟨b, hb', hq⟩
      refine ⟨a :: pre, e, post, by rw [h1]; rfl, ?_, h3⟩
      intro x hx
      rcases List.mem_cons.1 hx with hx | hx
      · subst hx; exact ha
      · exact h2 x hx

/-- C15: on an input that is a sequence of producible packets whose scramble
fields read zero, followed by end of input, `psDecryptor.decrypt` stops at the
first program-end packet with no error, having written the packets up to and
including it and nothing after it; without a program-end packet it writes all
packets and returns the error of packet number `n + 1` with
`io.ErrUnexpectedEOF`; so it returns no error exactly when the sequence
contains a program-end packet. The decryptor is unchanged in both cases. -/
theorem ps_decrypt_end_of_stream (P : Primitives) (dec : psDecryptor P) (ps : List psPacket)
    (src : Reader) (hwf : ∀ p ∈ ps, psProducible p ∧ p.scramble = .ok 0)
    (hsrc : src.remaining = psStream ps) :
    (∀ pre e post, ps = pre ++ e :: post → (∀ p ∈ pre, p.id ≠ 0xb9) → e.id = 0xb9 →
      ∃ r', dec.decrypt src
          = .ok (dec, { err := none, out := psStream (pre ++ [e]), src := r' }) ∧
        r'.remaining = psStream post) ∧
    ((∀ p ∈ ps, p.id ≠ 0xb9) →
      ∃ r', dec.decrypt src
          = .ok (dec, { err := some (.psPacketFailed (ps.length + 1) .ErrUnexpectedEOF),
                        out := psStream ps, src := r' }) ∧
        r'.remaining = []) ∧
    ((∃ res, dec.decrypt src = .ok res ∧ res.2.err = none) ↔ ∃ p ∈ ps, p.id = 0xb9) := by
  have hfuel : ps.length + 1 ≤ src.remaining.length + 1 := by
    rw [hsrc]; have := psStream_length ps; omega
  have hA : ∀ pre e post, ps = pre ++ e :: post → (∀ p ∈ pre, p.id ≠ 0xb9) → e.id = 0xb9 →
      ∃ r', dec.decrypt src
          = .ok (dec, { err := none, out := psStream (pre ++ [e]), src := r' }) ∧
        r'.remaining = psStream post := by
    intro pre e post hps hpre he
    subst hps
    have hf : pre.length + 1 ≤ src.remaining.length + 1 := by
      simp only [List.length_append, List.length_cons] at hfuel; omega
    obtain ⟨r', h1, h2⟩ := psDecryptLoop_at_end P dec pre e post _ 0 [] src hwf hpre he hsrc hf
    exact ⟨r', by simpa [psDecryptor.decrypt] using h1, h2⟩
  have hB : (∀ p ∈ ps, p.id ≠ 0xb9) →
      ∃ r', dec.decrypt src
          = .ok (dec, { err := some (.psPacketFailed (ps.length + 1) .ErrUnexpectedEOF),
                        out := psStream ps, src := r' }) ∧
        r'.remaining = [] := by
    intro hne
    obtain ⟨r', h1, h2⟩ := psDecryptLoop_no_end P dec ps _ 0 [] src hwf hne hsrc hfuel
    exact ⟨r', by simpa [psDecryptor.decrypt] using h1, h2⟩
  refine ⟨hA, hB, ?_⟩
  constructor
  · rintro ⟨res, hres, herr⟩
    by_contra hc
    have hne : ∀ p ∈ ps, p.id ≠ 0xb9 := fun p hp hid => hc ⟨p, hp, hid⟩
    obtain ⟨r', h1, -⟩ := hB hne
    rw [h1] at hres
    simp only [Except.ok.injEq] at hres
    rw [← hres] at herr
    exact absurd herr (by simp)
  · intro hex
    obtain ⟨pre, e, post, h1, h2, h3⟩ := first_split (fun p : psPacket => p.id = 0xb9) ps hex
    obtain ⟨r', i1, -⟩ := hA pre e post h1 h2 h3
    exact ⟨_, i1, rfl⟩

/-- Witness for C15: the stream `clearPES, programEnd, clearPES` stops after the
program-end packet, and the stream `clearPES` alone ends with the error of
packet 2. -/
theorem ps_decrypt_end_of_stream_witness :
    (∃ r', (psDecryptor.mk freshPool).decrypt [psStream [clearPES, programEnd, clearPES]]
        = .ok (psDecryptor.mk freshPool,
            { err := none, out := psStream ([clearPES] ++ [programEnd]), src := r' }) ∧
      r'.remaining = psStream [clearPES]) ∧
    (∃ r', (psDecryptor.mk freshPool).decrypt [psStream [clearPES]]
        = .ok (psDecryptor.mk freshPool,
            { err := some (.psPacketFailed ([clearPES].length + 1) .ErrUnexpectedEOF),
              out := psStream [clearPES], src := r' }) ∧
      r'.remaining = []) :=
  ⟨(ps_decrypt_end_of_stream countingPrimitives (psDecryptor.mk freshPool)
      [clearPES, programEnd, clearPES] [psStream [clearPES, programEnd, clearPES]]
      (by decide) (by decide)).1 [clearPES] programEnd [clearPES] rfl (by decide) rfl,
   (ps_decrypt_end_of_stream countingPrimitives (psDecryptor.mk freshPool)
      [clearPES] [psStream [clearPES]] (by decide) (by decide)).2.1 (by decide)⟩

/-! ### TS scramble bits -/

/-- Byte 3 after `tsPacket.clearScramble` is byte 3 with its two top bits
toggled. -/
theorem ts_clearScramble_byte (p : tsPacket) (hlen : 3 < p.content.length) :
    p.clearScramble.content.getD 3 0 = p.content.getD 3 0 ^^^ 0xc0 := by
  simp [tsPacket.clearScramble, List.getD_eq_getElem?_getD, List.getElem?_set, hlen]

/-- The scramble field after `tsPacket.clearScramble` is the field with both
bits toggled; it is zero exactly when the field was 3. -/
theorem ts_clearScramble_scramble (p : tsPacket) (hlen : 3 < p.content.length) :
    p.clearScramble.scramble = p.scramble ^^^ 3 := by
  unfold tsPacket.scramble
  rw [ts_clearScramble_byte p hlen]
  apply Nat.eq_of_testBit_eq
  intro i
  simp only [Nat.testBit_shiftRight, Nat.testBit_xor]
  congr 1
  rw [← Nat.testBit_shiftRight]
  rfl

/-- A successful `tsDecryptor.decryptPacket` on a frame whose payload offset is
at least 4 toggles the two top bits of byte 3 and keeps its low 6 bits. -/
theorem ts_decryptPacket_byte3 (P : Primitives) (dec dec' : tsDecryptor P) (p p' : tsPacket)
    (hlen : 4 ≤ p.content.length) (hoff : 4 ≤ p.payloadOffset)
    (h : dec.decryptPacket p = .ok (dec', p', none)) :
    p'.content.getD 3 0 = p.content.getD 3 0 ^^^ 0xc0 := by
  unfold tsDecryptor.decryptPacket at h
  cases h1 : p.id with
  | error e => simp [h1, bind, Except.bind] at h
  | ok pid =>
    cases h2 : mapGet dec.ciphers pid with
    | none => simp [h1, h2, bind, Except.bind, pure, Except.pure] at h
    | some c =>
      cases h3 : p.payload with
      | error e => simp [h1, h2, h3, bind, Except.bind] at h
      | ok payload =>
        cases h4 : decryptOffset p payload with
        | error e => simp [h1, h2, h3, h4, bind, Except.bind] at h
        | ok offset =>
          cases h5 : xorThrough P dec.pool c (p.content.drop (p.payloadOffset + offset)) with
          | error e => simp [h1, h2, h3, h4, h5, bind, Except.bind] at h
          | ok enc =>
            simp only [h1, h2, h3, h4, h5, bind, Except.bind, pure, Except.pure,
              Except.ok.injEq, Prod.mk.injEq, and_true] at h
            obtain ⟨-, hp⟩ := h
            rw [← hp]
            have hl : 3 < (List.take (p.payloadOffset + offset) p.content ++ enc.2).length := by
              simp only [List.length_append, List.length_take]; omega
            rw [ts_clearScramble_byte _ hl]
            congr 1
            have ht : 3 < (List.take (p.payloadOffset + offset) p.content).length := by
              simp only [List.length_take]; omega
            simp only [List.getD_eq_getElem?_getD]
            rw [List.getElem?_append_left ht, List.getElem?_take_of_lt (by omega)]

set_option maxRecDepth 100000 in
/-- C16: the frame `evenKeyFrame` has scramble field 2; the TS decryptor
`tsKeyed`, which holds the cipher of its packet id, decrypts it without error,
and byte 3 of the result is `50`: the scramble field reads 1, not 0. -/
theorem ts_decryptPacket_scramble_toggled :
    evenKeyFrame.scramble = 2 ∧
    (tsKeyed.decryptPacket evenKeyFrame).toOption.map
        (fun r => (r.2.1.content.getD 3 0, r.2.1.scramble, r.2.2)) = some (0x50, 1, none) := by
  decide

/-! ### TS payload offset -/

/-- On a frame of 188 bytes, `payload()` is the suffix from offset 4 when the
adaptation-field flag is clear, and the suffix from offset `5 + content[4]`
when the flag is set and `content[4]` is at most 183. -/
theorem ts_payload_in_range (p : tsPacket) (hlen : p.content.length = 188) :
    (p.hasAdaptation = false → p.payload = .ok (p.content.drop 4)) ∧
    (p.hasAdaptation = true → p.content.getD 4 0 ≤ 183 →
      p.payload = .ok (p.content.drop (5 + p.content.getD 4 0))) := by
  constructor
  · intro h
    simp [tsPacket.payload, tsPacket.payloadOffset, h, sliceFrom, hlen]
  · intro h h4
    have hm : (5 + p.content.getD 4 0) % 256 = 5 + p.content.getD 4 0 :=
      Nat.mod_eq_of_lt (by omega)
    simp only [tsPacket.payload, tsPacket.payloadOffset, h, if_true, hm, sliceFrom, hlen]
    rw [if_pos (by omega)]

set_option maxRecDepth 100000 in
/-- C17: the 188-byte frame `wrapFrame` has the adaptation-field flag set and
`content[4] = 251`; its `payload()` is the whole frame, the suffix from offset
0 and not from offset 256. On `overlongFrame`, with `content[4] = 184`,
`payload()` faults with a slice bound out of range. -/
theorem ts_payload_offset_wraps :
    wrapFrame.content.length = 188 ∧ wrapFrame.hasAdaptation = true ∧
    wrapFrame.content.getD 4 0 = 251 ∧ wrapFrame.payloadOffset = 0 ∧
    wrapFrame.payload = .ok wrapFrame.content ∧
    overlongFrame.content.length = 188 ∧ overlongFrame.hasAdaptation = true ∧
    overlongFrame.content.getD 4 0 = 184 ∧
    overlongFrame.payload = .error .sliceBoundsOutOfRange := by
  decide

/-! ### Reading bytes of a payload -/

theorem index_getD (s : List Nat) (i : Nat) (h : i < s.length) : index s i = .ok (s.getD i 0) := by
  simp [index, List.get?_eq_getElem?, List.getD_eq_getElem?_getD, List.getElem?_eq_getElem h]

theorem isBytes_getD (s : List Nat) (hb : isBytes s) (i : Nat) : s.getD i 0 < 256 := by
  rw [List.getD_eq_getElem?_getD]
  cases h : s[i]? with
  | none => simp
  | some b =>
    simp only [Option.getD_some]
    obtain ⟨hi, he⟩ := List.getElem?_eq_some.mp h
    exact hb b (he ▸ List.getElem_mem hi)

theorem slice_getD (s : List Nat) (lo n : Nat) (h : lo + n ≤ s.length) :
    slice s lo (lo + n) = .ok ((List.range n).map (fun i => s.getD (lo + i) 0)) := by
  unfold slice
  rw [if_pos ⟨by omega, h⟩]
  congr 1
  apply List.ext_getElem
  · simp; omega
  · intro i h1 h2
    simp only [List.length_map, List.length_range] at h2
    simp only [List.getElem_drop, List.getElem_take, List.getElem_map, List.getElem_range,
      List.getD_eq_getElem?_getD]
    rw [List.getElem?_eq_getElem (by omega)]
    rfl

theorem slice_two (s : List Nat) (lo : Nat) (h : lo + 2 ≤ s.length) :
    slice s lo (lo + 2) = .ok [s.getD lo 0, s.getD (lo + 1) 0] := by
  rw [slice_getD s lo 2 h]; rfl

theorem slice_four (s : List Nat) (lo : Nat) (h : lo + 4 ≤ s.length) :
    slice s lo (lo + 4)
      = .ok [s.getD lo 0, s.getD (lo + 1) 0, s.getD (lo + 2) 0, s.getD (lo + 3) 0] := by
  rw [slice_getD s lo 4 h]; rfl

/-- Function `joinShort` on two bytes is the 16-bit big-endian value. -/
theorem joinShort_bytes (a b : Nat) (ha : a < 256) (hb : b < 256) :
    joinShort [a, b] = .ok (a * 256 + b) := by
  simp only [joinShort, Nat.shiftLeft_eq]
  have h1 : a * 2 ^ 8 % 65536 = 2 ^ 8 * a := by
    rw [Nat.mod_eq_of_lt (by omega)]; ring
  rw [h1, ← Nat.mul_add_lt_is_or (by simpa using hb) a]
  congr 1
  ring

/-- Function `extractPacketID` on two bytes is the low 13 bits of their 16-bit
value. -/
theorem extractPacketID_bytes (a b : Nat) (ha : a < 256) (hb : b < 256) :
    extractPacketID [a, b] = .ok ((a * 256 + b) % 8192) := by
  simp only [extractPacketID, joinShort_bytes a b ha hb, bind, Except.bind, pure, Except.pure,
    tsIDMask]
  congr 1
  exact Nat.and_pow_two_sub_one_eq_mod _ 13

/-! ### The program association table -/

/-- C20: on a frame whose payload has at least 13 bytes, `processPAT` returns
the pointer error when `payload[0]` is non-zero, else the length error when the
low 12 bits of payload bytes 2-3 are not 13, and else succeeds and sets the
program-map identifier to the low 13 bits of payload bytes 11-12; the
decryptor is otherwise as before (in the error cases entirely), and
`processPacket` on a frame of identifier 0 returns what `processPAT` returns
together with the frame as it was. -/
theorem processPAT_spec (P : Primitives) (dec : tsDecryptor P) (p : tsPacket)
    (payload : List Nat) (hp : p.payload = .ok payload) (hlen : 13 ≤ payload.length)
    (hb : isBytes payload) :
    dec.processPAT p =
      .ok (if payload.getD 0 0 ≠ 0 then (dec, some .patPointer)
           else if (payload.getD 2 0 * 256 + payload.getD 3 0) % 4096 ≠ 13
             then (dec, some .patLength)
           else ({ pool := dec.pool, ciphers := dec.ciphers,
                   pmtID := (payload.getD 11 0 * 256 + payload.getD 12 0) % 8192,
                   privateID := dec.privateID }, none)) ∧
    (p.id = .ok tsPatID →
      ∀ r, dec.processPAT p = .ok r → dec.processPacket p = .ok (r.1, p, r.2)) := by
  constructor
  · have h0 := index_getD payload 0 (by omega)
    have h2 := slice_two payload 2 (by omega)
    have h11 := slice_two payload 11 (by omega)
    have hj := joinShort_bytes _ _ (isBytes_getD payload hb 2) (isBytes_getD payload hb 3)
    have he := extractPacketID_bytes _ _ (isBytes_getD payload hb 11) (isBytes_getD payload hb 12)
    have hm : ∀ x : Nat, x &&& 0x0fff = x % 4096 := fun x => Nat.and_pow_two_sub_one_eq_mod x 12
    simp only [tsDecryptor.processPAT, hp, bind, Except.bind, h0, h2, h11, hj, he, hm, pure,
      Except.pure]
    split_ifs <;> rfl
  · intro hid r hr
    simp only [tsDecryptor.processPacket, hid, bind, Except.bind, hr, pure, Except.pure, if_true]

set_option maxRecDepth 100000 in
/-- Witness for C20: a PAT frame with pointer 0, section length 13 and the
program-map identifier `0020` in payload bytes 11-12. -/
theorem processPAT_spec_witness :
    (newTSDecryptor countingPrimitives [0x31] [0x02]).processPAT patFrame =
      .ok (if (patFrame.content.drop 4).getD 0 0 ≠ 0
             then (newTSDecryptor countingPrimitives [0x31] [0x02], some .patPointer)
           else if ((patFrame.content.drop 4).getD 2 0 * 256
               + (patFrame.content.drop 4).getD 3 0) % 4096 ≠ 13
             then (newTSDecryptor countingPrimitives [0x31] [0x02], some .patLength)
           else ({ pool := (newTSDecryptor countingPrimitives [0x31] [0x02]).pool,
                   ciphers := (newTSDecryptor countingPrimitives [0x31] [0x02]).ciphers,
                   pmtID := ((patFrame.content.drop 4).getD 11 0 * 256
                     + (patFrame.content.drop 4).getD 12 0) % 8192,
                   privateID := (newTSDecryptor countingPrimitives [0x31] [0x02]).privateID },
                 none)) ∧
    ((patFrame.content.drop 4).getD 11 0 * 256 + (patFrame.content.drop 4).getD 12 0) % 8192
      = 0x20 :=
  ⟨(processPAT_spec countingPrimitives (newTSDecryptor countingPrimitives [0x31] [0x02])
      patFrame (patFrame.content.drop 4) (by decide) (by decide) (by decide)).1, by decide⟩

/-! ### The private-data table -/

/-- What a successful `getCipher` leaves behind: the handle is cached under the
returned pointer, nothing cached before is lost, and no cipher object that
existed before has changed. -/
theorem getCipher_result (P : Primitives) (pool pool' : cipherPool P) (id : Nat)
    (conf : Nat × Nat × Nat) (c : Nat) (h : getCipher P pool id conf = .ok (pool', c)) :
    mapGet pool'.ciphers { id := id, confounder := conf } = some c ∧
    (∀ h' c', mapGet pool.ciphers h' = some c' → mapGet pool'.ciphers h' = some c') ∧
    pool'.mak = pool.mak ∧ pool'.iv = pool.iv ∧
    (∀ q, q < pool.heap.length → pool'.heap.get? q = pool.heap.get? q) ∧
    pool.heap.length ≤ pool'.heap.length := by
  cases hm : mapGet pool.ciphers { id := id, confounder := conf } with
  | some c0 =>
    rw [getCipher_cached P pool id conf c0 hm] at h
    simp only [Except.ok.injEq, Prod.mk.injEq] at h
    obtain ⟨hp, hc⟩ := h
    subst hp; subst hc
    exact ⟨hm, fun _ _ hh => hh, rfl, rfl, fun _ _ => rfl, Nat.le_refl _⟩
  | none =>
    rw [getCipher_fresh P pool id conf hm] at h
    cases hsp : specCipher P pool.mak pool.iv { id := id, confounder := conf } with
    | none => rw [hsp] at h; exact absurd h (by simp)
    | some st =>
      rw [hsp] at h
      simp only [Except.ok.injEq, Prod.mk.injEq] at h
      obtain ⟨hp, hc⟩ := h
      subst hp; subst hc
      refine ⟨mapGet_mapSet_self _ _ _, ?_, rfl, rfl, ?_, by simp⟩
      · intro h' c' hh
        have hne : h' ≠ { id := id, confounder := conf } := by
          intro he; rw [he, hm] at hh; exact absurd hh (by simp)
        show mapGet (mapSet pool.ciphers _ _) h' = some c'
        rw [mapGet_mapSet_ne _ _ _ _ hne]; exact hh
      · intro q hq
        simp only [List.get?_eq_getElem?]
        rw [List.getElem?_append_left hq]

/-- Function `getCipher` returns when `turing.NewCipher` accepts 20-byte keys
and IVs. -/
theorem getCipher_returns (P : Primitives) (pool : cipherPool P) (id : Nat)
    (conf : Nat × Nat × Nat)
    (hnew : ∀ k v, k.length = 20 → v.length = 20 → (P.NewCipher k v).isSome) :
    ∃ r, getCipher P pool id conf = .ok r := by
  cases hm : mapGet pool.ciphers { id := id, confounder := conf } with
  | some c0 => exact ⟨_, getCipher_cached P pool id conf c0 hm⟩
  | none =>
    rw [getCipher_fresh P pool id conf hm]
    have hs := hnew (specDerivedKey P pool.mak pool.iv { id := id, confounder := conf })
      (specDerivedIV P pool.mak pool.iv { id := id, confounder := conf })
      (P.sha1_length _) (P.sha1_length _)
    cases hsp : specCipher P pool.mak pool.iv { id := id, confounder := conf } with
    | none =>
      unfold specCipher at hsp
      rw [hsp] at hs
      exact absurd hs (by simp)
    | some st => exact ⟨_, rfl⟩

theorem entryOffset_succ (s : Nat) : entryOffset s + tsPrivateLength = entryOffset (s + 1) := by
  simp only [entryOffset, tsPrivateLength]; ring

/-- One iteration of the loop of `processPrivate` on an entry that lies within
the payload. -/
theorem privateLoop_step (P : Primitives) (payload : List Nat) (hb : isBytes payload)
    (n s : Nat) (pool : cipherPool P) (ciphers : List (Nat × Nat))
    (hl : entryOffset s + 9 ≤ payload.length) :
    privateLoop payload (n + 1) pool ciphers (entryOffset s) =
      Except.bind
        (getCipher P pool (entryHandle payload s).id (entryHandle payload s).confounder)
        (fun got => privateLoop payload n got.1 (mapSet ciphers (entryID payload s) got.2)
          (entryOffset (s + 1))) := by
  have h1 := slice_two payload (entryOffset s) (by omega)
  have h2 := extractPacketID_bytes _ _ (isBytes_getD payload hb (entryOffset s))
    (isBytes_getD payload hb (entryOffset s + 1))
  have h3 := index_getD payload (entryOffset s + 2) (by omega)
  have h4 := slice_four payload (entryOffset s + 5) (by omega)
  have h5 : entryOffset s + 5 + 4 = entryOffset s + 9 := by omega
  rw [h5] at h4
  rw [privateLoop]
  simp only [h1, h2, h3, h4, bind, Except.bind, entryOffset_succ, entryHandle, entryID,
    confounder, Except.toOption, Option.getD, Nat.add_assoc, Nat.reduceAdd]

/-- An entry that does not lie within the payload makes the loop fault. -/
theorem privateLoop_short (P : Primitives) (payload : List Nat)
    (n s : Nat) (pool : cipherPool P) (ciphers : List (Nat × Nat))
    (hl : ¬ entryOffset s + 9 ≤ payload.length) :
    ∃ e, privateLoop payload (n + 1) pool ciphers (entryOffset s) = .error e := by
  rw [privateLoop]
  cases ha : slice payload (entryOffset s) (entryOffset s + 2) with
  | error e => exact ⟨e, by simp [bind, Except.bind, ha]⟩
  | ok b =>
    cases hx : extractPacketID b with
    | error e => exact ⟨e, by simp [bind, Except.bind, ha, hx]⟩
    | ok pid =>
      cases hi : index payload (entryOffset s + 2) with
      | error e => exact ⟨e, by simp [bind, Except.bind, ha, hx, hi]⟩
      | ok sid =>
        have hs : slice payload (entryOffset s + 5) (entryOffset s + 9)
            = .error .sliceBoundsOutOfRange := by
          unfold slice
          rw [if_neg (fun hc => hl hc.2)]
        exact ⟨.sliceBoundsOutOfRange, by simp [bind, Except.bind, ha, hx, hi, hs]⟩

/-- The loop of `processPrivate`, when it returns: identifiers that are not
listed keep their mapping, every listed identifier is mapped, an entry whose
identifier is not listed again further down is mapped to the pointer under
which the pool holds the cipher of the entry's handle, and the pool keeps what
it held. -/
theorem privateLoop_props (P : Primitives) (payload : List Nat) (hb : isBytes payload) :
    ∀ (n s : Nat) (pool : cipherPool P) (ciphers : List (Nat × Nat)) (pool' : cipherPool P)
      (ciphers' : List (Nat × Nat)),
      privateLoop payload n pool ciphers (entryOffset s) = .ok (pool', ciphers') →
      (∀ pid, (∀ j, s ≤ j → j < s + n → entryID payload j ≠ pid) →
        mapGet ciphers' pid = mapGet ciphers pid) ∧
      (∀ pid, (mapGet ciphers pid).isSome → (mapGet ciphers' pid).isSome) ∧
      (∀ j, s ≤ j → j < s + n → (mapGet ciphers' (entryID payload j)).isSome) ∧
      (∀ j, s ≤ j → j < s + n →
        (∀ j', j < j' → j' < s + n → entryID payload j' ≠ entryID payload j) →
        ∃ c, mapGet ciphers' (entryID payload j) = some c ∧
          mapGet pool'.ciphers (entryHandle payload j) = some c) ∧
      (∀ h c, mapGet pool.ciphers h = some c → mapGet pool'.ciphers h = some c) ∧
      pool'.mak = pool.mak ∧ pool'.iv = pool.iv ∧
      (∀ q, q < pool.heap.length → pool'.heap.get? q = pool.heap.get? q) ∧
      pool.heap.length ≤ pool'.heap.length := by
  intro n
  induction n with
  | zero =>
    intro s pool ciphers pool' ciphers' h
    simp only [privateLoop, Except.ok.injEq, Prod.mk.injEq] at h
    obtain ⟨hp, hc⟩ := h
    subst hp; subst hc
    refine ⟨fun _ _ => rfl, fun _ hh => hh, ?_, ?_, fun _ _ hh => hh, rfl, rfl, fun _ _ => rfl,
      Nat.le_refl _⟩
    · intro j h1 h2; omega
    · intro j h1 h2; omega
  | succ n ih =>
    intro s pool ciphers pool' ciphers' h
    by_cases hl : entryOffset s + 9 ≤ payload.length
    · rw [privateLoop_step P payload hb n s pool ciphers hl] at h
      cases hg : getCipher P pool (entryHandle payload s).id (entryHandle payload s).confounder with
      | error e => rw [hg] at h; exact absurd h (by simp [Except.bind])
      | ok got =>
        obtain ⟨pool1, c1⟩ := got
        rw [hg] at h
        simp only [Except.bind] at h
        obtain ⟨g1, g2, g3, g4, g5, g6⟩ := getCipher_result P pool pool1 _ _ c1 hg
        obtain ⟨i1, i2, i3, i4, i5, i6, i7, i8, i9⟩ := ih (s + 1) pool1 _ pool' ciphers' h
        have hself : mapGet (mapSet ciphers (entryID payload s) c1) (entryID payload s) = some c1 :=
          mapGet_mapSet_self _ _ _
        refine ⟨?_, ?_, ?_, ?_, ?_, ?_, ?_, ?_, ?_⟩
        · intro pid hpid
          rw [i1 pid (fun j hj1 hj2 => hpid j (by omega) (by omega))]
          exact mapGet_mapSet_ne _ _ _ _ (fun he => hpid s (Nat.le_refl _) (by omega) he.symm)
        · intro pid hsome
          apply i2
          by_cases he : pid = entryID payload s
          · rw [he, hself]; rfl
          · rw [mapGet_mapSet_ne _ _ _ _ he]; exact hsome
        · intro j hj1 hj2
          by_cases he : j = s
          · rw [he]; apply i2; rw [hself]; rfl
          · exact i3 j (by omega) (by omega)
        · intro j hj1 hj2 hlast
          by_cases he : j = s
          · subst he
            refine ⟨c1, ?_, i5 _ _ g1⟩
            rw [i1 _ (fun j' hj1' hj2' => hlast j' (by omega) (by omega))]
            exact hself
          · exact i4 j (by omega) (by omega)
              (fun j' hj1' hj2' => hlast j' hj1' (by omega))
        · intro h' c' hh; exact i5 _ _ (g2 _ _ hh)
        · rw [i6, g3]
        · rw [i7, g4]
        · intro q hq; rw [i8 q (by omega), g5 q hq]
        · omega
    · obtain ⟨e, he⟩ := privateLoop_short P payload n s pool ciphers hl
      rw [he] at h
      exact absurd h (by simp)

/-- The loop of `processPrivate` returns when the table lies within the payload
and `turing.NewCipher` accepts 20-byte keys and IVs. -/
theorem privateLoop_returns (P : Primitives) (payload : List Nat) (hb : isBytes payload)
    (hnew : ∀ k v, k.length = 20 → v.length = 20 → (P.NewCipher k v).isSome) :
    ∀ (n s : Nat) (pool : cipherPool P) (ciphers : List (Nat × Nat)),
      entryOffset (s + n) ≤ payload.length →
      ∃ r, privateLoop payload n pool ciphers (entryOffset s) = .ok r := by
  intro n
  induction n with
  | zero => intro s pool ciphers _; exact ⟨_, rfl⟩
  | succ n ih =>
    intro s pool ciphers hlen
    have hl : entryOffset s + 9 ≤ payload.length := by
      simp only [entryOffset] at hlen ⊢; omega
    rw [privateLoop_step P payload hb n s pool ciphers hl]
    obtain ⟨got, hg⟩ := getCipher_returns P pool (entryHandle payload s).id
      (entryHandle payload s).confounder hnew
    rw [hg]
    simp only [Except.bind]
    exact ih (s + 1) _ _ (by rw [Nat.add_assoc, Nat.add_comm 1 n]; exact hlen)

/-- Method `processPrivate` on a payload of at least 10 bytes. -/
theorem processPrivate_eq (P : Primitives) (dec : tsDecryptor P) (p : tsPacket)
    (payload : List Nat) (hp : p.payload = .ok payload) (hlen : 10 ≤ payload.length) :
    dec.processPrivate p =
      if payload.take 4 ≠ tivoMagic then .ok (dec, some .privateMagic)
      else if payload.getD 9 0 % 20 ≠ 0 then .ok (dec, some (.privateLength (payload.getD 9 0)))
      else Except.bind (privateLoop payload (payload.getD 9 0 / 20) dec.pool [] (entryOffset 0))
        (fun res => .ok ({ dec with pool := res.1, ciphers := res.2 }, none)) := by
  have h0 : slice payload 0 4 = .ok (payload.take 4) := by
    unfold slice
    rw [if_pos ⟨by omega, by omega⟩]
    rfl
  have h9 := index_getD payload 9 (by omega)
  simp only [tsDecryptor.processPrivate, hp, h0, h9, bind, Except.bind, pure, Except.pure,
    tsPrivateLength]
  split_ifs <;> rfl

/-- A `processPrivate` that succeeds has read a payload of at least 10 bytes
with the tag and a table length that is a multiple of 20, and its result is
that of the loop over the table. -/
theorem processPrivate_success (P : Primitives) (dec0 dec : tsDecryptor P) (priv : tsPacket)
    (payload : List Nat) (hp : priv.payload = .ok payload)
    (h : dec0.processPrivate priv = .ok (dec, none)) :
    10 ≤ payload.length ∧ payload.take 4 = tivoMagic ∧ payload.getD 9 0 % 20 = 0 ∧
    ∃ pool' ciphers',
      privateLoop payload (payload.getD 9 0 / 20) dec0.pool [] (entryOffset 0)
        = .ok (pool', ciphers') ∧
      dec = { dec0 with pool := pool', ciphers := ciphers' } := by
  by_cases hlen : 10 ≤ payload.length
  · rw [processPrivate_eq P dec0 priv payload hp hlen] at h
    by_cases hm : payload.take 4 = tivoMagic
    · by_cases ht : payload.getD 9 0 % 20 = 0
      · rw [if_neg (by simpa using hm), if_neg (by simpa using ht)] at h
        cases hr : privateLoop payload (payload.getD 9 0 / 20) dec0.pool [] (entryOffset 0) with
        | error e => rw [hr] at h; exact absurd h (by simp [Except.bind])
        | ok res =>
          rw [hr] at h
          simp only [Except.bind, Except.ok.injEq, Prod.mk.injEq, and_true] at h
          exact ⟨hlen, hm, ht, res.1, res.2, rfl, h.symm⟩
      · rw [if_neg (by simpa using hm), if_pos ht] at h
        exact absurd h (by simp)
    · rw [if_pos hm] at h
      exact absurd h (by simp)
  · exfalso
    simp only [tsDecryptor.processPrivate, hp, bind, Except.bind, pure, Except.pure] at h
    cases hs : slice payload 0 4 with
    | error e => rw [hs] at h; exact absurd h (by simp)
    | ok magic =>
      rw [hs] at h
      simp only at h
      by_cases hm : magic = tivoMagic
      · rw [if_neg (by simpa using hm)] at h
        have h9 : index payload 9 = .error .indexOutOfRange := by
          simp only [index, List.get?_eq_getElem?]
          rw [List.getElem?_eq_none (by omega)]
        rw [h9] at h
        exact absurd h (by simp)
      · rw [if_pos hm] at h
        exact absurd h (by simp)

set_option maxRecDepth 100000 in
/-- C19, counterexample: the table of `duplicateFrame` lists the identifier
`0100` twice, for the handles `(e0, 10 20 60)` and `(c0, 10 20 60)`.
After `processPrivate` the identifier is mapped to cipher object 1, the cipher
of the second entry, while `getCipher` for the handle of entry 0 returns cipher
object 0. -/
theorem processPrivate_duplicate_id :
    entryID (duplicateFrame.content.drop 4) 0 = 0x100 ∧
    entryID (duplicateFrame.content.drop 4) 1 = 0x100 ∧
    entryHandle (duplicateFrame.content.drop 4) 0 = { id := 0xe0, confounder := (16, 32, 96) } ∧
    entryHandle (duplicateFrame.content.drop 4) 1 = { id := 0xc0, confounder := (16, 32, 96) } ∧
    (tsReady.processPrivate duplicateFrame).toOption.map
        (fun r => (r.2, mapGet r.1.ciphers 0x100,
          (getCipher countingPrimitives r.1.pool 0xe0 (16, 32, 96)).toOption.map (fun g => g.2),
          (getCipher countingPrimitives r.1.pool 0xc0 (16, 32, 96)).toOption.map (fun g => g.2)))
      = some (none, some 1, some 0, some 1) := by
  decide

/-- C19, amended: on a payload of at least 10 bytes `processPrivate` returns
the tag error when the first 4 bytes are not "TiVo", else the length error when
the byte at offset 9 is not a multiple of 20, both with the decryptor as it
was. Otherwise, when the `k = tableLength / 20` entries lie within the payload,
it succeeds: the identifiers mapped afterwards are exactly those of the `k`
entries, whatever was mapped before; the identifier of entry `i` is mapped to
the cipher that `getCipher` returns for the handle of entry `i` provided no
later entry has the same identifier (the last entry of an identifier decides);
the program-map and private-data identifiers are unchanged, and the pool keeps
every cached handle and every cipher object as it was. -/
theorem processPrivate_table (P : Primitives) (dec : tsDecryptor P) (p : tsPacket)
    (payload : List Nat) (hp : p.payload = .ok payload) (hlen : 10 ≤ payload.length)
    (hb : isBytes payload)
    (hnew : ∀ k v, k.length = 20 → v.length = 20 → (P.NewCipher k v).isSome) :
    (payload.take 4 ≠ tivoMagic → dec.processPrivate p = .ok (dec, some .privateMagic)) ∧
    (payload.take 4 = tivoMagic → payload.getD 9 0 % 20 ≠ 0 →
      dec.processPrivate p = .ok (dec, some (.privateLength (payload.getD 9 0)))) ∧
    (payload.take 4 = tivoMagic → payload.getD 9 0 % 20 = 0 →
      10 + payload.getD 9 0 ≤ payload.length →
      ∃ dec', dec.processPrivate p = .ok (dec', none) ∧
        dec'.pmtID = dec.pmtID ∧ dec'.privateID = dec.privateID ∧
        (∀ pid, (mapGet dec'.ciphers pid).isSome ↔
          ∃ i, i < payload.getD 9 0 / 20 ∧ entryID payload i = pid) ∧
        (∀ i, i < payload.getD 9 0 / 20 →
          (∀ j, i < j → j < payload.getD 9 0 / 20 → entryID payload j ≠ entryID payload i) →
          ∃ c, mapGet dec'.ciphers (entryID payload i) = some c ∧
            getCipher P dec'.pool (entryHandle payload i).id (entryHandle payload i).confounder
              = .ok (dec'.pool, c)) ∧
        (∀ h c, mapGet dec.pool.ciphers h = some c → mapGet dec'.pool.ciphers h = some c) ∧
        (∀ q, q < dec.pool.heap.length → dec'.pool.heap.get? q = dec.pool.heap.get? q)) := by
  have heq := processPrivate_eq P dec p payload hp hlen
  refine ⟨?_, ?_, ?_⟩
  · intro hm
    rw [heq, if_pos hm]
  · intro hm ht
    rw [heq, if_neg (by simpa using hm), if_pos ht]
  · intro hm ht htab
    have hin : entryOffset (0 + payload.getD 9 0 / 20) ≤ payload.length := by
      simp only [entryOffset]; omega
    obtain ⟨res, hres⟩ := privateLoop_returns P payload hb hnew (payload.getD 9 0 / 20) 0
      dec.pool [] hin
    obtain ⟨pool', ciphers'⟩ := res
    obtain ⟨q1, -, q3, q4, q5, -, -, q8, -⟩ :=
      privateLoop_props P payload hb _ 0 dec.pool [] pool' ciphers' hres
    refine ⟨{ dec with pool := pool', ciphers := ciphers' }, ?_, rfl, rfl, ?_, ?_, q5, q8⟩
    · rw [heq, if_neg (by simpa using hm), if_neg (by simpa using ht), hres]
      rfl
    · intro pid
      constructor
      · intro hsome
        by_contra hno
        have hq := q1 pid (fun j _ hj he => hno ⟨j, by omega, he⟩)
        rw [show mapGet ciphers' pid = none from hq] at hsome
        exact absurd hsome (by simp)
      · rintro ⟨i, hi, he⟩
        rw [← he]
        exact q3 i (Nat.zero_le _) (by omega)
    · intro i hi hlast
      obtain ⟨c, hc1, hc2⟩ := q4 i (Nat.zero_le _) (by omega)
        (fun j hj1 hj2 => hlast j hj1 (by omega))
      exact ⟨c, hc1, getCipher_cached P pool' _ _ c hc2⟩

set_option maxRecDepth 100000 in
/-- Witness for C19 (amended): `privateFrame` carries the tag and the table
length 20; its one entry maps the identifier `0100`. -/
theorem processPrivate_table_witness :
    ∃ dec', tsReady.processPrivate privateFrame = .ok (dec', none) ∧
      dec'.pmtID = tsReady.pmtID ∧ dec'.privateID = tsReady.privateID ∧
      (∀ pid, (mapGet dec'.ciphers pid).isSome ↔
        ∃ i, i < (privateFrame.content.drop 4).getD 9 0 / 20 ∧
          entryID (privateFrame.content.drop 4) i = pid) ∧
      (∀ i, i < (privateFrame.content.drop 4).getD 9 0 / 20 →
        (∀ j, i < j → j < (privateFrame.content.drop 4).getD 9 0 / 20 →
          entryID (privateFrame.content.drop 4) j ≠ entryID (privateFrame.content.drop 4) i) →
        ∃ c, mapGet dec'.ciphers (entryID (privateFrame.content.drop 4) i) = some c ∧
          getCipher countingPrimitives dec'.pool
              (entryHandle (privateFrame.content.drop 4) i).id
              (entryHandle (privateFrame.content.drop 4) i).confounder
            = .ok (dec'.pool, c)) ∧
      (∀ h c, mapGet tsReady.pool.ciphers h = some c → mapGet dec'.pool.ciphers h = some c) ∧
      (∀ q, q < tsReady.pool.heap.length →
        dec'.pool.heap.get? q = tsReady.pool.heap.get? q) :=
  (processPrivate_table countingPrimitives tsReady privateFrame (privateFrame.content.drop 4)
    (by decide) (by decide) (by decide) (fun _ _ _ _ => rfl)).2.2 (by decide) (by decide)
    (by decide)

/-! ### Missing ciphers -/

/-- Method `processPacket` on a scrambled frame whose identifier is none of the
table identifiers is `decryptPacket`. -/
theorem processPacket_data (P : Primitives) (dec : tsDecryptor P) (p : tsPacket) (pid : Nat)
    (hid : p.id = .ok pid) (h0 : pid ≠ tsPatID) (h1 : pid ≠ dec.pmtID)
    (h2 : pid ≠ dec.privateID) (hs : p.scramble ≠ 0) :
    dec.processPacket p = dec.decryptPacket p := by
  simp only [tsDecryptor.processPacket, hid, bind, Except.bind]
  rw [if_neg h0, if_neg h1, if_neg h2, if_pos hs]

/-- Method `decryptPacket` returns an error value only for a missing cipher. -/
theorem ts_decryptPacket_error (P : Primitives) (dec dec' : tsDecryptor P) (p p' : tsPacket)
    (pid : Nat) (e : GoError) (hid : p.id = .ok pid)
    (h : dec.decryptPacket p = .ok (dec', p', some e)) :
    mapGet dec.ciphers pid = none := by
  unfold tsDecryptor.decryptPacket at h
  cases h2 : mapGet dec.ciphers pid with
  | none => rfl
  | some c =>
    exfalso
    cases h3 : p.payload with
    | error x => simp [hid, h2, h3, bind, Except.bind] at h
    | ok payload =>
      cases h4 : decryptOffset p payload with
      | error x => simp [hid, h2, h3, h4, bind, Except.bind] at h
      | ok offset =>
        cases h5 : xorThrough P dec.pool c (p.content.drop (p.payloadOffset + offset)) with
        | error x => simp [hid, h2, h3, h4, h5, bind, Except.bind] at h
        | ok enc => simp [hid, h2, h3, h4, h5, bind, Except.bind, pure, Except.pure] at h

/-- C18: for a frame whose identifier `pid` is none of 0, the program-map id
and the private-data id and whose scramble field is non-zero, `processPacket`
returns a missing-cipher error exactly when `pid` is absent from the cipher
map; the error names `pid` and comes with the frame and the decryptor as they
were; when `pid` is mapped, a `processPacket` that returns carries no error.
In particular the frame fails on a decryptor whose cipher map is empty (no
private-data frame seen yet), and carries no error on a decryptor that results
from a private-data frame whose table lists `pid`. -/
theorem processPacket_missing_cipher (P : Primitives) (dec : tsDecryptor P) (p : tsPacket)
    (pid : Nat) (hid : p.id = .ok pid) (h0 : pid ≠ tsPatID) (h1 : pid ≠ dec.pmtID)
    (h2 : pid ≠ dec.privateID) (hs : p.scramble ≠ 0) :
    ((∃ dec' p' q, dec.processPacket p = .ok (dec', p', some (.cipherMissing q))) ↔
      mapGet dec.ciphers pid = none) ∧
    (mapGet dec.ciphers pid = none →
      dec.processPacket p = .ok (dec, p, some (.cipherMissing pid))) ∧
    ((mapGet dec.ciphers pid).isSome → ∀ r, dec.processPacket p = .ok r → r.2.2 = none) ∧
    (dec.ciphers = [] → dec.processPacket p = .ok (dec, p, some (.cipherMissing pid))) ∧
    (∀ (dec0 : tsDecryptor P) (priv : tsPacket) (payload : List Nat),
      dec0.processPrivate priv = .ok (dec, none) → priv.payload = .ok payload →
      isBytes payload →
      (∃ i, i < payload.getD 9 0 / 20 ∧ entryID payload i = pid) →
      (mapGet dec.ciphers pid).isSome ∧
      ∀ r, dec.processPacket p = .ok r → r.2.2 = none) := by
  have hpd := processPacket_data P dec p pid hid h0 h1 h2 hs
  have habs : mapGet dec.ciphers pid = none →
      dec.processPacket p = .ok (dec, p, some (.cipherMissing pid)) := by
    intro hn
    rw [hpd]
    simp only [tsDecryptor.decryptPacket, hid, hn, bind, Except.bind, pure, Except.pure]
  have hpres : (mapGet dec.ciphers pid).isSome →
      ∀ r, dec.processPacket p = .ok r → r.2.2 = none := by
    intro hsome r hr
    rw [hpd] at hr
    obtain ⟨d', p', oe⟩ := r
    cases oe with
    | none => rfl
    | some e =>
      have hn := ts_decryptPacket_error P dec d' p p' pid e hid hr
      rw [hn] at hsome
      exact absurd hsome (by simp)
  refine ⟨⟨?_, fun hn => ⟨dec, p, pid, habs hn⟩⟩, habs, hpres, ?_, ?_⟩
  · rintro ⟨dec', p', q, hq⟩
    rw [hpd] at hq
    exact ts_decryptPacket_error P dec dec' p p' pid _ hid hq
  · intro he
    apply habs
    rw [he]
    rfl
  · intro dec0 priv payload hpriv hpay hb ⟨i, hi, hie⟩
    obtain ⟨-, -, -, pool', ciphers', hloop, hdec⟩ :=
      processPrivate_success P dec0 dec priv payload hpay hpriv
    obtain ⟨-, -, q3, -⟩ := privateLoop_props P payload hb _ 0 dec0.pool [] pool' ciphers' hloop
    have hsome : (mapGet dec.ciphers pid).isSome := by
      rw [hdec, ← hie]
      exact q3 i (Nat.zero_le _) (by omega)
    exact ⟨hsome, hpres hsome⟩

set_option maxRecDepth 100000 in
/-- Witness for C18: the scrambled frame `dataFrame` on identifier `0100` fails
with the missing-cipher error on `tsReady`, which has seen no private-data
frame, and carries no error on `tsKeyed`, the decryptor after `privateFrame`,
whose table lists `0100`. -/
theorem processPacket_missing_cipher_witness :
    tsReady.processPacket dataFrame
      = .ok (tsReady, dataFrame, some (.cipherMissing 0x100)) ∧
    ((mapGet tsKeyed.ciphers 0x100).isSome ∧
      ∀ r, tsKeyed.processPacket dataFrame = .ok r → r.2.2 = none) :=
  ⟨(processPacket_missing_cipher countingPrimitives tsReady dataFrame 0x100 (by decide)
      (by decide) (by decide) (by decide) (by decide)).2.2.2.1 rfl,
   (processPacket_missing_cipher countingPrimitives tsKeyed dataFrame 0x100 (by decide)
      (by decide) (by decide) (by decide) (by decide)).2.2.2.2 tsReady privateFrame
      (privateFrame.content.drop 4) rfl (by decide) (by decide)
      ⟨0, by decide, by decide⟩⟩

/-! ### The program map table -/

/-- The scan of `processPMT` stops at the first stream-type byte equal to
`97` and returns the low 13 bits of the two bytes that follow it. -/
theorem pmtLoop_found (payload : List Nat) (L : Nat) (hL : L < 4096) (hb : isBytes payload) :
    ∀ (k off fuel : Nat), k + 1 ≤ fuel → off + 5 * k < L →
      (∀ j, j < k → payload.getD (off + 5 * j) 0 ≠ 0x97) →
      payload.getD (off + 5 * k) 0 = 0x97 → off + 5 * k + 3 ≤ payload.length →
      pmtLoop payload L fuel off
        = .ok (some ((payload.getD (off + 5 * k + 1) 0 * 256
            + payload.getD (off + 5 * k + 2) 0) % 8192)) := by
  intro k
  induction k with
  | zero =>
    intro off fuel hf hlt _ heq hin
    obtain ⟨f, rfl⟩ : ∃ f, fuel = f + 1 := ⟨fuel - 1, by omega⟩
    simp only [Nat.mul_zero, Nat.add_zero] at hlt heq hin ⊢
    have hm : off % 65536 = off := Nat.mod_eq_of_lt (by omega)
    have hi := index_getD payload off (by omega)
    have hs := slice_two payload (off + 1) (by omega)
    have he := extractPacketID_bytes _ _ (isBytes_getD payload hb (off + 1))
      (isBytes_getD payload hb (off + 1 + 1))
    have e3 : off + 1 + 2 = off + 3 := by omega
    rw [e3] at hs
    rw [pmtLoop]
    simp only [hm, hlt, if_true, hi, heq, tsPrivateType, bind, Except.bind, hs, he, pure,
      Except.pure]
  | succ k ih =>
    intro off fuel hf hlt hne heq hin
    obtain ⟨f, rfl⟩ : ∃ f, fuel = f + 1 := ⟨fuel - 1, by omega⟩
    have hm : off % 65536 = off := Nat.mod_eq_of_lt (by omega)
    have hi := index_getD payload off (by omega)
    have h0 : payload.getD off 0 ≠ 0x97 := by
      have := hne 0 (by omega)
      simpa using this
    have e : ∀ j, off + 5 + 5 * j = off + 5 * (j + 1) := fun j => by ring
    have hrec := ih (off + 5) f (by omega) (by rw [e]; exact hlt)
      (fun j hj => by rw [e]; exact hne (j + 1) (by omega)) (by rw [e]; exact heq)
      (by rw [e]; exact hin)
    rw [e] at hrec
    rw [pmtLoop]
    simp only [hm, show off < L by omega, if_true, hi, tsPrivateType, bind, Except.bind,
      if_neg h0]
    exact hrec

/-- The scan of `processPMT` ends without a result when no stream-type byte
below the section length is `97` and all of them lie within the payload. -/
theorem pmtLoop_none (payload : List Nat) (L : Nat) (hL : L < 4096) :
    ∀ (f off : Nat), off < 60000 → L ≤ off + 5 * f →
      (∀ j, off + 5 * j < L →
        payload.getD (off + 5 * j) 0 ≠ 0x97 ∧ off + 5 * j < payload.length) →
      pmtLoop payload L (f + 1) off = .ok none := by
  intro f
  induction f with
  | zero =>
    intro off ho hle _
    have hm : off % 65536 = off := Nat.mod_eq_of_lt (by omega)
    rw [pmtLoop]
    simp only [hm, show ¬ off < L by omega, if_false, pure, Except.pure]
  | succ f ih =>
    intro off ho hle hall
    have hm : off % 65536 = off := Nat.mod_eq_of_lt (by omega)
    rw [pmtLoop]
    by_cases hlt : off < L
    · obtain ⟨h0, hin⟩ := hall 0 (by simpa using hlt)
      simp only [Nat.mul_zero, Nat.add_zero] at h0 hin
      have hi := index_getD payload off hin
      have e : ∀ j, off + 5 + 5 * j = off + 5 * (j + 1) := fun j => by ring
      simp only [hm, hlt, if_true, hi, tsPrivateType, bind, Except.bind, if_neg h0]
      exact ih (off + 5) (by omega) (by omega) (fun j hj => by
        rw [e] at hj ⊢
        exact hall (j + 1) hj)
    · simp only [hm, hlt, if_false, pure, Except.pure]

/-- The scan of `processPMT` within the payload: on a frame whose payload has
pointer byte 0, with `L` the low 12 bits
of payload bytes 2-3, `processPMT` examines the stream-type bytes at payload
offsets 13, 18, 23, ... below `L` in increasing order. When the first of them
that equals `97` is at offset `13 + 5k`, it succeeds and sets the private-data
identifier to the low 13 bits of the two bytes that follow, leaving the rest
of the decryptor as it was. When none of them is `97` it returns the error
"Failed to locate PID of private data" with the decryptor unchanged. The bytes
examined are taken to lie within the payload. -/
theorem processPMT_scan (P : Primitives) (dec : tsDecryptor P) (p : tsPacket)
    (payload : List Nat) (hp : p.payload = .ok payload) (hb : isBytes payload)
    (hlen : 4 ≤ payload.length) (h0 : payload.getD 0 0 = 0) :
    (∀ k, 13 + 5 * k < (payload.getD 2 0 * 256 + payload.getD 3 0) % 4096 →
      (∀ j, j < k → payload.getD (13 + 5 * j) 0 ≠ 0x97) →
      payload.getD (13 + 5 * k) 0 = 0x97 → 13 + 5 * k + 3 ≤ payload.length →
      dec.processPMT p =
        .ok ({ pool := dec.pool, ciphers := dec.ciphers, pmtID := dec.pmtID,
               privateID := (payload.getD (13 + 5 * k + 1) 0 * 256
                 + payload.getD (13 + 5 * k + 2) 0) % 8192 }, none)) ∧
    ((∀ k, 13 + 5 * k < (payload.getD 2 0 * 256 + payload.getD 3 0) % 4096 →
        payload.getD (13 + 5 * k) 0 ≠ 0x97 ∧ 13 + 5 * k < payload.length) →
      dec.processPMT p = .ok (dec, some .pmtNoPrivate)) := by
  have hi := index_getD payload 0 (by omega)
  have h2 := slice_two payload 2 (by omega)
  have hj := joinShort_bytes _ _ (isBytes_getD payload hb 2) (isBytes_getD payload hb 3)
  have hm : ∀ x : Nat, x &&& 0x0fff = x % 4096 := fun x => Nat.and_pow_two_sub_one_eq_mod x 12
  have hL : (payload.getD 2 0 * 256 + payload.getD 3 0) % 4096 < 4096 := Nat.mod_lt _ (by omega)
  constructor
  · intro k hk hne heq hin
    have hf := pmtLoop_found payload _ hL hb k 13 (payload.length + 1) (by omega) hk hne heq hin
    simp only [tsDecryptor.processPMT, hp, bind, Except.bind, hi, h0, h2, hj, hm, hf, pure,
      Except.pure]
    rfl
  · intro hall
    have hle : (payload.getD 2 0 * 256 + payload.getD 3 0) % 4096 ≤ 13 + 5 * payload.length := by
      by_contra hc
      have := (hall payload.length (by omega)).2
      omega
    have hn := pmtLoop_none payload _ hL payload.length 13 (by omega) hle hall
    simp only [tsDecryptor.processPMT, hp, bind, Except.bind, hi, h0, h2, hj, hm, hn, pure,
      Except.pure]
    rfl

set_option maxRecDepth 100000 in
/-- Evaluation of `processPMT_scan`: in `pmtFrame` the section length is 23, the stream type at
payload offset 13 is `02` and the one at offset 18 is `97`, followed by
`e0 21`: the private-data identifier becomes `0021`. -/
theorem processPMT_scan_witness :
    (newTSDecryptor countingPrimitives [0x31] [0x02]).processPMT pmtFrame =
      .ok ({ pool := (newTSDecryptor countingPrimitives [0x31] [0x02]).pool,
             ciphers := (newTSDecryptor countingPrimitives [0x31] [0x02]).ciphers,
             pmtID := (newTSDecryptor countingPrimitives [0x31] [0x02]).pmtID,
             privateID := ((pmtFrame.content.drop 4).getD (13 + 5 * 1 + 1) 0 * 256
               + (pmtFrame.content.drop 4).getD (13 + 5 * 1 + 2) 0) % 8192 }, none) ∧
    ((pmtFrame.content.drop 4).getD (13 + 5 * 1 + 1) 0 * 256
      + (pmtFrame.content.drop 4).getD (13 + 5 * 1 + 2) 0) % 8192 = 0x21 :=
  ⟨(processPMT_scan countingPrimitives (newTSDecryptor countingPrimitives [0x31] [0x02])
      pmtFrame (pmtFrame.content.drop 4) (by decide) (by decide) (by decide) (by decide)).1 1
      (by decide) (by decide) (by decide) (by decide), by decide⟩

/-! ### The TS decrypt loop -/

theorem xorThrough_length (P : Primitives) (pool pool' : cipherPool P) (c : Nat)
    (data out : List Nat) (h : xorThrough P pool c data = .ok (pool', out)) :
    out.length = data.length := by
  cases hg : pool.heap.get? c with
  | none =>
    simp only [xorThrough, hg] at h
    exact absurd h (by simp)
  | some st =>
    rw [xorThrough_ok P pool c data st hg] at h
    simp only [Except.ok.injEq, Prod.mk.injEq] at h
    rw [← h.2]
    simp [keystream_length]

theorem ts_clearScramble_length (p : tsPacket) :
    p.clearScramble.content.length = p.content.length := by
  simp [tsPacket.clearScramble]

/-- Method `decryptPacket` keeps the length of the frame. -/
theorem ts_decryptPacket_length (P : Primitives) (dec dec' : tsDecryptor P) (p p' : tsPacket)
    (e : Option GoError) (h : dec.decryptPacket p = .ok (dec', p', e)) :
    p'.content.length = p.content.length := by
  unfold tsDecryptor.decryptPacket at h
  cases h1 : p.id with
  | error x => simp [h1, bind, Except.bind] at h
  | ok pid =>
    cases h2 : mapGet dec.ciphers pid with
    | none =>
      simp only [h1, h2, bind, Except.bind, pure, Except.pure, Except.ok.injEq,
        Prod.mk.injEq] at h
      rw [← h.2.1]
    | some c =>
      cases h3 : p.payload with
      | error x => simp [h1, h2, h3, bind, Except.bind] at h
      | ok payload =>
        cases h4 : decryptOffset p payload with
        | error x => simp [h1, h2, h3, h4, bind, Except.bind] at h
        | ok offset =>
          cases h5 : xorThrough P dec.pool c (p.content.drop (p.payloadOffset + offset)) with
          | error x => simp [h1, h2, h3, h4, h5, bind, Except.bind] at h
          | ok enc =>
            have hl := xorThrough_length P dec.pool enc.1 c _ enc.2 h5
            simp only [h1, h2, h3, h4, h5, bind, Except.bind, pure, Except.pure,
              Except.ok.injEq, Prod.mk.injEq] at h
            rw [← h.2.1, ts_clearScramble_length]
            simp only [List.length_append, List.length_take, hl, List.length_drop]
            omega

/-- Method `processPacket` keeps the length of the frame. -/
theorem ts_processPacket_length (P : Primitives) (dec dec' : tsDecryptor P) (p p' : tsPacket)
    (e : Option GoError) (h : dec.processPacket p = .ok (dec', p', e)) :
    p'.content.length = p.content.length := by
  unfold tsDecryptor.processPacket at h
  cases h1 : p.id with
  | error x => simp [h1, bind, Except.bind] at h
  | ok id =>
    simp only [h1, bind, Except.bind] at h
    split_ifs at h with c1 c2 c3 c4
    · cases hr : dec.processPAT p with
      | error x => simp [hr] at h
      | ok r =>
        simp only [hr, pure, Except.pure, Except.ok.injEq, Prod.mk.injEq] at h
        rw [← h.2.1]
    · cases hr : dec.processPMT p with
      | error x => simp [hr] at h
      | ok r =>
        simp only [hr, pure, Except.pure, Except.ok.injEq, Prod.mk.injEq] at h
        rw [← h.2.1]
    · cases hr : dec.processPrivate p with
      | error x => simp [hr] at h
      | ok r =>
        simp only [hr, pure, Except.pure, Except.ok.injEq, Prod.mk.injEq] at h
        rw [← h.2.1]
    · exact ts_decryptPacket_length P dec dec' p p' e h
    · simp only [pure, Except.pure, Except.ok.injEq, Prod.mk.injEq] at h
      rw [← h.2.1]

theorem tsStream_cons (f : tsPacket) (fs : List tsPacket) :
    tsStream (f :: fs) = f.content ++ tsStream fs := by
  simp [tsStream, writeTSPacket]

/-- Function `readTSPacket` on an input that holds a whole frame. -/
theorem readTSPacket_frame (src : Reader) (f tail : List Nat) (hf : f.length = 188)
    (hsrc : src.remaining = f ++ tail) :
    (readTSPacket src).1 =
      (if f.getD 0 0 ≠ tsSync then .error (.badSync (f.getD 0 0)) else .ok { content := f }) ∧
    (readTSPacket src).2.remaining = tail := by
  have hr := readFull_ok 188 src (by rw [hsrc, List.length_append]; omega)
  have ht : src.remaining.take 188 = f := by
    rw [hsrc, List.take_append_of_le_length (by omega), List.take_of_length_le (by omega)]
  have hd : src.remaining.drop 188 = tail := by
    rw [hsrc, List.drop_append_of_le_length (by omega), List.drop_of_length_le (by omega)]
    rfl
  rw [ht] at hr
  rw [hd] at hr
  unfold readTSPacket
  simp only [hr.1]
  split_ifs
  · exact ⟨rfl, hr.2⟩
  · exact ⟨rfl, hr.2⟩

/-- Function `readTSPacket` on an input that ends inside a frame. -/
theorem readTSPacket_short (src : Reader) (h0 : 0 < src.remaining.length)
    (h1 : src.remaining.length < 188) :
    (readTSPacket src).1 = .error .ErrUnexpectedEOF := by
  have hl : (readLoop 188 src).1.length = src.remaining.length := by
    rw [readLoop_fst, List.length_take]; omega
  have hr : (readFull 188 src).1.2 = some .ErrUnexpectedEOF := by
    simp only [readFull, hl]
    rw [if_neg (by omega), if_neg (by omega)]
  unfold readTSPacket
  simp only [hr]

/-- A frame that `readTSPacket` returns is the next 188 bytes of the input and
starts with the sync byte. -/
theorem readTSPacket_inv (src : Reader) (packet : tsPacket)
    (h : (readTSPacket src).1 = .ok packet) :
    packet.content.length = 188 ∧ packet.content.getD 0 0 = tsSync ∧
    src.remaining = packet.content ++ (readTSPacket src).2.remaining := by
  by_cases hlen : 188 ≤ src.remaining.length
  · have hsplit : src.remaining = src.remaining.take 188 ++ src.remaining.drop 188 :=
      (List.take_append_drop 188 _).symm
    have hfl : (src.remaining.take 188).length = 188 := by
      rw [List.length_take]; omega
    obtain ⟨r1, r2⟩ := readTSPacket_frame src _ _ hfl hsplit
    rw [r1] at h
    by_cases hs : (src.remaining.take 188).getD 0 0 = tsSync
    · rw [if_neg (by simpa using hs)] at h
      simp only [Except.ok.injEq] at h
      rw [← h, r2]
      exact ⟨hfl, hs, hsplit⟩
    · rw [if_pos hs] at h
      exact absurd h (by simp)
  · exfalso
    have hf := readFull_fail 188 src (by omega)
    unfold readTSPacket at h
    rcases hf with hf | hf
    · simp only [hf] at h
      exact absurd h (by simp)
    · simp only [hf] at h
      exact absurd h (by simp)

theorem peekEOF_iff (src : Reader) : peekEOF src = true ↔ src.remaining = [] := by
  simp [peekEOF]

/-- One iteration of the loop of `tsDecryptor.decrypt` on an input that starts
with a whole frame carrying the sync byte. -/
theorem tsDecryptLoop_step (P : Primitives) (fuel : Nat) (dec : tsDecryptor P) (count : Nat)
    (out : List Nat) (src : Reader) (f : tsPacket) (tail : List Nat)
    (hf : f.content.length = 188) (hs : f.content.getD 0 0 = tsSync)
    (hsrc : src.remaining = f.content ++ tail) :
    tsDecryptLoop (fuel + 1) dec count out src =
      (match dec.processPacket f with
       | .error p => .error p
       | .ok (dec1, _, some e) =>
         .ok (dec1, { err := tsFinish (count + 1) (some e), out := out,
                      src := (readTSPacket src).2 })
       | .ok (dec1, f1, none) =>
         tsDecryptLoop fuel dec1 (count + 1) (out ++ writeTSPacket f1) (readTSPacket src).2) ∧
    (readTSPacket src).2.remaining = tail := by
  obtain ⟨r1, r2⟩ := readTSPacket_frame src f.content tail hf hsrc
  rw [if_neg (by simpa using hs)] at r1
  have hpe : peekEOF src = false := by
    cases hp : peekEOF src with
    | false => rfl
    | true =>
      have := (peekEOF_iff src).mp hp
      rw [this] at hsrc
      have hl := congrArg List.length hsrc
      simp only [List.length_nil, List.length_append] at hl
      omega
  refine ⟨?_, r2⟩
  rw [tsDecryptLoop]
  simp only [hpe, r1]
  rfl

/-- The loop of `tsDecryptor.decrypt` over frames that are all processed
without error. -/
theorem tsDecryptLoop_frames (P : Primitives) :
    ∀ (frames : List tsPacket) (dec dec' : tsDecryptor P) (count : Nat) (out o : List Nat)
      (src : Reader) (fuel : Nat) (tail : List Nat),
      (∀ f ∈ frames, f.content.length = 188 ∧ f.content.getD 0 0 = tsSync) →
      tsProcessAll dec frames = some (dec', o) →
      src.remaining = tsStream frames ++ tail →
      ∃ src', src'.remaining = tail ∧
        tsDecryptLoop (fuel + frames.length) dec count out src
          = tsDecryptLoop fuel dec' (count + frames.length) (out ++ o) src' := by
  intro frames
  induction frames with
  | nil =>
    intro dec dec' count out o src fuel tail _ hall hsrc
    simp only [tsProcessAll, Option.some.injEq, Prod.mk.injEq] at hall
    obtain ⟨hd, ho⟩ := hall
    subst hd; subst ho
    exact ⟨src, by simpa [tsStream] using hsrc, by simp⟩
  | cons f fs ih =>
    intro dec dec' count out o src fuel tail hgood hall hsrc
    obtain ⟨hf, hs⟩ := hgood f (List.mem_cons_self _ _)
    rw [tsStream_cons, List.append_assoc] at hsrc
    obtain ⟨hstep, hrest⟩ :=
      tsDecryptLoop_step P (fuel + fs.length) dec count out src f _ hf hs hsrc
    rw [tsProcessAll] at hall
    cases hp : dec.processPacket f with
    | error x => rw [hp] at hall; exact absurd hall (by simp)
    | ok res =>
      obtain ⟨dec1, f1, oe⟩ := res
      cases oe with
      | some e => rw [hp] at hall; exact absurd hall (by simp)
      | none =>
        rw [hp] at hall
        simp only at hall
        cases hr : tsProcessAll dec1 fs with
        | none => rw [hr] at hall; exact absurd hall (by simp)
        | some r =>
          rw [hr] at hall
          simp only [Option.some.injEq, Prod.mk.injEq] at hall
          obtain ⟨hd, ho⟩ := hall
          obtain ⟨src', hs', hloop⟩ := ih dec1 r.1 (count + 1) (out ++ writeTSPacket f1) r.2
            (readTSPacket src).2 fuel tail
            (fun g hg => hgood g (List.mem_cons_of_mem _ hg)) (by rw [hr]) hrest
          refine ⟨src', hs', ?_⟩
          rw [List.length_cons, ← Nat.add_assoc, hstep, hp]
          simp only
          rw [hloop, ← hd, ← ho, List.append_assoc]
          congr 1
          omega

/-- The loop of `tsDecryptor.decrypt` at the end of the input. -/
theorem tsDecryptLoop_end (P : Primitives) (fuel : Nat) (dec : tsDecryptor P) (count : Nat)
    (out : List Nat) (src : Reader) (h : src.remaining = []) :
    tsDecryptLoop (fuel + 1) dec count out src =
      .ok (dec, { err := tsFinish (count + 1)
                    (if dec.pmtID = 0 ∨ dec.privateID = 0 then some GoError.ErrUnexpectedEOF
                     else none),
                  out := out, src := src }) := by
  rw [tsDecryptLoop]
  simp only [(peekEOF_iff src).mpr h, if_true]

/-- The loop of `tsDecryptor.decrypt` on a trailing fragment. -/
theorem tsDecryptLoop_fragment (P : Primitives) (fuel : Nat) (dec : tsDecryptor P)
    (count : Nat) (out : List Nat) (src : Reader) (h0 : 0 < src.remaining.length)
    (h1 : src.remaining.length < 188) :
    tsDecryptLoop (fuel + 1) dec count out src =
      .ok (dec, { err := some (.tsPacketFailed (count + 1) .ErrUnexpectedEOF), out := out,
                  src := (readTSPacket src).2 }) := by
  have hpe : peekEOF src = false := by
    cases hp : peekEOF src with
    | false => rfl
    | true =>
      have := (peekEOF_iff src).mp hp
      rw [this] at h0
      simp at h0
  rw [tsDecryptLoop]
  simp only [hpe, readTSPacket_short src h0 h1]
  rfl

/-- The loop of `tsDecryptor.decrypt` on a frame with a wrong sync byte. -/
theorem tsDecryptLoop_sync (P : Primitives) (fuel : Nat) (dec : tsDecryptor P)
    (count : Nat) (out : List Nat) (src : Reader) (h0 : 188 ≤ src.remaining.length)
    (h1 : src.remaining.getD 0 0 ≠ tsSync) :
    tsDecryptLoop (fuel + 1) dec count out src =
      .ok (dec, { err := some (.tsPacketFailed (count + 1) (.badSync (src.remaining.getD 0 0))),
                  out := out, src := (readTSPacket src).2 }) := by
  have hpe : peekEOF src = false := by
    cases hp : peekEOF src with
    | false => rfl
    | true =>
      have := (peekEOF_iff src).mp hp
      rw [this] at h0
      simp at h0
  have hsplit : src.remaining = src.remaining.take 188 ++ src.remaining.drop 188 :=
    (List.take_append_drop 188 _).symm
  have hfl : (src.remaining.take 188).length = 188 := by
    rw [List.length_take]; omega
  have hg : (src.remaining.take 188).getD 0 0 = src.remaining.getD 0 0 := by
    simp only [List.getD_eq_getElem?_getD]
    rw [List.getElem?_take_of_lt (by omega)]
  obtain ⟨r1, -⟩ := readTSPacket_frame src _ _ hfl hsplit
  rw [hg, if_pos h1] at r1
  rw [tsDecryptLoop]
  simp only [hpe, r1]
  rfl

/-- A run of the loop that ends without error has read whole frames with the
sync byte, processed each of them without error, and found both identifiers
non-zero at the end of the input. -/
theorem tsDecryptLoop_inv (P : Primitives) :
    ∀ (fuel : Nat) (dec dec' : tsDecryptor P) (count : Nat) (out : List Nat) (src : Reader)
      (r : runResult),
      tsDecryptLoop fuel dec count out src = .ok (dec', r) → r.err = none →
      ∃ frames o, src.remaining = tsStream frames ∧
        (∀ f ∈ frames, f.content.length = 188 ∧ f.content.getD 0 0 = tsSync) ∧
        tsProcessAll dec frames = some (dec', o) ∧ r.out = out ++ o ∧
        dec'.pmtID ≠ 0 ∧ dec'.privateID ≠ 0 := by
  intro fuel
  induction fuel with
  | zero =>
    intro dec dec' count out src r h _
    simp only [tsDecryptLoop] at h
    exact absurd h (by simp)
  | succ fuel ih =>
    intro dec dec' count out src r h herr
    rw [tsDecryptLoop] at h
    by_cases hpe : peekEOF src = true
    · simp only [hpe, if_true, Except.ok.injEq, Prod.mk.injEq] at h
      obtain ⟨hd, hr⟩ := h
      subst hd
      rw [← hr] at herr
      by_cases hz : dec.pmtID = 0 ∨ dec.privateID = 0
      · simp only [hz, if_true, tsFinish] at herr
        exact absurd herr (by simp)
      · refine ⟨[], [], ?_, ?_, rfl, ?_, fun hc => hz (Or.inl hc), fun hc => hz (Or.inr hc)⟩
        · rw [(peekEOF_iff src).mp hpe]; rfl
        · intro f hf; simp at hf
        · rw [← hr]; simp
    · simp only [hpe] at h
      cases hread : (readTSPacket src).1 with
      | error e =>
        simp only [hread, Bool.false_eq_true, if_false, Except.ok.injEq, Prod.mk.injEq] at h
        rw [← h.2] at herr
        simp only [tsFinish] at herr
        exact absurd herr (by simp)
      | ok packet =>
        obtain ⟨i1, i2, i3⟩ := readTSPacket_inv src packet hread
        simp only [hread, Bool.false_eq_true, if_false] at h
        cases hp : dec.processPacket packet with
        | error x => simp only [hp] at h; exact absurd h (by simp)
        | ok res =>
          obtain ⟨dec1, p1, oe⟩ := res
          cases oe with
          | some e =>
            simp only [hp, Except.ok.injEq, Prod.mk.injEq] at h
            rw [← h.2] at herr
            simp only [tsFinish] at herr
            exact absurd herr (by simp)
          | none =>
            simp only [hp] at h
            obtain ⟨frames, o, j1, j2, j3, j4, j5, j6⟩ := ih dec1 dec' _ _ _ r h herr
            refine ⟨packet :: frames, writeTSPacket p1 ++ o, ?_, ?_, ?_, ?_, j5, j6⟩
            · rw [tsStream_cons, ← j1]; exact i3
            · intro f hf
              rcases List.mem_cons.mp hf with he | he
              · rw [he]; exact ⟨i1, i2⟩
              · exact j2 f he
            · rw [tsProcessAll, hp]
              simp only [j3]
            · rw [j4, List.append_assoc]

/-- The bytes written for frames that are all processed without error are as
many as the bytes of the frames. -/
theorem tsProcessAll_length (P : Primitives) :
    ∀ (frames : List tsPacket) (dec dec' : tsDecryptor P) (o : List Nat),
      tsProcessAll dec frames = some (dec', o) → o.length = (tsStream frames).length := by
  intro frames
  induction frames with
  | nil =>
    intro dec dec' o h
    simp only [tsProcessAll, Option.some.injEq, Prod.mk.injEq] at h
    rw [← h.2]; rfl
  | cons f fs ih =>
    intro dec dec' o h
    rw [tsProcessAll] at h
    cases hp : dec.processPacket f with
    | error x => rw [hp] at h; exact absurd h (by simp)
    | ok res =>
      obtain ⟨dec1, f1, oe⟩ := res
      cases oe with
      | some e => rw [hp] at h; exact absurd h (by simp)
      | none =>
        rw [hp] at h
        simp only at h
        cases hr : tsProcessAll dec1 fs with
        | none => rw [hr] at h; exact absurd h (by simp)
        | some r =>
          rw [hr] at h
          simp only [Option.some.injEq, Prod.mk.injEq] at h
          rw [← h.2, tsStream_cons, List.length_append, List.length_append,
            ih dec1 r.1 r.2 (by rw [hr])]
          have := ts_processPacket_length P dec dec1 f f1 none hp
          simp only [writeTSPacket]
          omega

theorem tsStream_length (frames : List tsPacket)
    (h : ∀ f ∈ frames, f.content.length = 188 ∧ f.content.getD 0 0 = tsSync) :
    (tsStream frames).length = 188 * frames.length := by
  induction frames with
  | nil => rfl
  | cons f fs ih =>
    rw [tsStream_cons, List.length_append, ih (fun g hg => h g (List.mem_cons_of_mem _ hg)),
      (h f (List.mem_cons_self _ _)).1, List.length_cons]
    ring

/-- In a stream of frames that all start with the sync byte, the byte at every
multiple of 188 is the sync byte. -/
theorem tsStream_sync :
    ∀ (frames : List tsPacket),
      (∀ f ∈ frames, f.content.length = 188 ∧ f.content.getD 0 0 = tsSync) →
      ∀ k, 188 * k < (tsStream frames).length → (tsStream frames).getD (188 * k) 0 = tsSync := by
  intro frames
  induction frames with
  | nil => intro _ k hk; simp [tsStream] at hk
  | cons f fs ih =>
    intro h k hk
    obtain ⟨hf, hs⟩ := h f (List.mem_cons_self _ _)
    rw [tsStream_cons] at hk ⊢
    cases k with
    | zero =>
      simp only [Nat.mul_zero, List.getD_eq_getElem?_getD] at hs ⊢
      rw [List.getElem?_append_left (by omega)]
      exact hs
    | succ k =>
      simp only [List.length_append, hf] at hk
      have hrec := ih (fun g hg => h g (List.mem_cons_of_mem _ hg)) k (by omega)
      simp only [List.getD_eq_getElem?_getD] at hrec ⊢
      rw [List.getElem?_append_right (by omega)]
      have e : 188 * (k + 1) - f.content.length = 188 * k := by omega
      rw [e]
      exact hrec

/-- Method `tsDecryptor.decrypt` after a sequence of frames that are all
processed without error: the loop continues on what follows them. -/
theorem ts_decrypt_after_frames (P : Primitives) (dec dec' : tsDecryptor P) (src : Reader)
    (frames : List tsPacket) (tail o : List Nat)
    (hsrc : src.remaining = tsStream frames ++ tail)
    (hgood : ∀ f ∈ frames, f.content.length = 188 ∧ f.content.getD 0 0 = tsSync)
    (hall : tsProcessAll dec frames = some (dec', o)) :
    ∃ src' fuel, src'.remaining = tail ∧
      dec.decrypt src = tsDecryptLoop (fuel + 1) dec' frames.length o src' := by
  have hlen : src.remaining.length = 188 * frames.length + tail.length := by
    rw [hsrc, List.length_append, tsStream_length frames hgood]
  obtain ⟨src', hs', hloop⟩ := tsDecryptLoop_frames P frames dec dec' 0 [] o src
    (src.remaining.length - frames.length + 1) tail hgood hall hsrc
  refine ⟨src', src.remaining.length - frames.length, hs', ?_⟩
  unfold tsDecryptor.decrypt
  have e : src.remaining.length + 1 = src.remaining.length - frames.length + 1 + frames.length := by
    omega
  rw [e, hloop]
  simp

/-- C22: `tsDecryptor.decrypt` returns no error exactly when the input is a
sequence of 188-byte frames that all start with the sync byte `47`, every frame
is processed without error, and the program-map and private-data identifiers
are both non-zero when the input ends. On success the output is as long as the
input, the input length is a multiple of 188 and every 188th byte is the sync
byte. The empty input on a decryptor that lacks an identifier gives the error
of packet 1 wrapping `io.ErrUnexpectedEOF`; after `n` frames processed without
error a trailing fragment of 1 to 187 bytes gives the error of packet `n + 1`
wrapping `io.ErrUnexpectedEOF`, and a next frame with a wrong first byte gives
the error of packet `n + 1` naming that byte. -/
theorem ts_decrypt_end_of_input (P : Primitives) (dec : tsDecryptor P) (src : Reader) :
    ((∃ dec' r, dec.decrypt src = .ok (dec', r) ∧ r.err = none) ↔
      ∃ frames, src.remaining = tsStream frames ∧
        (∀ f ∈ frames, f.content.length = 188 ∧ f.content.getD 0 0 = tsSync) ∧
        ∃ dec' o, tsProcessAll dec frames = some (dec', o) ∧
          dec'.pmtID ≠ 0 ∧ dec'.privateID ≠ 0) ∧
    (∀ dec' r, dec.decrypt src = .ok (dec', r) → r.err = none →
      r.out.length = src.remaining.length ∧ src.remaining.length % 188 = 0 ∧
      ∀ k, 188 * k < src.remaining.length → src.remaining.getD (188 * k) 0 = tsSync) ∧
    (src.remaining = [] → dec.pmtID = 0 ∨ dec.privateID = 0 →
      dec.decrypt src =
        .ok (dec, { err := some (.tsPacketFailed 1 .ErrUnexpectedEOF), out := [], src := src })) ∧
    (∀ frames tail dec' o, src.remaining = tsStream frames ++ tail →
      (∀ f ∈ frames, f.content.length = 188 ∧ f.content.getD 0 0 = tsSync) →
      tsProcessAll dec frames = some (dec', o) →
      (0 < tail.length → tail.length < 188 →
        ∃ src', dec.decrypt src =
          .ok (dec', { err := some (.tsPacketFailed (frames.length + 1) .ErrUnexpectedEOF),
                       out := o, src := src' })) ∧
      (188 ≤ tail.length → tail.getD 0 0 ≠ tsSync →
        ∃ src', dec.decrypt src =
          .ok (dec', { err := some (.tsPacketFailed (frames.length + 1)
                                (.badSync (tail.getD 0 0))),
                       out := o, src := src' }))) := by
  have hinv : ∀ dec' r, dec.decrypt src = .ok (dec', r) → r.err = none →
      ∃ frames o, src.remaining = tsStream frames ∧
        (∀ f ∈ frames, f.content.length = 188 ∧ f.content.getD 0 0 = tsSync) ∧
        tsProcessAll dec frames = some (dec', o) ∧ r.out = o ∧
        dec'.pmtID ≠ 0 ∧ dec'.privateID ≠ 0 := by
    intro dec' r h herr
    obtain ⟨frames, o, j1, j2, j3, j4, j5, j6⟩ :=
      tsDecryptLoop_inv P _ dec dec' 0 [] src r h herr
    exact ⟨frames, o, j1, j2, j3, by simpa using j4, j5, j6⟩
  refine ⟨⟨?_, ?_⟩, ?_, ?_, ?_⟩
  · rintro ⟨dec', r, h, herr⟩
    obtain ⟨frames, o, j1, j2, j3, -, j5, j6⟩ := hinv dec' r h herr
    exact ⟨frames, j1, j2, dec', o, j3, j5, j6⟩
  · rintro ⟨frames, j1, j2, dec', o, j3, j5, j6⟩
    obtain ⟨src', fuel, hs', hd⟩ := ts_decrypt_after_frames P dec dec' src frames [] o
      (by simpa using j1) j2 j3
    rw [tsDecryptLoop_end P fuel dec' _ o src' hs'] at hd
    refine ⟨dec', _, hd, ?_⟩
    have hz : ¬ (dec'.pmtID = 0 ∨ dec'.privateID = 0) := fun hc => hc.elim j5 j6
    simp only [hz, if_false, tsFinish]
  · intro dec' r h herr
    obtain ⟨frames, o, j1, j2, j3, j4, -, -⟩ := hinv dec' r h herr
    have hl := tsStream_length frames j2
    refine ⟨?_, ?_, ?_⟩
    · rw [j4, tsProcessAll_length P frames dec dec' o j3, j1]
    · rw [j1, hl]; simp
    · intro k hk
      rw [j1] at hk ⊢
      exact tsStream_sync frames j2 k hk
  · intro hempty hz
    unfold tsDecryptor.decrypt
    rw [tsDecryptLoop_end P _ dec 0 [] src hempty]
    simp only [hz, if_true, tsFinish]
  · intro frames tail dec' o hsrc hgood hall
    obtain ⟨src', fuel, hs', hd⟩ :=
      ts_decrypt_after_frames P dec dec' src frames tail o hsrc hgood hall
    constructor
    · intro h0 h1
      rw [tsDecryptLoop_fragment P fuel dec' _ o src' (by rw [hs']; exact h0)
        (by rw [hs']; exact h1)] at hd
      exact ⟨_, hd⟩
    · intro h0 h1
      rw [tsDecryptLoop_sync P fuel dec' _ o src' (by rw [hs']; exact h0)
        (by rw [hs']; exact h1), hs'] at hd
      exact ⟨_, hd⟩

set_option maxRecDepth 100000 in
/-- Witness for C22: the input `patFrame, pmtFrame` is decrypted without error
by a new decryptor, which ends with both identifiers known. -/
theorem ts_decrypt_end_of_input_witness :
    ∃ dec' r, (newTSDecryptor countingPrimitives [0x31] [0x02]).decrypt
        [tsStream [patFrame, pmtFrame]] = .ok (dec', r) ∧ r.err = none :=
  (ts_decrypt_end_of_input countingPrimitives (newTSDecryptor countingPrimitives [0x31] [0x02])
    [tsStream [patFrame, pmtFrame]]).1.mpr
    ⟨[patFrame, pmtFrame], by decide, by decide, tsReady, _, rfl, by decide, by decide⟩

/-! ### Frames that pass through -/

/-- Method `tsPacket.id` returns on every frame of at least 3 bytes. -/
theorem ts_id_ok (p : tsPacket) (hlen : 3 ≤ p.content.length) : ∃ id, p.id = .ok id := by
  have h := slice_two p.content 1 (by omega)
  refine ⟨(((p.content.getD 1 0 <<< 8) % 65536) ||| p.content.getD 2 0) &&& tsIDMask, ?_⟩
  simp only [tsPacket.id, h, bind, Except.bind, extractPacketID, joinShort, pure, Except.pure]

/-- C23: on every frame `processPacket` dispatches on the identifier: a frame
on identifier 0, on the program-map id or on the private-data id goes to the
table parser only, whatever its scramble bits, and is returned as it was; a
frame on another identifier with zero scramble field is returned as it was
together with the unchanged decryptor and no error. So whenever `processPacket`
returns, the frame is byte for byte the one it was given unless its identifier
is none of the three and its scramble field is non-zero. -/
theorem ts_processPacket_passthrough (P : Primitives) (dec : tsDecryptor P) (p : tsPacket)
    (hlen : 3 ≤ p.content.length) :
    ∃ id, p.id = .ok id ∧
      (id = tsPatID →
        dec.processPacket p = (fun r => (r.1, p, r.2)) <$> dec.processPAT p) ∧
      (id ≠ tsPatID → id = dec.pmtID →
        dec.processPacket p = (fun r => (r.1, p, r.2)) <$> dec.processPMT p) ∧
      (id ≠ tsPatID → id ≠ dec.pmtID → id = dec.privateID →
        dec.processPacket p = (fun r => (r.1, p, r.2)) <$> dec.processPrivate p) ∧
      (id ≠ tsPatID → id ≠ dec.pmtID → id ≠ dec.privateID → p.scramble = 0 →
        dec.processPacket p = .ok (dec, p, none)) ∧
      (∀ dec' p' e, dec.processPacket p = .ok (dec', p', e) →
        id = tsPatID ∨ id = dec.pmtID ∨ id = dec.privateID ∨ p.scramble = 0 → p' = p) := by
  obtain ⟨id, hid⟩ := ts_id_ok p hlen
  have hpat : id = tsPatID →
      dec.processPacket p = (fun r => (r.1, p, r.2)) <$> dec.processPAT p := by
    intro h
    simp only [tsDecryptor.processPacket, hid, bind, Except.bind, if_pos h]
    cases dec.processPAT p <;> rfl
  have hpmt : id ≠ tsPatID → id = dec.pmtID →
      dec.processPacket p = (fun r => (r.1, p, r.2)) <$> dec.processPMT p := by
    intro h0 h
    simp only [tsDecryptor.processPacket, hid, bind, Except.bind, if_neg h0, if_pos h]
    cases dec.processPMT p <;> rfl
  have hpriv : id ≠ tsPatID → id ≠ dec.pmtID → id = dec.privateID →
      dec.processPacket p = (fun r => (r.1, p, r.2)) <$> dec.processPrivate p := by
    intro h0 h1 h
    simp only [tsDecryptor.processPacket, hid, bind, Except.bind, if_neg h0, if_neg h1, if_pos h]
    cases dec.processPrivate p <;> rfl
  have hclear : id ≠ tsPatID → id ≠ dec.pmtID → id ≠ dec.privateID → p.scramble = 0 →
      dec.processPacket p = .ok (dec, p, none) := by
    intro h0 h1 h2 hs
    simp only [tsDecryptor.processPacket, hid, bind, Except.bind, if_neg h0, if_neg h1,
      if_neg h2, hs, ne_eq, not_true_eq_false, if_false, pure, Except.pure]
  refine ⟨id, hid, hpat, hpmt, hpriv, hclear, ?_⟩
  intro dec' p' e h hcase
  have hmap : ∀ (x : Except Panic (tsDecryptor P × Option GoError)),
      (fun r => (r.1, p, r.2)) <$> x = .ok (dec', p', e) → p' = p := by
    intro x hx
    cases x with
    | error y => exact absurd hx (by simp [Functor.map, Except.map])
    | ok r =>
      simp only [Functor.map, Except.map, Except.ok.injEq, Prod.mk.injEq] at hx
      exact hx.2.1.symm
  by_cases h0 : id = tsPatID
  · rw [hpat h0] at h; exact hmap _ h
  · by_cases h1 : id = dec.pmtID
    · rw [hpmt h0 h1] at h; exact hmap _ h
    · by_cases h2 : id = dec.privateID
      · rw [hpriv h0 h1 h2] at h; exact hmap _ h
      · have hs : p.scramble = 0 := by
          rcases hcase with hc | hc | hc | hc
          · exact absurd hc h0
          · exact absurd hc h1
          · exact absurd hc h2
          · exact hc
        rw [hclear h0 h1 h2 hs] at h
        simp only [Except.ok.injEq, Prod.mk.injEq] at h
        exact h.2.1.symm

set_option maxRecDepth 100000 in
/-- Witness for C23: the frame `scrambledPatFrame` on identifier 0 has scramble
field 3 and is returned unchanged, with the program-map identifier learnt; the
frame `clearFrame` on identifier `0100` with scramble field 0 leaves frame and
decryptor unchanged. -/
theorem ts_processPacket_passthrough_witness :
    scrambledPatFrame.scramble = 3 ∧
    (∃ id, scrambledPatFrame.id = .ok id ∧
      (id = tsPatID →
        tsKeyed.processPacket scrambledPatFrame
          = (fun r => (r.1, scrambledPatFrame, r.2)) <$> tsKeyed.processPAT scrambledPatFrame)) ∧
    (∃ id, clearFrame.id = .ok id ∧
      (id ≠ tsPatID → id ≠ tsKeyed.pmtID → id ≠ tsKeyed.privateID → clearFrame.scramble = 0 →
        tsKeyed.processPacket clearFrame = .ok (tsKeyed, clearFrame, none))) :=
  ⟨by decide,
   (ts_processPacket_passthrough countingPrimitives tsKeyed scrambledPatFrame (by decide)).imp
     (fun _ h => ⟨h.1, h.2.1⟩),
   (ts_processPacket_passthrough countingPrimitives tsKeyed clearFrame (by decide)).imp
     (fun _ h => ⟨h.1, h.2.2.2.2.1⟩)⟩

/-! ### The structural skip -/

/-- Function `joinWord` on four bytes is the 32-bit big-endian value. -/
theorem joinWord_bytes (a b c d : Nat) (ha : a < 256) (hb : b < 256) (hc : c < 256)
    (hd : d < 256) :
    joinWord [a, b, c, d] = .ok (((a * 256 + b) * 256 + c) * 256 + d) := by
  have h1 := Nat.mul_add_lt_is_or (show b * 65536 < 2 ^ 24 by omega) a
  have h2 := Nat.mul_add_lt_is_or (show c * 256 < 2 ^ 16 by omega) (a * 256 + b)
  have h3 := Nat.mul_add_lt_is_or (show d < 2 ^ 8 by omega) ((a * 256 + b) * 256 + c)
  have e1 : (a <<< 24) % 4294967296 = 2 ^ 24 * a := by
    rw [Nat.shiftLeft_eq, Nat.mod_eq_of_lt (by omega)]; ring
  have e2 : (b <<< 16) % 4294967296 = b * 65536 := by
    rw [Nat.shiftLeft_eq, Nat.mod_eq_of_lt (by omega)]
  have e3 : (c <<< 8) % 4294967296 = c * 256 := by
    rw [Nat.shiftLeft_eq, Nat.mod_eq_of_lt (by omega)]
  have f1 : 2 ^ 24 * a + b * 65536 = 2 ^ 16 * (a * 256 + b) := by ring
  have f2 : 2 ^ 16 * (a * 256 + b) + c * 256 = 2 ^ 8 * ((a * 256 + b) * 256 + c) := by ring
  have f3 : 2 ^ 8 * ((a * 256 + b) * 256 + c) + d = ((a * 256 + b) * 256 + c) * 256 + d := by
    ring
  simp only [joinWord]
  rw [e1, e2, e3, ← h1, f1, ← h2, f2, ← h3, f3]

theorem bytesAt_eq (payload : List Nat) (o : Nat) (h : o + 4 ≤ payload.length) :
    bytesAt payload o
      = [payload.getD o 0, payload.getD (o + 1) 0, payload.getD (o + 2) 0,
          payload.getD (o + 3) 0] := by
  have hs := slice_four payload o h
  unfold slice at hs
  rw [if_pos ⟨by omega, h⟩] at hs
  simp only [Except.ok.injEq] at hs
  rw [← hs, bytesAt, List.take_drop]

theorem bytesAt_length (payload : List Nat) (o : Nat) (h : ¬ o + 4 ≤ payload.length) :
    (bytesAt payload o).length < 4 := by
  simp only [bytesAt, List.length_take, List.length_drop]
  omega

/-- The value of `joinWord(payload[o:o+4])` on a byte payload that holds the
four bytes. -/
theorem wordAt_bytes (payload : List Nat) (hb : isBytes payload) (o : Nat)
    (h : o + 4 ≤ payload.length) :
    wordAt payload o
      = .ok (((payload.getD o 0 * 256 + payload.getD (o + 1) 0) * 256
          + payload.getD (o + 2) 0) * 256 + payload.getD (o + 3) 0) := by
  simp only [wordAt, slice_four payload o h, bind, Except.bind]
  exact joinWord_bytes _ _ _ _ (isBytes_getD payload hb _) (isBytes_getD payload hb _)
    (isBytes_getD payload hb _) (isBytes_getD payload hb _)

/-- The comparison of `joinWord(payload[o:o+4])` with a start code is the
comparison of the four bytes with `00 00 01 id`. -/
theorem wordAt_code (payload : List Nat) (hb : isBytes payload) (o : Nat)
    (h : o + 4 ≤ payload.length) (id : Nat) (hid : id < 256) :
    ∃ w, wordAt payload o = .ok w ∧ (w = psCode id ↔ bytesAt payload o = [0x00, 0x00, 0x01, id]) := by
  refine ⟨_, wordAt_bytes payload hb o h, ?_⟩
  have hc : psCode id = 256 + id := by
    have := Nat.mul_add_lt_is_or (show id < 2 ^ 8 by omega) 1
    simp only [psCode, psPrefix]
    rw [show ((1 : Nat) <<< 8) % 4294967296 = 2 ^ 8 * 1 by rfl, ← this]
  have b0 := isBytes_getD payload hb o
  have b1 := isBytes_getD payload hb (o + 1)
  have b2 := isBytes_getD payload hb (o + 2)
  have b3 := isBytes_getD payload hb (o + 3)
  rw [hc, bytesAt_eq payload o h]
  constructor
  · intro hw
    have e0 : payload.getD o 0 = 0 := by omega
    have e1 : payload.getD (o + 1) 0 = 0 := by omega
    have e2 : payload.getD (o + 2) 0 = 1 := by omega
    have e3 : payload.getD (o + 3) 0 = id := by omega
    rw [e0, e1, e2, e3]
  · intro hl
    simp only [List.cons.injEq, and_true] at hl
    obtain ⟨e0, e1, e2, e3⟩ := hl
    rw [e0, e1, e2, e3]

theorem afterMatrices_ge (payload : List Nat) (off : Nat) :
    off + 12 ≤ afterMatrices payload off := by
  unfold afterMatrices; omega

theorem afterExtension_ge (payload : List Nat) (off : Nat) :
    off ≤ afterExtension payload off := by
  unfold afterExtension; split_ifs <;> omega

theorem skipSequence_le (payload : List Nat) :
    ∀ fuel off, off ≤ skipSequence payload fuel off := by
  intro fuel
  induction fuel with
  | zero => intro off; exact Nat.le_refl _
  | succ fuel ih =>
    intro off
    rw [skipSequence]
    by_cases hm : bytesAt payload off = [0x00, 0x00, 0x01, 0xb3]
    · rw [if_pos hm]
      have h1 := afterMatrices_ge payload off
      have h2 := afterExtension_ge payload (afterMatrices payload off)
      have h3 := ih (afterExtension payload (afterMatrices payload off))
      omega
    · rw [if_neg hm]

set_option maxRecDepth 100000 in
theorem intrabyte_bits : ∀ b, b < 256 →
    (b &&& (1 <<< 1) ≠ 0 ↔ b / 2 % 2 = 1) ∧ (b &&& (1 <<< 0) ≠ 0 ↔ b % 2 = 1) := by
  decide

/-- The offset after the quantiser matrices, as the code computes it. -/
theorem matrix_skip (b off : Nat) (hb : b < 256) :
    (if b &&& (1 <<< 0) ≠ 0
      then (if b &&& (1 <<< 1) ≠ 0 then off + 12 + 64 else off + 12) + 64
      else (if b &&& (1 <<< 1) ≠ 0 then off + 12 + 64 else off + 12))
      = off + 12 + 64 * (b / 2 % 2) + 64 * (b % 2) := by
  obtain ⟨h1, h0⟩ := intrabyte_bits b hb
  have m1 : b / 2 % 2 = 0 ∨ b / 2 % 2 = 1 := by omega
  have m0 : b % 2 = 0 ∨ b % 2 = 1 := by omega
  by_cases c1 : b &&& (1 <<< 1) ≠ 0
  · by_cases c0 : b &&& (1 <<< 0) ≠ 0
    · rw [if_pos c0, if_pos c1, h1.mp c1, h0.mp c0]
    · have : b % 2 = 0 := by
        rcases m0 with h | h
        · exact h
        · exact absurd (h0.mpr h) c0
      rw [if_neg c0, if_pos c1, h1.mp c1, this]
  · have e1 : b / 2 % 2 = 0 := by
      rcases m1 with h | h
      · exact h
      · exact absurd (h1.mpr h) c1
    by_cases c0 : b &&& (1 <<< 0) ≠ 0
    · rw [if_pos c0, if_neg c1, e1, h0.mp c0]
    · have : b % 2 = 0 := by
        rcases m0 with h | h
        · exact h
        · exact absurd (h0.mpr h) c0
      rw [if_neg c0, if_neg c1, e1, this]

/-- The sequence-header loop of `decryptPacket` computes the `while` of the
specification when the offset it ends at leaves four bytes to read. -/
theorem sequenceLoop_spec (payload : List Nat) (hb : isBytes payload) :
    ∀ fuel off, skipSequence payload fuel off + 4 ≤ payload.length →
      payload.length < off + 12 * fuel →
      sequenceLoop payload fuel off = .ok (skipSequence payload fuel off) := by
  intro fuel
  induction fuel with
  | zero =>
    intro off hin hfuel
    have := skipSequence_le payload 0 off
    omega
  | succ fuel ih =>
    intro off hin hfuel
    have hmono := skipSequence_le payload (fuel + 1) off
    obtain ⟨w, hw, hiff⟩ := wordAt_code payload hb off (by omega) 0xb3 (by omega)
    rw [sequenceLoop]
    by_cases hm : bytesAt payload off = [0x00, 0x00, 0x01, 0xb3]
    · have hweq : w = psCode psSequenceHeader := hiff.mpr hm
      rw [skipSequence, if_pos hm] at hin ⊢
      have g1 := afterMatrices_ge payload off
      have g2 := afterExtension_ge payload (afterMatrices payload off)
      have g3 := skipSequence_le payload fuel (afterExtension payload (afterMatrices payload off))
      have hb11 := isBytes_getD payload hb (off + 11)
      have hms : (if payload.getD (off + 11) 0 &&& (1 <<< 0) ≠ 0
          then (if payload.getD (off + 11) 0 &&& (1 <<< 1) ≠ 0 then off + 12 + 64 else off + 12)
            + 64
          else (if payload.getD (off + 11) 0 &&& (1 <<< 1) ≠ 0 then off + 12 + 64
            else off + 12)) = afterMatrices payload off :=
        matrix_skip (payload.getD (off + 11) 0) off hb11
      obtain ⟨w', hw', hiff'⟩ := wordAt_code payload hb (afterMatrices payload off)
        (by omega) 0xb5 (by omega)
      have hi := index_getD payload (off + 11) (by omega)
      have hext : (if w' = psCode psSequenceExtension then afterMatrices payload off + 10
          else afterMatrices payload off) = afterExtension payload (afterMatrices payload off) := by
        unfold afterExtension
        by_cases hx : bytesAt payload (afterMatrices payload off) = [0x00, 0x00, 0x01, 0xb5]
        · rw [if_pos hx, if_pos (show w' = psCode psSequenceExtension from hiff'.mpr hx)]
        · rw [if_neg hx,
            if_neg (show ¬ w' = psCode psSequenceExtension from fun hc => hx (hiff'.mp hc))]
      simp only [hw, hweq, bind, Except.bind, if_true, hi, hms, hw', hext]
      exact ih _ hin (by omega)
    · have hwne : ¬ w = psCode psSequenceHeader := fun hc => hm (hiff.mp hc)
      rw [skipSequence, if_neg hm]
      simp only [hw, bind, Except.bind, if_neg hwne, pure, Except.pure]

/-- The `while` of the specification has ended when its rounds are not used
up: no sequence-header start code is at the offset it returns. -/
theorem skipSequence_exit (payload : List Nat) :
    ∀ fuel off, payload.length < off + 12 * fuel →
      bytesAt payload (skipSequence payload fuel off) ≠ [0x00, 0x00, 0x01, 0xb3] := by
  intro fuel
  induction fuel with
  | zero =>
    intro off hfuel hc
    have hl := bytesAt_length payload off (by omega)
    rw [skipSequence] at hc
    rw [hc] at hl
    simp at hl
  | succ fuel ih =>
    intro off hfuel
    rw [skipSequence]
    by_cases hm : bytesAt payload off = [0x00, 0x00, 0x01, 0xb3]
    · rw [if_pos hm]
      apply ih
      have h1 := afterMatrices_ge payload off
      have h2 := afterExtension_ge payload (afterMatrices payload off)
      omega
    · rw [if_neg hm]
      exact hm

theorem take_three (payload : List Nat) (h : 3 ≤ payload.length) :
    payload.take 3 = [payload.getD 0 0, payload.getD 1 0, payload.getD 2 0] := by
  have hs := slice_getD payload 0 3 (by omega)
  unfold slice at hs
  rw [if_pos ⟨by omega, by omega⟩] at hs
  simp only [Except.ok.injEq, Nat.zero_add, List.drop_zero] at hs
  rw [hs]
  rfl

/-- The decrypt offset of `decryptPacket` on a payload that starts a PES unit
is the offset of the specification, when the skip stays within the payload. -/
theorem decryptOffset_skip (p : tsPacket) (payload : List Nat) (hb : isBytes payload)
    (hstart : p.payloadStart = true) (hpre : payload.take 3 = [0x00, 0x00, 0x01])
    (hin1 : skipSequence payload (payload.length + 1) (9 + payload.getD 8 0) + 4
      ≤ payload.length)
    (hin2 : skipOffset payload ≤ payload.length) :
    decryptOffset p payload = .ok (skipOffset payload) := by
  have hmono := skipSequence_le payload (payload.length + 1) (9 + payload.getD 8 0)
  have ht := take_three payload (by omega)
  rw [hpre] at ht
  simp only [List.cons.injEq, and_true] at ht
  obtain ⟨t0, t1, t2⟩ := ht
  have hw := wordAt_bytes payload hb 0 (by omega)
  simp only [Nat.zero_add, ← t0, ← t1, ← t2] at hw
  have b3 := isBytes_getD payload hb 3
  have hpfx : (((0 * 256 + 0) * 256 + 1) * 256 + payload.getD 3 0) >>> 8 = psPrefix := by
    rw [Nat.shiftRight_eq_div_pow]
    simp only [psPrefix]
    omega
  have hi := index_getD payload 8 (by omega)
  have hseq := sequenceLoop_spec payload hb (payload.length + 1) (9 + payload.getD 8 0) hin1
    (by omega)
  obtain ⟨w, hw8, hiff⟩ := wordAt_code payload hb
    (skipSequence payload (payload.length + 1) (9 + payload.getD 8 0)) hin1 0xb8 (by omega)
  have e9 : 8 + 1 + payload.getD 8 0 = 9 + payload.getD 8 0 := by omega
  have hgrp : (if w = psCode psGroupHeader
        then skipSequence payload (payload.length + 1) (9 + payload.getD 8 0) + 8
        else skipSequence payload (payload.length + 1) (9 + payload.getD 8 0))
      = skipOffset payload := by
    unfold skipOffset
    simp only
    by_cases hx : bytesAt payload (skipSequence payload (payload.length + 1)
        (9 + payload.getD 8 0)) = [0x00, 0x00, 0x01, 0xb8]
    · rw [if_pos hx, if_pos (show w = psCode psGroupHeader from hiff.mpr hx)]
    · rw [if_neg hx, if_neg (show ¬ w = psCode psGroupHeader from fun hc => hx (hiff.mp hc))]
  have hsl : sliceFrom payload (skipOffset payload) = .ok (payload.drop (skipOffset payload)) := by
    unfold sliceFrom
    rw [if_pos hin2]
  simp only [decryptOffset, hstart, if_true, hw, bind, Except.bind, hpfx, hi, e9, hseq, hw8,
    hgrp, hsl, pure, Except.pure]

/-- The decrypt offset of `decryptPacket` is 0 when the payload-start flag is
clear or the payload does not begin with `00 00 01`. -/
theorem decryptOffset_whole (p : tsPacket) (payload : List Nat) (hb : isBytes payload)
    (h : p.payloadStart = false ∨ (4 ≤ payload.length ∧ payload.take 3 ≠ [0x00, 0x00, 0x01])) :
    decryptOffset p payload = .ok 0 := by
  cases hs : p.payloadStart with
  | false => simp only [decryptOffset, hs, Bool.false_eq_true, if_false, pure, Except.pure]
  | true =>
    rcases h with h | ⟨hlen, hne⟩
    · rw [hs] at h; exact absurd h (by simp)
    · have hw := wordAt_bytes payload hb 0 hlen
      simp only [Nat.zero_add] at hw
      have ht := take_three payload (by omega)
      have b0 := isBytes_getD payload hb 0
      have b1 := isBytes_getD payload hb 1
      have b2 := isBytes_getD payload hb 2
      have b3 := isBytes_getD payload hb 3
      have hpfx : ¬ (((payload.getD 0 0 * 256 + payload.getD 1 0) * 256 + payload.getD 2 0) * 256
          + payload.getD 3 0) >>> 8 = psPrefix := by
        rw [Nat.shiftRight_eq_div_pow]
        simp only [psPrefix]
        intro hc
        apply hne
        have e0 : payload.getD 0 0 = 0 := by omega
        have e1 : payload.getD 1 0 = 0 := by omega
        have e2 : payload.getD 2 0 = 1 := by omega
        rw [ht, e0, e1, e2]
      simp only [decryptOffset, hs, if_true, hw, bind, Except.bind, if_neg hpfx, pure,
        Except.pure]

/-- The bytes of a frame after `decryptPacket` has XORed it from offset `s` on
and toggled the scramble bits, for `s` behind the 4-byte header. -/
theorem ts_decrypted_bytes (P : Primitives) (st : P.State) (content : List Nat) (s : Nat)
    (hs4 : 4 ≤ s) (hsl : s ≤ content.length) :
    (tsPacket.clearScramble
      { content := content.take s ++ List.zipWith (fun b k => b ^^^ k) (content.drop s)
          (keystream P st (content.length - s)) }).content.length = content.length ∧
    (∀ i, i < s → i ≠ 3 →
      (tsPacket.clearScramble
        { content := content.take s ++ List.zipWith (fun b k => b ^^^ k) (content.drop s)
            (keystream P st (content.length - s)) }).content[i]? = content[i]?) ∧
    (tsPacket.clearScramble
      { content := content.take s ++ List.zipWith (fun b k => b ^^^ k) (content.drop s)
          (keystream P st (content.length - s)) }).content[3]?
      = (content[3]?).map (fun x => x ^^^ 0xc0) ∧
    (∀ i, s ≤ i → i < content.length →
      (tsPacket.clearScramble
        { content := content.take s ++ List.zipWith (fun b k => b ^^^ k) (content.drop s)
            (keystream P st (content.length - s)) }).content[i]?
        = (content[i]?).map (fun x => x ^^^ keyByte P st (i - s))) := by
  have hlenZ : (List.zipWith (fun b k => b ^^^ k) (content.drop s)
      (keystream P st (content.length - s))).length = content.length - s := by
    simp only [List.length_zipWith, List.length_drop, keystream_length]
    omega
  have hlenX : (content.take s ++ List.zipWith (fun b k => b ^^^ k) (content.drop s)
      (keystream P st (content.length - s))).length = content.length := by
    simp only [List.length_append, List.length_take, hlenZ]
    omega
  have h3 : (content.take s ++ List.zipWith (fun b k => b ^^^ k) (content.drop s)
      (keystream P st (content.length - s)))[3]? = content[3]? := by
    rw [List.getElem?_append_left (by rw [List.length_take]; omega),
      List.getElem?_take_of_lt (by omega)]
  refine ⟨?_, ?_, ?_, ?_⟩
  · rw [ts_clearScramble_length]
    exact hlenX
  · intro i hi hne
    simp only [tsPacket.clearScramble]
    rw [List.getElem?_set_ne (by omega),
      List.getElem?_append_left (by rw [List.length_take]; omega),
      List.getElem?_take_of_lt hi]
  · simp only [tsPacket.clearScramble]
    rw [List.getElem?_set_self (by rw [hlenX]; omega), List.getD_eq_getElem?_getD, h3,
      List.getElem?_eq_getElem (show 3 < content.length by omega)]
    rfl
  · intro i hi1 hi2
    simp only [tsPacket.clearScramble]
    rw [List.getElem?_set_ne (by omega),
      List.getElem?_append_right (by rw [List.length_take]; omega),
      List.length_take, Nat.min_eq_left hsl, List.getElem?_zipWith, List.getElem?_drop,
      keystream_getElem? P _ st _ (by omega),
      show s + (i - s) = i from by omega]
    cases content[i]? <;> rfl

/-- A payload that starts a PES unit lies behind the 4-byte header of a frame
that begins with the sync byte. -/
theorem ts_payloadOffset_ge (p : tsPacket) (payload : List Nat)
    (hlen : p.content.length = 188) (hsync : p.content.getD 0 0 = tsSync)
    (hp : p.payload = .ok payload) (hstart : p.payloadStart = true)
    (hpre : payload.take 3 = [0x00, 0x00, 0x01]) : 4 ≤ p.payloadOffset := by
  by_contra hlt
  have hpl : payload = p.content.drop p.payloadOffset := by
    simp only [tsPacket.payload, sliceFrom] at hp
    rw [if_pos (by omega)] at hp
    exact (Except.ok.inj hp).symm
  have ht := take_three payload (by rw [hpl, List.length_drop]; omega)
  rw [hpre] at ht
  simp only [List.cons.injEq, and_true] at ht
  obtain ⟨t0, t1, t2⟩ := ht
  have hg : ∀ j, payload.getD j 0 = p.content.getD (p.payloadOffset + j) 0 := by
    intro j
    rw [hpl]
    simp only [List.getD_eq_getElem?_getD, List.getElem?_drop]
  rw [hg] at t0 t1 t2
  have hcases : p.payloadOffset = 0 ∨ p.payloadOffset = 1 ∨ p.payloadOffset = 2
      ∨ p.payloadOffset = 3 := by omega
  rcases hcases with h | h | h | h
  · rw [h] at t0
    simp only [Nat.zero_add] at t0
    rw [hsync] at t0
    exact absurd t0 (by decide)
  · rw [h] at t0
    simp only [tsPacket.payloadStart, ← t0] at hstart
    exact absurd hstart (by decide)
  · rw [h] at t2
    have hpo := h
    simp only [tsPacket.payloadOffset, ← t2] at hpo
    split_ifs at hpo
    · exact absurd hpo (by decide)
    · exact absurd hpo (by decide)
  · rw [h] at t0
    have hpo := h
    have hna : p.hasAdaptation = false := by
      simp only [tsPacket.hasAdaptation, ← t0]
      decide
    simp only [tsPacket.payloadOffset, hna, Bool.false_eq_true, if_false] at hpo
    exact absurd hpo (by decide)

/-- The structural skip within the payload: `decryptPacket` on a frame that
begins with the sync byte, for whose
identifier a cipher is mapped, with payload `P`. When the payload-start flag is
set and `P[0..2] = 00 00 01`, with `off` the offset of the specification
(`skipOffset`: `9 + P[8]`, then while `00 00 01 b3` is at `off` the sequence
header, its matrices and a following `00 00 01 b5` extension are skipped, then
8 more for `00 00 01 b8`) and the skip staying within the payload, it succeeds:
the `while` has ended, every frame byte before `P[off]` is unchanged except
byte 3, whose two top bits are toggled, every byte `P[j]` with `j ≥ off` is
XORed with key stream byte `j - off` of the cipher, and the cipher has advanced
by `len(P) - off`. When the flag is clear or the payload begins otherwise, the
whole payload is XORed. -/
theorem ts_decryptPacket_skip (P : Primitives) (dec : tsDecryptor P) (p : tsPacket)
    (pid c : Nat) (st : P.State) (payload : List Nat)
    (hlen : p.content.length = 188) (hb : isBytes p.content)
    (hsync : p.content.getD 0 0 = tsSync)
    (hid : p.id = .ok pid) (hc : mapGet dec.ciphers pid = some c)
    (hst : dec.pool.heap.get? c = some st) (hp : p.payload = .ok payload) :
    (p.payloadStart = true → payload.take 3 = [0x00, 0x00, 0x01] →
      skipSequence payload (payload.length + 1) (9 + payload.getD 8 0) + 4 ≤ payload.length →
      skipOffset payload ≤ payload.length →
      ∃ dec' p', dec.decryptPacket p = .ok (dec', p', none) ∧
        bytesAt payload (skipSequence payload (payload.length + 1) (9 + payload.getD 8 0))
          ≠ [0x00, 0x00, 0x01, 0xb3] ∧
        p'.content.length = 188 ∧
        (∀ i, i < p.payloadOffset + skipOffset payload → i ≠ 3 →
          p'.content[i]? = p.content[i]?) ∧
        p'.content[3]? = (p.content[3]?).map (fun x => x ^^^ 0xc0) ∧
        (∀ j, skipOffset payload ≤ j → j < payload.length →
          p'.content[p.payloadOffset + j]?
            = (payload[j]?).map (fun x => x ^^^ keyByte P st (j - skipOffset payload))) ∧
        dec'.pool.heap.get? c = some (advance P st (payload.length - skipOffset payload)) ∧
        dec'.ciphers = dec.ciphers) ∧
    (p.payloadStart = false ∨ (4 ≤ payload.length ∧ payload.take 3 ≠ [0x00, 0x00, 0x01]) →
      dec.decryptPacket p =
        .ok ({ dec with pool := { dec.pool with
                  heap := dec.pool.heap.set c (advance P st payload.length) } },
             tsPacket.clearScramble
               { content := p.content.take p.payloadOffset ++
                   List.zipWith (fun b k => b ^^^ k) payload (keystream P st payload.length) },
             none)) := by
  have hpo : p.payloadOffset ≤ p.content.length := by
    by_contra hc'
    simp only [tsPacket.payload, sliceFrom, if_neg hc'] at hp
    exact absurd hp (by simp)
  have hpl : payload = p.content.drop p.payloadOffset := by
    simp only [tsPacket.payload, sliceFrom] at hp
    rw [if_pos hpo] at hp
    exact (Except.ok.inj hp).symm
  have hpll : payload.length = p.content.length - p.payloadOffset := by
    rw [hpl, List.length_drop]
  have hbp : isBytes payload := by
    rw [hpl]; exact isBytes_drop _ _ hb
  constructor
  · intro hstart hpre hin1 hin2
    have hoff := decryptOffset_skip p payload hbp hstart hpre hin1 hin2
    have hge := ts_payloadOffset_ge p payload hlen hsync hp hstart hpre
    have heq := ts_decryptPacket_eq P dec p pid c st payload (skipOffset payload) hid hc hst hp
      hoff
    obtain ⟨q1, q2, q3, q4⟩ := ts_decrypted_bytes P st p.content
      (p.payloadOffset + skipOffset payload) (by omega) (by omega)
    refine ⟨_, _, heq, ?_, ?_, q2, q3, ?_, ?_, rfl⟩
    · exact skipSequence_exit payload _ _ (by omega)
    · rw [q1, hlen]
    · intro j hj1 hj2
      have hgj : payload[j]? = p.content[p.payloadOffset + j]? := by
        rw [hpl, List.getElem?_drop]
      have e : p.payloadOffset + j - (p.payloadOffset + skipOffset payload)
          = j - skipOffset payload := by omega
      rw [q4 (p.payloadOffset + j) (by omega) (by omega), hgj, e]
    · have e2 : p.content.length - (p.payloadOffset + skipOffset payload)
          = payload.length - skipOffset payload := by omega
      show (dec.pool.heap.set c _).get? c = _
      rw [List.get?_eq_getElem?, List.getElem?_set_self (get?_lt _ _ _ hst), e2]
  · intro hcase
    have hoff := decryptOffset_whole p payload hbp hcase
    have heq := ts_decryptPacket_eq P dec p pid c st payload 0 hid hc hst hp hoff
    rw [Nat.add_zero, ← hpl, ← hpll] at heq
    exact heq

set_option maxRecDepth 100000 in
/-- Evaluation of `ts_decryptPacket_skip`: in `pesFrame` the offset of the specification is 105
(9 + 2, a sequence header with one matrix, a sequence extension, a group
header); `decryptPacket` succeeds and toggles the scramble bits of byte 3. -/
theorem ts_decryptPacket_skip_witness :
    skipOffset (pesFrame.content.drop 4) = 105 ∧
    ∃ dec' p', tsKeyed.decryptPacket pesFrame = .ok (dec', p', none) ∧
      p'.content.length = 188 ∧
      p'.content[3]? = (pesFrame.content[3]?).map (fun x => x ^^^ 0xc0) ∧
      dec'.pool.heap.get? 0
        = some (advance countingPrimitives (4250 : Nat)
            ((pesFrame.content.drop 4).length - skipOffset (pesFrame.content.drop 4))) := by
  refine ⟨by decide, ?_⟩
  obtain ⟨dec', p', h1, -, h3, -, h5, -, h7, -⟩ :=
    (ts_decryptPacket_skip countingPrimitives tsKeyed pesFrame 0x100 0 4250
      (pesFrame.content.drop 4) (by decide) (by decide) (by decide) (by decide) (by decide)
      (by decide) (by decide)).1 (by decide) (by decide) (by decide) (by decide)
  exact ⟨dec', p', h1, h3, h5, h7⟩

/-! ### The confounder input of a PS packet -/

set_option maxRecDepth 1000000 in
/-- The loop over `flagLengths` computes the offset of the specification,
which lies between 3 and 27. -/
theorem privateOffset_spec : ∀ flags, flags < 256 →
    privateOffset flags = specPrivateOffset flags ∧ 3 ≤ privateOffset flags ∧
    privateOffset flags ≤ 27 := by
  decide

/-- Method `privateData` on a packet of at least 3 content bytes. -/
theorem privateData_eq (packet : psPacket) (hlen : 3 ≤ packet.content.length) :
    packet.privateData =
      if privateOffset (packet.content.getD 1 0) ≤ packet.content.getD 2 0 ∧
          packet.content.getD 2 0 ≤ packet.content.length
      then .ok { store := packet.content.drop (privateOffset (packet.content.getD 1 0)),
                 len := packet.content.getD 2 0 - privateOffset (packet.content.getD 1 0) }
      else .error .sliceBoundsOutOfRange := by
  have h1 := index_getD packet.content 1 (by omega)
  have h2 := index_getD packet.content 2 (by omega)
  simp only [psPacket.privateData, h1, h2, bind, Except.bind, Nat.add_sub_cancel, pure,
    Except.pure]

/-- Method `privateData` faults on a packet of fewer than 3 content bytes. -/
theorem privateData_short (packet : psPacket) (hlen : packet.content.length < 3) :
    ∃ e, packet.privateData = .error e := by
  by_cases h1 : 1 < packet.content.length
  · have i1 := index_getD packet.content 1 h1
    have i2 : index packet.content 2 = .error .indexOutOfRange := by
      simp only [index, List.get?_eq_getElem?]
      rw [List.getElem?_eq_none (by omega)]
    exact ⟨.indexOutOfRange, by simp only [psPacket.privateData, i1, i2, bind, Except.bind]⟩
  · have i1 : index packet.content 1 = .error .indexOutOfRange := by
      simp only [index, List.get?_eq_getElem?]
      rw [List.getElem?_eq_none (by omega)]
    exact ⟨.indexOutOfRange, by simp only [psPacket.privateData, i1, bind, Except.bind]⟩

/-- The re-slice `[1:5]` of a slice whose backing store holds at least 5
bytes. -/
theorem reslice_eq (content : List Nat) (off n : Nat) (h : off + 5 ≤ content.length) :
    CapSlice.reslice { store := content.drop off, len := n } 1 5
      = .ok [content.getD (off + 1) 0, content.getD (off + 2) 0, content.getD (off + 3) 0,
          content.getD (off + 4) 0] := by
  have hs := slice_four (content.drop off) 1 (by rw [List.length_drop]; omega)
  have hg : ∀ j, (content.drop off).getD j 0 = content.getD (off + j) 0 := by
    intro j
    simp only [List.getD_eq_getElem?_getD, List.getElem?_drop]
  simp only [hg] at hs
  simp only [slice] at hs
  simp only [CapSlice.reslice]
  exact hs

/-- C25, counterexample: in `scrambledPES` the flag byte is 0, so the offset is
3, and `content[2]` is 6: `off + 5 ≤ content[2]` does not hold. Even so
`privateData` returns the 3 bytes `content[3..5]`, its re-slice `[1:5]` is
`content[4..7]`, read beyond the end of the returned slice, and `decryptPacket`
fetches the cipher of the confounder of these bytes. -/
theorem privateData_past_length :
    privateOffset (scrambledPES.content.getD 1 0) = 3 ∧
    scrambledPES.content.getD 2 0 = 6 ∧ scrambledPES.content.length = 12 ∧
    ¬ (privateOffset (scrambledPES.content.getD 1 0) + 5 ≤ scrambledPES.content.getD 2 0) ∧
    scrambledPES.privateData.toOption.map
        (fun pd => (pd.store.take pd.len, (pd.reslice 1 5).toOption))
      = some ([0x11, 0x04, 0x08], some [0x04, 0x08, 0x0c, 0x00]) ∧
    ((psDecryptor.mk freshPool).decryptPacket scrambledPES).toOption.map
        (fun r => mapGet r.1.pool.ciphers { id := 0xe0, confounder := (16, 32, 96) })
      = some (some 0) := by
  decide

/-- C25, amended: with `flags = content[1]` and `off` the offset of the
specification, which the loop over `flagLengths` computes and which lies
between 3 and 27, the extraction of the confounder input is defined exactly when
the content has at least 3 bytes, `off ≤ content[2] ≤ len(content)` and
`off + 5 ≤ len(content)`: the re-slice `[1:5]` is checked against the capacity
of the slice that `privateData` returns, which reaches to the end of the
content. Then `privateData` is `content[off .. content[2]-1]`, the confounder
input is `content[off+1 .. off+4]`, and a `decryptPacket` that returns has
fetched the cipher of (packet id, confounder of these bytes). -/
theorem privateData_extraction (P : Primitives) (packet : psPacket)
    (hflags : packet.content.getD 1 0 < 256) :
    (3 ≤ privateOffset (packet.content.getD 1 0) ∧
      privateOffset (packet.content.getD 1 0) ≤ 27 ∧
      privateOffset (packet.content.getD 1 0) = specPrivateOffset (packet.content.getD 1 0)) ∧
    ((∃ pd sc, packet.privateData = .ok pd ∧ pd.reslice 1 5 = .ok sc) ↔
      (3 ≤ packet.content.length ∧
        privateOffset (packet.content.getD 1 0) ≤ packet.content.getD 2 0 ∧
        packet.content.getD 2 0 ≤ packet.content.length ∧
        privateOffset (packet.content.getD 1 0) + 5 ≤ packet.content.length)) ∧
    (∀ pd sc, packet.privateData = .ok pd → pd.reslice 1 5 = .ok sc →
      pd.store.take pd.len
        = (packet.content.take (packet.content.getD 2 0)).drop
            (privateOffset (packet.content.getD 1 0)) ∧
      sc = [packet.content.getD (privateOffset (packet.content.getD 1 0) + 1) 0,
            packet.content.getD (privateOffset (packet.content.getD 1 0) + 2) 0,
            packet.content.getD (privateOffset (packet.content.getD 1 0) + 3) 0,
            packet.content.getD (privateOffset (packet.content.getD 1 0) + 4) 0]) ∧
    (∀ (dec dec' : psDecryptor P) (packet' : psPacket),
      dec.decryptPacket packet = .ok (dec', packet') →
      ∃ conf pool1 c,
        confounder [packet.content.getD (privateOffset (packet.content.getD 1 0) + 1) 0,
            packet.content.getD (privateOffset (packet.content.getD 1 0) + 2) 0,
            packet.content.getD (privateOffset (packet.content.getD 1 0) + 3) 0,
            packet.content.getD (privateOffset (packet.content.getD 1 0) + 4) 0] = .ok conf ∧
        getCipher P dec.pool packet.id conf = .ok (pool1, c)) := by
  obtain ⟨s1, s2, s3⟩ := privateOffset_spec _ hflags
  have hinv : ∀ pd sc, packet.privateData = .ok pd → pd.reslice 1 5 = .ok sc →
      3 ≤ packet.content.length ∧
      privateOffset (packet.content.getD 1 0) ≤ packet.content.getD 2 0 ∧
      packet.content.getD 2 0 ≤ packet.content.length ∧
      privateOffset (packet.content.getD 1 0) + 5 ≤ packet.content.length ∧
      pd = { store := packet.content.drop (privateOffset (packet.content.getD 1 0)),
             len := packet.content.getD 2 0 - privateOffset (packet.content.getD 1 0) } := by
    intro pd sc hpd hsc
    by_cases hlen : 3 ≤ packet.content.length
    · rw [privateData_eq packet hlen] at hpd
      by_cases hc : privateOffset (packet.content.getD 1 0) ≤ packet.content.getD 2 0 ∧
          packet.content.getD 2 0 ≤ packet.content.length
      · rw [if_pos hc] at hpd
        have hpd' := (Except.ok.inj hpd).symm
        refine ⟨hlen, hc.1, hc.2, ?_, hpd'⟩
        by_contra hno
        rw [hpd'] at hsc
        simp only [CapSlice.reslice, List.length_drop] at hsc
        rw [if_neg (by omega)] at hsc
        exact absurd hsc (by simp)
      · rw [if_neg hc] at hpd
        exact absurd hpd (by simp)
    · obtain ⟨e, he⟩ := privateData_short packet (by omega)
      rw [he] at hpd
      exact absurd hpd (by simp)
  have hsc : ∀ pd sc, packet.privateData = .ok pd → pd.reslice 1 5 = .ok sc →
      sc = [packet.content.getD (privateOffset (packet.content.getD 1 0) + 1) 0,
            packet.content.getD (privateOffset (packet.content.getD 1 0) + 2) 0,
            packet.content.getD (privateOffset (packet.content.getD 1 0) + 3) 0,
            packet.content.getD (privateOffset (packet.content.getD 1 0) + 4) 0] := by
    intro pd sc hpd hs
    obtain ⟨-, -, -, h4, h5⟩ := hinv pd sc hpd hs
    rw [h5, reslice_eq packet.content _ _ h4] at hs
    exact (Except.ok.inj hs).symm
  refine ⟨⟨s2, s3, s1⟩, ⟨?_, ?_⟩, ?_, ?_⟩
  · rintro ⟨pd, sc, hpd, hs⟩
    obtain ⟨h1, h2, h3, h4, -⟩ := hinv pd sc hpd hs
    exact ⟨h1, h2, h3, h4⟩
  · rintro ⟨h1, h2, h3, h4⟩
    exact ⟨_, _, by rw [privateData_eq packet h1, if_pos ⟨h2, h3⟩],
      reslice_eq packet.content _ _ h4⟩
  · intro pd sc hpd hs
    obtain ⟨h1, h2, h3, h4, h5⟩ := hinv pd sc hpd hs
    refine ⟨?_, hsc pd sc hpd hs⟩
    rw [h5]
    simp only
    rw [List.take_drop]
    congr 2
    omega
  · intro dec dec' packet' h
    obtain ⟨pd, sc, conf, pool1, c, st, off, i1, i2, i3, i4, -, -⟩ :=
      ps_decryptPacket_inv P dec dec' packet packet' h
    rw [hsc pd sc i1 i2] at i3
    exact ⟨conf, pool1, c, i3, i4⟩

set_option maxRecDepth 100000 in
/-- Witness for C25 (amended): on `scrambledPES` the extraction is defined, with
offset 3, `content[2] = 6` and 12 content bytes. -/
theorem privateData_extraction_witness :
    ∃ pd sc, scrambledPES.privateData = .ok pd ∧ pd.reslice 1 5 = .ok sc :=
  (privateData_extraction countingPrimitives scrambledPES (by decide)).2.1.mpr
    ⟨by decide, by decide, by decide, by decide⟩

/-! ### Frames on which processing faults -/

/-- The scan of `processPMT` ends within its iteration bound: its offset grows
by 5 in every round and indexes the payload. -/
theorem pmtLoop_fuel (payload : List Nat) (L : Nat) :
    ∀ fuel off, 1 ≤ fuel → payload.length + 5 ≤ off + 5 * fuel →
      pmtLoop payload L fuel off ≠ .error .outOfFuel := by
  intro fuel
  induction fuel with
  | zero => intro off h; omega
  | succ fuel ih =>
    intro off _ hle
    rw [pmtLoop]
    by_cases hc : off % 65536 < L
    · rw [if_pos hc]
      by_cases hin : off < payload.length
      · rw [index_getD payload off hin]
        simp only [bind, Except.bind]
        by_cases ht : payload.getD off 0 = tsPrivateType
        · rw [if_pos ht]
          by_cases h3 : off + 1 + 2 ≤ payload.length
          · have hs := slice_two payload (off + 1) h3
            rw [show off + 1 + 2 = off + 3 from rfl] at hs
            simp [hs, extractPacketID, joinShort, bind, Except.bind, pure, Except.pure]
          · have hs : slice payload (off + 1) (off + 3) = .error .sliceBoundsOutOfRange := by
              unfold slice
              rw [if_neg (by omega)]
            simp [hs]
        · rw [if_neg ht]
          exact ih (off + 5) (by omega) (by omega)
      · have hi : index payload off = .error .indexOutOfRange := by
          simp only [index, List.get?_eq_getElem?]
          rw [List.getElem?_eq_none (by omega)]
        rw [hi]
        simp [bind, Except.bind]
    · rw [if_neg hc]
      simp [pure, Except.pure]

theorem wordAt_cases (payload : List Nat) (off : Nat) :
    (off + 4 ≤ payload.length → ∃ w, wordAt payload off = .ok w) ∧
    (¬ off + 4 ≤ payload.length → wordAt payload off = .error .sliceBoundsOutOfRange) := by
  constructor
  · intro h
    have hw : wordAt payload off = joinWord [payload.getD off 0, payload.getD (off + 1) 0,
        payload.getD (off + 2) 0, payload.getD (off + 3) 0] := by
      simp only [wordAt, slice_four payload off h, bind, Except.bind]
    rw [hw]
    exact ⟨_, rfl⟩
  · intro h
    have hs : slice payload off (off + 4) = .error .sliceBoundsOutOfRange := by
      unfold slice
      rw [if_neg (fun hc => h hc.2)]
    simp only [wordAt, hs, bind, Except.bind]

theorem matrix_bound (b off : Nat) :
    off + 12 ≤ (if b &&& (1 <<< 0) ≠ 0
      then (if b &&& (1 <<< 1) ≠ 0 then off + 12 + 64 else off + 12) + 64
      else (if b &&& (1 <<< 1) ≠ 0 then off + 12 + 64 else off + 12)) := by
  split_ifs <;> omega

/-- The sequence-header loop of `decryptPacket` ends within its iteration
bound: its offset grows by at least 12 in every round and the start code is
read from the payload. -/
theorem sequenceLoop_fuel (payload : List Nat) :
    ∀ fuel off, 1 ≤ fuel → payload.length + 12 ≤ off + 12 * fuel →
      sequenceLoop payload fuel off ≠ .error .outOfFuel := by
  intro fuel
  induction fuel with
  | zero => intro off h; omega
  | succ fuel ih =>
    intro off _ hle
    rw [sequenceLoop]
    by_cases h4 : off + 4 ≤ payload.length
    · obtain ⟨w, hw⟩ := (wordAt_cases payload off).1 h4
      simp only [hw, bind, Except.bind]
      by_cases hc : w = psCode psSequenceHeader
      · rw [if_pos hc]
        by_cases h11 : off + 11 < payload.length
        · rw [index_getD payload (off + 11) h11]
          simp only
          have hm := matrix_bound (payload.getD (off + 11) 0) off
          generalize (if payload.getD (off + 11) 0 &&& (1 <<< 0) ≠ 0
            then (if payload.getD (off + 11) 0 &&& (1 <<< 1) ≠ 0 then off + 12 + 64
              else off + 12) + 64
            else (if payload.getD (off + 11) 0 &&& (1 <<< 1) ≠ 0 then off + 12 + 64
              else off + 12)) = o1 at hm ⊢
          by_cases h14 : o1 + 4 ≤ payload.length
          · obtain ⟨w', hw'⟩ := (wordAt_cases payload o1).1 h14
            simp only [hw']
            apply ih
            · omega
            · split_ifs <;> omega
          · rw [(wordAt_cases payload o1).2 h14]
            simp
        · have hi : index payload (off + 11) = .error .indexOutOfRange := by
            simp only [index, List.get?_eq_getElem?]
            rw [List.getElem?_eq_none (by omega)]
          rw [hi]
          simp
      · rw [if_neg hc]
        simp [pure, Except.pure]
    · rw [(wordAt_cases payload off).2 h4]
      simp [bind, Except.bind]

set_option maxRecDepth 100000 in
/-- C26: four 188-byte frames that begin with the sync byte, on each of which
`processPacket` faults instead of returning: `shortPatFrame`, a frame on
identifier 0 whose adaptation field leaves a payload of 3 bytes (`processPAT`
slices `payload[2:4]`); `longPmtFrame`, a program-map frame with section length
`fff` and no stream type `97` (the scan indexes `payload[188]`);
`longPrivateFrame`, a private-data frame with table length 200 (the tenth entry
is sliced at `payload[190:192]`); and `runawayFrame`, a scrambled data frame
that starts a PES unit with header data length `ff` (the start code is read at
`payload[264:268]`). -/
theorem ts_processPacket_faults :
    shortPatFrame.content.length = 188 ∧ shortPatFrame.content.getD 0 0 = tsSync ∧
    tsReady.processPacket shortPatFrame = .error .sliceBoundsOutOfRange ∧
    longPmtFrame.content.length = 188 ∧ longPmtFrame.content.getD 0 0 = tsSync ∧
    tsReady.processPacket longPmtFrame = .error .indexOutOfRange ∧
    longPrivateFrame.content.length = 188 ∧ longPrivateFrame.content.getD 0 0 = tsSync ∧
    tsReady.processPacket longPrivateFrame = .error .sliceBoundsOutOfRange ∧
    runawayFrame.content.length = 188 ∧ runawayFrame.content.getD 0 0 = tsSync ∧
    tsKeyed.processPacket runawayFrame = .error .sliceBoundsOutOfRange :=
  ⟨by decide, by decide, rfl, by decide, by decide, rfl, by decide, by decide, rfl,
    by decide, by decide, rfl⟩

/-! ### The IV of a file without a stored segment -/

/-- C27: evaluation at the failing input. The header of `psOneSegmentFile`
declares one segment; `readFileMetadata` succeeds and returns the empty segment
list, and `Decrypt` faults on `meta[0]`. The header of `zeroSegmentFile`
declares no segment; the count `0 - 1` wraps to 65535 and `readFileMetadata`
fails reading the first of them from the 4 bytes that are left. -/
theorem readFileMetadata_empty_list :
    (readFileMetadata [psOneSegmentFile]).err = none ∧
    (readFileMetadata [psOneSegmentFile]).header.MetaSegments = 1 ∧
    (readFileMetadata [psOneSegmentFile]).meta = [] ∧
    Decrypt countingPrimitives [psOneSegmentFile] [0x31] = .error .indexOutOfRange ∧
    (decodeFileHeader (zeroSegmentFile.take 16)).MetaSegments = 0 ∧
    ((decodeFileHeader (zeroSegmentFile.take 16)).MetaSegments + 65535) % 65536 = 65535 ∧
    (readFileMetadata [zeroSegmentFile]).err = some .ErrUnexpectedEOF := by
  decide

/-! ### Tables and skips that run past the payload -/

set_option maxRecDepth 100000 in
/-- C21: evaluation at the failing inputs. Both frames are 188 bytes on the
program-map identifier with pointer byte 0. In `tailPmtFrame` the section
length is 4095 and the first examined stream-type byte equal to `97` is at
payload offset 183 = 13 + 5 * 34, the last byte of the payload: `processPMT`
faults on `payload[184:186]` instead of setting the private-data identifier.
In `overPmtFrame` the section length is 200 and none of the 35 stream-type
bytes within the payload is `97`: `processPMT` faults on `payload[188]`, the
next offset below 200, instead of returning the error. -/
theorem processPMT_faults :
    tailPmtFrame.content.length = 188 ∧ tailPmtFrame.id = .ok tsReady.pmtID ∧
    tailPmtFrame.payload = .ok (tailPmtFrame.content.drop 4) ∧
    (tailPmtFrame.content.drop 4).getD 0 0 = 0 ∧
    ((tailPmtFrame.content.drop 4).getD 2 0 * 256 + (tailPmtFrame.content.drop 4).getD 3 0)
      % 4096 = 4095 ∧
    (∀ j, j < 34 → (tailPmtFrame.content.drop 4).getD (13 + 5 * j) 0 ≠ 0x97) ∧
    (tailPmtFrame.content.drop 4).getD (13 + 5 * 34) 0 = 0x97 ∧
    tsReady.processPMT tailPmtFrame = .error .sliceBoundsOutOfRange ∧
    overPmtFrame.content.length = 188 ∧ overPmtFrame.id = .ok tsReady.pmtID ∧
    overPmtFrame.payload = .ok (overPmtFrame.content.drop 4) ∧
    (overPmtFrame.content.drop 4).getD 0 0 = 0 ∧
    ((overPmtFrame.content.drop 4).getD 2 0 * 256 + (overPmtFrame.content.drop 4).getD 3 0)
      % 4096 = 200 ∧
    (∀ j, j < 35 → (overPmtFrame.content.drop 4).getD (13 + 5 * j) 0 ≠ 0x97) ∧
    tsReady.processPMT overPmtFrame = .error .indexOutOfRange :=
  ⟨by decide, by decide, by decide, by decide, by decide, by decide, by decide, rfl,
    by decide, by decide, by decide, by decide, by decide, by decide, rfl⟩

set_option maxRecDepth 100000 in
/-- C24: evaluation at the failing inputs. Both frames are 188 bytes, begin with
the sync byte, are scrambled, have the payload-start flag set, and are on
identifier `0100`, for which `tsKeyed` holds a cipher. In `groupAtEndFrame` the
payload begins `00 00 01`, the offset of the specification is
9 + 170 + 8 = 187, beyond the 184 bytes of the payload: `decryptPacket` faults
on `payload[187:]` and decrypts nothing. In `tinyPesFrame` the payload has 2
bytes, so it does not begin `00 00 01`: `decryptPacket` faults on
`payload[0:4]` instead of XORing the whole payload. -/
theorem ts_decryptPacket_skip_faults :
    groupAtEndFrame.content.length = 188 ∧ groupAtEndFrame.content.getD 0 0 = tsSync ∧
    groupAtEndFrame.scramble = 3 ∧ groupAtEndFrame.payloadStart = true ∧
    groupAtEndFrame.id = .ok 0x100 ∧ mapGet tsKeyed.ciphers 0x100 = some 0 ∧
    groupAtEndFrame.payload = .ok (groupAtEndFrame.content.drop 4) ∧
    (groupAtEndFrame.content.drop 4).take 3 = [0x00, 0x00, 0x01] ∧
    skipOffset (groupAtEndFrame.content.drop 4) = 187 ∧
    (groupAtEndFrame.content.drop 4).length = 184 ∧
    tsKeyed.decryptPacket groupAtEndFrame = .error .sliceBoundsOutOfRange ∧
    tinyPesFrame.content.length = 188 ∧ tinyPesFrame.content.getD 0 0 = tsSync ∧
    tinyPesFrame.scramble = 3 ∧ tinyPesFrame.payloadStart = true ∧
    tinyPesFrame.id = .ok 0x100 ∧
    tinyPesFrame.payload = .ok [0x00, 0x00] ∧
    tsKeyed.decryptPacket tinyPesFrame = .error .sliceBoundsOutOfRange :=
  ⟨by decide, by decide, by decide, by decide, by decide, by decide, by decide, by decide,
    by decide, by decide, rfl, by decide, by decide, by decide, by decide, by decide,
    by decide, rfl⟩

end Devo
